import Mathlib

/-!
Verification development for the storage/concurrency core of the bustub-based
teaching DBMS in this repository.  Each C++ component the claims touch is
shallowly embedded as executable Lean definitions translated from the source
files under src/, and the claims are settled as theorems about those
definitions.

Conventions:
* C++ machine integers that are used as counters/ids are modelled as `Nat`
  (frame ids, sizes) or `Int` (page ids, which use -1 as INVALID_PAGE_ID).
* C++ `throw` is modelled with `Except`.
* Mutexes/latches are concurrency-only and have no effect on the sequential
  state transformers modelled here.
-/

namespace Bustub

/-! # Lock manager (src/.../lock_manager.cpp)

The lock manager source is the `lock_manager.cpp` section of
src/bustub/src/optimizer/sort_limit_as_topn.cpp.  We embed the admission
checks of `LockTable`/`LockRow`, the compatibility matrix
(`GrantCompatiable`), the grant pass (`GrantLock`) and the waits-for edge
construction of `RunCycleDetection`.
-/

/-- Lock modes of `LockManager::LockMode`. -/
inductive LockMode
  | IS
  | IX
  | S
  | SIX
  | X
deriving DecidableEq, Repr, Fintype

/-- Transaction states of `TransactionState` (concurrency/transaction.h). -/
inductive TxnState
  | growing
  | shrinking
  | committed
  | aborted
deriving DecidableEq, Repr, Fintype

/-- Isolation levels of `IsolationLevel`. -/
inductive IsoLevel
  | readUncommitted
  | readCommitted
  | repeatableRead
deriving DecidableEq, Repr, Fintype

/-- Abort reasons of `AbortReason` that the admission checks can raise. -/
inductive AbortReason
  | lockOnShrinking
  | lockSharedOnReadUncommitted
  | upgradeConflict
  | incompatibleUpgrade
  | tableLockNotPresent
  | tableUnlockedBeforeUnlockingRows
  | attemptedUnlockButNoLockHeld
deriving DecidableEq, Repr, Fintype

/-- Outcome of the state/isolation admission prefix of a lock call:
either the call proceeds to the queue logic, or it aborts the transaction
with a typed `TransactionAbortException`, or it raises a plain
`std::logic_error` (impossible transaction state). -/
inductive Admission
  | proceed
  | abort (r : AbortReason)
  | logicError
deriving DecidableEq, Repr, Fintype

open LockMode TxnState IsoLevel

/-- Admission prefix of `LockManager::LockTable`: the checks performed on
(transaction state, isolation level, requested mode) before the request is
enqueued, translated branch by branch from the source. -/
def lockTableAdmission (st : TxnState) (iso : IsoLevel) (m : LockMode) : Admission :=
  if st = committed ∨ st = aborted then .logicError
  else if st = growing then
    -- GROWING: READ_UNCOMMITTED forbids S / IS / SIX
    if iso = readUncommitted ∧ (m = S ∨ m = IS ∨ m = SIX) then
      .abort .lockSharedOnReadUncommitted
    else .proceed
  else
    -- SHRINKING
    if iso = repeatableRead then .abort .lockOnShrinking
    else if iso = readUncommitted then
      -- X / IX raise LOCK_ON_SHRINKING, every other mode
      -- LOCK_SHARED_ON_READ_UNCOMMITTED; no mode proceeds
      if m = X ∨ m = IX then .abort .lockOnShrinking
      else .abort .lockSharedOnReadUncommitted
    else
      -- READ_COMMITTED: only S / IS proceed
      if m = S ∨ m = IS then .proceed
      else .abort .lockOnShrinking

/-- Admission prefix of `LockManager::LockRow` (after the intention-mode and
table-fit checks), translated branch by branch from the source. -/
def lockRowAdmission (st : TxnState) (iso : IsoLevel) (m : LockMode) : Admission :=
  if m = IS ∨ m = IX ∨ m = SIX then .logicError
  else if st = committed ∨ st = aborted then .logicError
  else if st = growing then
    if iso = readUncommitted ∧ m ≠ X then .abort .lockSharedOnReadUncommitted
    else .proceed
  else
    if iso = repeatableRead then .abort .lockOnShrinking
    else if iso = readUncommitted then
      if m = X then .abort .lockOnShrinking
      else .abort .lockSharedOnReadUncommitted
    else
      if m = S then .proceed
      else .abort .lockOnShrinking

/-- Compatibility test `LockManager::GrantCompatiable`, translated from the
source (note the source spells it "Compatiable"). -/
def GrantCompatiable (a b : LockMode) : Bool :=
  if a = X ∨ b = X then false
  else if (a = S ∧ b = IX) ∨ (a = IX ∧ b = S) then false
  else if (a = SIX ∧ b ≠ IS) ∨ (a ≠ IS ∧ b = SIX) then false
  else true

/-- Compatibility matrix exactly as written in §4.5 of the specification
(rows = requested, columns = held); used to check that the code's
`GrantCompatiable` refines the documented matrix. -/
def specCompatible (req held : LockMode) : Bool :=
  match req, held with
  | IS, IS => true  | IS, IX => true  | IS, S => true  | IS, SIX => true  | IS, X => false
  | IX, IS => true  | IX, IX => true  | IX, S => false | IX, SIX => false | IX, X => false
  | S,  IS => true  | S,  IX => false | S,  S => true  | S,  SIX => false | S,  X => false
  | SIX, IS => true | SIX, IX => false| SIX, S => false| SIX, SIX => false| SIX, X => false
  | X,  _  => false

theorem grantCompatiable_eq_spec : ∀ a b, GrantCompatiable a b = specCompatible a b := by
  decide

theorem grantCompatiable_symm : ∀ a b, GrantCompatiable a b = GrantCompatiable b a := by
  decide

/-- A lock request (`LockManager::LockRequest`); the resource id is implicit
in the queue holding the request. -/
structure LockRequest where
  txn_id : Nat
  lock_mode : LockMode
  granted : Bool
deriving DecidableEq, Repr

/-- A lock request queue (`LockManager::LockRequestQueue`); `upgrading = none`
models `upgrading_ == INVALID_TXN_ID`. -/
structure LRQueue where
  request_queue : List LockRequest
  upgrading : Option Nat
deriving DecidableEq, Repr

/-- The FIFO grant scan at the end of `LockManager::GrantLock` (both the
table and the row overload contain the same loop): walk the queue, grant
each ungranted request that is compatible with every currently granted
request (`has_granted_lock_request`, which grows as requests are granted),
and remember whether the request of `txn` ended up granted. -/
def grantScan (gran : List LockRequest) (txn : Nat) (flag : Bool) :
    List LockRequest → List LockRequest × Bool
  | [] => ([], flag)
  | r :: rest =>
    if r.granted then
      let (rest', flag') := grantScan gran txn (flag || (r.txn_id == txn)) rest
      (r :: rest', flag')
    else
      if gran.all (fun g => GrantCompatiable g.lock_mode r.lock_mode) then
        let r' := { r with granted := true }
        let (rest', flag') := grantScan (gran ++ [r']) txn (flag || (r.txn_id == txn)) rest
        (r' :: rest', flag')
      else
        let (rest', flag') := grantScan gran txn flag rest
        (r :: rest', flag')

/-- Grant the request of `txn` in place (the upgrade-grant loop inside
`GrantLock`: find the request whose `txn_id_` matches and set `granted_`). -/
def markGranted (txn : Nat) : List LockRequest → List LockRequest
  | [] => []
  | r :: rest =>
    if r.txn_id == txn then { r with granted := true } :: rest
    else r :: markGranted txn rest

/-- Does some request of `txn` occur in the queue? (the upgrade-grant loop
finds one iff this holds; otherwise control falls through to the scan). -/
def hasRequestOf (txn : Nat) (rq : List LockRequest) : Bool :=
  rq.any fun r => r.txn_id == txn

/-- The mutating core of `LockManager::GrantLock` (table and row overloads
share this body): returns whether `txn`'s request is now granted together
with the updated queue.  Steps follow the source: collect granted requests,
reject if the requested mode is incompatible with any of them, grant an
in-flight upgrade of `txn` with priority, otherwise run the FIFO scan. -/
def grantLock (q : LRQueue) (txn : Nat) (m : LockMode) : Bool × LRQueue :=
  let has_granted := q.request_queue.filter fun r => r.granted
  if ¬ has_granted.all (fun g => GrantCompatiable g.lock_mode m) then
    (false, q)
  else if q.upgrading = some txn ∧ hasRequestOf txn q.request_queue then
    (true, { request_queue := markGranted txn q.request_queue, upgrading := none })
  else
    let (rq', flag) := grantScan has_granted txn false q.request_queue
    (flag, { q with request_queue := rq' })

/-- Invariant of claim C8: any two granted requests in a queue carry
mutually compatible modes. -/
def PairwiseCompatible (rq : List LockRequest) : Prop :=
  (rq.filter fun r => r.granted).Pairwise
    fun a b => GrantCompatiable a.lock_mode b.lock_mode = true

instance (rq : List LockRequest) : Decidable (PairwiseCompatible rq) := by
  unfold PairwiseCompatible; infer_instance

/-- Membership-level compatibility: any two requests of distinct
transactions in the list are mutually compatible.  Working up to
transaction ids avoids reasoning about duplicate list entries. -/
def GoodSet (l : List LockRequest) : Prop :=
  ∀ a ∈ l, ∀ b ∈ l, a.txn_id ≠ b.txn_id →
    GrantCompatiable a.lock_mode b.lock_mode = true

/-- The accumulator of granted requests at the end of the FIFO scan. -/
def scanAcc (gran : List LockRequest) : List LockRequest → List LockRequest
  | [] => gran
  | r :: rest =>
    if r.granted then scanAcc gran rest
    else
      if gran.all (fun g => GrantCompatiable g.lock_mode r.lock_mode) then
        scanAcc (gran ++ [{ r with granted := true }]) rest
      else scanAcc gran rest

theorem scanAcc_mono (rq : List LockRequest) :
    ∀ gran, gran ⊆ scanAcc gran rq := by
  induction rq with
  | nil => intro gran; simp [scanAcc]
  | cons r rest ih =>
    intro gran
    simp only [scanAcc]
    by_cases hg : r.granted
    · simpa [hg] using ih gran
    · by_cases hc : gran.all (fun g => GrantCompatiable g.lock_mode r.lock_mode)
      · simp only [hg, hc, if_false, if_true]
        exact fun x hx => ih _ (List.mem_append_left _ hx)
      · simpa [hg, hc] using ih gran

theorem grantScan_good (txn : Nat) (rq : List LockRequest) :
    ∀ gran flag,
      GoodSet gran →
      (∀ r ∈ rq, r.granted = true → r ∈ gran) →
      GoodSet (scanAcc gran rq) ∧
      ∀ r' ∈ (grantScan gran txn flag rq).1, r'.granted = true →
        r' ∈ scanAcc gran rq := by
  induction rq with
  | nil =>
    intro gran flag hgood _
    exact ⟨hgood, by simp [grantScan]⟩
  | cons r rest ih =>
    intro gran flag hgood hmem
    cases hg : r.granted with
    | true =>
      have hrest : ∀ x ∈ rest, x.granted = true → x ∈ gran := fun x hx hxg =>
        hmem x (List.mem_cons_of_mem _ hx) hxg
      obtain ⟨hacc, hout⟩ := ih gran (flag || (r.txn_id == txn)) hgood hrest
      refine ⟨by simpa [scanAcc, hg] using hacc, ?_⟩
      intro x hx hxg
      simp only [grantScan, hg, if_true] at hx
      rcases List.mem_cons.mp hx with h | h
      · have : x ∈ gran := hmem x (h ▸ List.mem_cons_self _ _) hxg
        simpa [scanAcc, hg] using scanAcc_mono rest gran this
      · simpa [scanAcc, hg] using hout x h hxg
    | false =>
      cases hc : gran.all (fun g => GrantCompatiable g.lock_mode r.lock_mode) with
      | true =>
        -- r is granted and joins the accumulator
        have hcompat : ∀ g ∈ gran, GrantCompatiable g.lock_mode r.lock_mode = true := by
          simpa [List.all_eq_true] using hc
        have hgood' : GoodSet (gran ++ [{ r with granted := true }]) := by
          intro a ha b hb hne
          rcases List.mem_append.mp ha with ha | ha <;>
            rcases List.mem_append.mp hb with hb | hb
          · exact hgood a ha b hb hne
          · have hb' : b = { r with granted := true } := by simpa using hb
            subst hb'
            exact hcompat a ha
          · have ha' : a = { r with granted := true } := by simpa using ha
            subst ha'
            have := hcompat b hb
            simpa [grantCompatiable_symm] using this
          · have ha' : a = { r with granted := true } := by simpa using ha
            have hb' : b = { r with granted := true } := by simpa using hb
            subst ha'; subst hb'
            exact absurd rfl hne
        have hrest : ∀ x ∈ rest, x.granted = true →
            x ∈ gran ++ [{ r with granted := true }] := fun x hx hxg =>
          List.mem_append_left _ (hmem x (List.mem_cons_of_mem _ hx) hxg)
        obtain ⟨hacc, hout⟩ :=
          ih (gran ++ [{ r with granted := true }]) (flag || (r.txn_id == txn)) hgood' hrest
        refine ⟨by simpa [scanAcc, hg, hc] using hacc, ?_⟩
        intro x hx hxg
        simp only [grantScan, hg, hc, if_true, if_false] at hx
        rcases List.mem_cons.mp hx with h | h
        · have hxmem : x ∈ gran ++ [{ r with granted := true }] :=
            List.mem_append_right _ (by simp [h])
          simpa [scanAcc, hg, hc] using scanAcc_mono rest _ hxmem
        · simpa [scanAcc, hg, hc] using hout x h hxg
      | false =>
        have hrest : ∀ x ∈ rest, x.granted = true → x ∈ gran := fun x hx hxg =>
          hmem x (List.mem_cons_of_mem _ hx) hxg
        obtain ⟨hacc, hout⟩ := ih gran flag hgood hrest
        refine ⟨by simpa [scanAcc, hg, hc] using hacc, ?_⟩
        intro x hx hxg
        simp only [grantScan, hg, hc, if_false] at hx
        rcases List.mem_cons.mp hx with h | h
        · rw [h] at hxg
          simp [hg] at hxg
        · simpa [scanAcc, hg, hc] using hout x h hxg

theorem grantScan_txn_ids (txn : Nat) (rq : List LockRequest) :
    ∀ gran flag,
      ((grantScan gran txn flag rq).1.map LockRequest.txn_id) =
        rq.map LockRequest.txn_id := by
  induction rq with
  | nil => intro gran flag; simp [grantScan]
  | cons r rest ih =>
    intro gran flag
    by_cases hg : r.granted
    · simp [grantScan, hg, ih]
    · by_cases hc : gran.all (fun g => GrantCompatiable g.lock_mode r.lock_mode)
      · simp [grantScan, hg, hc, ih]
      · simp [grantScan, hg, hc, ih]

theorem markGranted_txn_ids (txn : Nat) (rq : List LockRequest) :
    (markGranted txn rq).map LockRequest.txn_id = rq.map LockRequest.txn_id := by
  induction rq with
  | nil => simp [markGranted]
  | cons r rest ih =>
    by_cases h : r.txn_id == txn
    · simp [markGranted, h]
    · simp [markGranted, h, ih]

theorem goodSet_pairwise (rq : List LockRequest)
    (hn : (rq.map LockRequest.txn_id).Nodup)
    (hgood : ∀ a ∈ rq.filter (fun r => r.granted),
      ∀ b ∈ rq.filter (fun r => r.granted), a.txn_id ≠ b.txn_id →
        GrantCompatiable a.lock_mode b.lock_mode = true) :
    PairwiseCompatible rq := by
  have hsub : List.Sublist ((rq.filter fun r => r.granted).map LockRequest.txn_id)
      (rq.map LockRequest.txn_id) := (List.filter_sublist rq).map _
  have hfn : ((rq.filter fun r => r.granted).map LockRequest.txn_id).Nodup :=
    hn.sublist hsub
  have hpne : (rq.filter fun r => r.granted).Pairwise
      (fun a b => a.txn_id ≠ b.txn_id) := by
    have h' : List.Pairwise (fun a b => a ≠ b)
        ((rq.filter fun r => r.granted).map LockRequest.txn_id) := hfn
    exact List.pairwise_map.mp h'
  exact hpne.imp_of_mem fun {a b} ha hb hne => hgood a ha b hb hne

/-- Helper converting the claim invariant into the membership version. -/
theorem pairwise_goodSet (rq : List LockRequest)
    (h : PairwiseCompatible rq) :
    GoodSet (rq.filter fun r => r.granted) := by
  intro a ha b hb hne
  have hsymm : Symmetric fun (a b : LockRequest) =>
      GrantCompatiable a.lock_mode b.lock_mode = true := by
    intro x y hxy
    simpa [grantCompatiable_symm y.lock_mode x.lock_mode] using hxy
  have hanb : a ≠ b := fun hab => hne (by rw [hab])
  exact h.forall hsymm ha hb hanb

theorem markGranted_mem (txn : Nat) (rq : List LockRequest) :
    ∀ x ∈ markGranted txn rq, x ∈ rq ∨
      ∃ r ∈ rq, r.txn_id = txn ∧ x = { r with granted := true } := by
  induction rq with
  | nil => simp [markGranted]
  | cons r rest ih =>
    intro x hx
    cases h : (r.txn_id == txn) with
    | true =>
      simp only [markGranted, h, if_true] at hx
      rcases List.mem_cons.mp hx with h1 | h1
      · exact Or.inr ⟨r, List.mem_cons_self _ _, by simpa using h, h1⟩
      · exact Or.inl (List.mem_cons_of_mem _ h1)
    | false =>
      simp only [markGranted, h, if_false] at hx
      rcases List.mem_cons.mp hx with h1 | h1
      · exact Or.inl (h1 ▸ List.mem_cons_self _ _)
      · rcases ih x h1 with h2 | ⟨r', hr', ht, hx'⟩
        · exact Or.inl (List.mem_cons_of_mem _ h2)
        · exact Or.inr ⟨r', List.mem_cons_of_mem _ hr', ht, hx'⟩

/-- Claim C8: in every lock-request queue, any two granted requests have
mutually compatible modes under the §4.5 matrix, and the granting operation
`GrantLock` (which performs the initial grant, the FIFO grant scan, and the
upgrade grant) preserves this invariant.  The hypotheses record two queue
invariants maintained by `UpdateLock`: a queue holds at most one request per
transaction, and the request of the granting transaction carries the
requested mode. -/
theorem C8_grantLock_preserves_compatibility (q : LRQueue) (txn : Nat) (m : LockMode)
    (hn : (q.request_queue.map LockRequest.txn_id).Nodup)
    (h1 : PairwiseCompatible q.request_queue)
    (h2 : ∀ r ∈ q.request_queue, r.txn_id = txn → r.lock_mode = m) :
    PairwiseCompatible (grantLock q txn m).2.request_queue := by
  classical
  unfold grantLock
  by_cases hall :
      (q.request_queue.filter fun r => r.granted).all
        (fun g => GrantCompatiable g.lock_mode m) = true
  · have hallm : ∀ g ∈ q.request_queue.filter (fun r => r.granted),
        GrantCompatiable g.lock_mode m = true :=
      fun g hg => List.all_eq_true.mp hall g hg
    by_cases hupg : q.upgrading = some txn ∧ hasRequestOf txn q.request_queue
    · -- upgrade grant: flip the request of txn in place
      simp only [hall, not_true, if_false, hupg, if_true, and_self]
      apply goodSet_pairwise
      · rw [markGranted_txn_ids]; exact hn
      · intro a ha b hb hne
        have hga : a.granted = true := (List.mem_filter.mp ha).2
        have hgb : b.granted = true := (List.mem_filter.mp hb).2
        have ha' := markGranted_mem txn q.request_queue a (List.mem_filter.mp ha).1
        have hb' := markGranted_mem txn q.request_queue b (List.mem_filter.mp hb).1
        have hgood := pairwise_goodSet _ h1
        rcases ha' with ha' | ⟨ra, hra, hta, hxa⟩ <;>
          rcases hb' with hb' | ⟨rb, hrb, htb, hxb⟩
        · exact hgood a (List.mem_filter.mpr ⟨ha', hga⟩)
            b (List.mem_filter.mpr ⟨hb', hgb⟩) hne
        · have hbm : b.lock_mode = m := by
            rw [hxb]; exact h2 rb hrb htb
          have := hallm a (List.mem_filter.mpr ⟨ha', hga⟩)
          rw [hbm]; exact this
        · have ham : a.lock_mode = m := by
            rw [hxa]; exact h2 ra hra hta
          have := hallm b (List.mem_filter.mpr ⟨hb', hgb⟩)
          rw [ham, grantCompatiable_symm]; exact this
        · exfalso
          apply hne
          rw [hxa, hxb]
          show ra.txn_id = rb.txn_id
          rw [hta, htb]
    · -- FIFO grant scan
      simp only [hall, not_true, if_false, hupg, if_true]
      have hgood : GoodSet (q.request_queue.filter fun r => r.granted) :=
        pairwise_goodSet _ h1
      have hmem : ∀ r ∈ q.request_queue, r.granted = true →
          r ∈ q.request_queue.filter (fun r => r.granted) := fun r hr hrg =>
        List.mem_filter.mpr ⟨hr, hrg⟩
      obtain ⟨hacc, hout⟩ :=
        grantScan_good txn q.request_queue (q.request_queue.filter fun r => r.granted)
          false hgood hmem
      apply goodSet_pairwise
      · rw [grantScan_txn_ids]; exact hn
      · intro a ha b hb hne
        have hamem := hout a (List.mem_filter.mp ha).1 (List.mem_filter.mp ha).2
        have hbmem := hout b (List.mem_filter.mp hb).1 (List.mem_filter.mp hb).2
        exact hacc a hamem b hbmem hne
  · simp only [hall, not_false_iff, if_true]
    exact h1

/-- Witness for C8 at a concrete queue: granted S of txn 1, waiting X of
txn 2, waiting S of txn 3; granting for txn 3 leaves the queue pairwise
compatible. -/
theorem C8_grantLock_preserves_compatibility_witness :
    PairwiseCompatible (grantLock
      ⟨[⟨1, S, true⟩, ⟨2, X, false⟩, ⟨3, S, false⟩], none⟩ 3 S).2.request_queue :=
  C8_grantLock_preserves_compatibility
    ⟨[⟨1, S, true⟩, ⟨2, X, false⟩, ⟨3, S, false⟩], none⟩ 3 S
    (by decide) (by decide) (by decide)

/-- Counterexample to claim C7 as stated: under SHRINKING and
READ_UNCOMMITTED the claim says lock_table admits modes X and IX, but the
code aborts the transaction with LOCK_ON_SHRINKING for both of them
(and likewise lock_row aborts for mode X). -/
theorem C7_counterexample :
    lockTableAdmission shrinking readUncommitted X = .abort .lockOnShrinking ∧
    lockTableAdmission shrinking readUncommitted IX = .abort .lockOnShrinking ∧
    lockRowAdmission shrinking readUncommitted X = .abort .lockOnShrinking ∧
    lockTableAdmission shrinking readUncommitted X ≠ .proceed ∧
    lockRowAdmission shrinking readUncommitted X ≠ .proceed := by
  decide

/-- Claim C7, amended: under SHRINKING and READ_UNCOMMITTED no mode is
admitted.  lock_table aborts with LOCK_ON_SHRINKING for X and IX and with
LOCK_SHARED_ON_READ_UNCOMMITTED for every other mode; lock_row aborts with
LOCK_ON_SHRINKING for X and with LOCK_SHARED_ON_READ_UNCOMMITTED for S, and
rejects intention modes with a logic error before the state checks. -/
theorem C7_shrinking_read_uncommitted_aborts :
    ∀ m : LockMode,
      lockTableAdmission shrinking readUncommitted m =
        (if m = X ∨ m = IX then Admission.abort .lockOnShrinking
         else Admission.abort .lockSharedOnReadUncommitted) ∧
      lockRowAdmission shrinking readUncommitted m =
        (if m = IS ∨ m = IX ∨ m = SIX then Admission.logicError
         else if m = X then Admission.abort .lockOnShrinking
         else Admission.abort .lockSharedOnReadUncommitted) := by
  decide

/-! ## Waits-for graph construction (`LockManager::RunCycleDetection`)

The detector walks every queue; for every ordered pair of requests
(iter_first before iter_second) where exactly one of the two is granted and
their modes are incompatible it adds one edge.  The table-queue loop adds
the edge from the ungranted request's transaction to the granted request's
transaction; the row-queue loop adds the reversed edge. -/

/-- Ordered pairs (earlier, later) of a queue, as enumerated by the
two nested iterators of the detector. -/
def queuePairs : List LockRequest → List (LockRequest × LockRequest)
  | [] => []
  | r :: rest => rest.map (fun r2 => (r, r2)) ++ queuePairs rest

/-- Edges contributed by one table-lock queue in `RunCycleDetection`. -/
def tableQueueEdges (rq : List LockRequest) : List (Nat × Nat) :=
  (queuePairs rq).filterMap fun ab =>
    if ((ab.1.granted ∧ ¬ ab.2.granted) ∨ (¬ ab.1.granted ∧ ab.2.granted))
        ∧ GrantCompatiable ab.1.lock_mode ab.2.lock_mode = false then
      some (if ab.1.granted then (ab.2.txn_id, ab.1.txn_id)
            else (ab.1.txn_id, ab.2.txn_id))
    else none

/-- Edges contributed by one row-lock queue in `RunCycleDetection`; note
the `AddEdge` argument order is swapped relative to the table loop. -/
def rowQueueEdges (rq : List LockRequest) : List (Nat × Nat) :=
  (queuePairs rq).filterMap fun ab =>
    if ((ab.1.granted ∧ ¬ ab.2.granted) ∨ (¬ ab.1.granted ∧ ab.2.granted))
        ∧ GrantCompatiable ab.1.lock_mode ab.2.lock_mode = false then
      some (if ab.1.granted then (ab.1.txn_id, ab.2.txn_id)
            else (ab.2.txn_id, ab.1.txn_id))
    else none

/-- Claim C9 evaluated at the failing input: a row queue holding a granted
X request of transaction 5 followed by an ungranted X request of
transaction 6.  The table loop emits the edge 6 → 5 (ungranted → granted,
as the claim states), but the row loop emits 5 → 6 (granted → ungranted),
contradicting the claim for row queues. -/
theorem C9_row_edge_direction_flipped :
    tableQueueEdges [⟨5, X, true⟩, ⟨6, X, false⟩] = [(6, 5)] ∧
    rowQueueEdges [⟨5, X, true⟩, ⟨6, X, false⟩] = [(5, 6)] := by
  decide

/-! # LRU-K replacer (src/bustub/src/buffer/lru_k_replacer.cpp)

State per `LRUKReplacer`: the two most-recent-first lists, the entry table
and the evictable counter.  `pos_` iterators are implicit: a frame id is
stored in at most one list and erasing by value models erasing through the
stored iterator.  `FrameEntry` is declared in the (absent) header; the
implementation relies on value-initialized fields (`count == 1` identifies a
newly added frame), so a fresh entry is `{hit_count := 0, evictable :=
false}`. -/

/-- Entry of the `entries_` table. -/
structure FrameEntry where
  hit_count : Nat
  evictable : Bool
deriving DecidableEq, Repr

/-- Replacer state (`LRUKReplacer`); `replacer_size` is `num_frames`. -/
structure LRUK where
  replacer_size : Nat
  k : Nat
  hist_list : List Nat
  cache_list : List Nat
  entries : Nat → Option FrameEntry
  curr_size : Nat

/-- Errors raised by the replacer: `std::invalid_argument` for an
out-of-range frame id, `std::logic_error` for removing a non-evictable
frame. -/
inductive ReplacerErr
  | invalidArgument
  | logicError
deriving DecidableEq, Repr

/-- Constructor `LRUKReplacer(num_frames, k)`. -/
def lrukInit (num_frames k : Nat) : LRUK :=
  { replacer_size := num_frames, k := k, hist_list := [], cache_list := [],
    entries := fun _ => none, curr_size := 0 }

/-- Read of `entries_[f]` (C++ `operator[]` value-initializes a missing
entry). -/
def LRUK.entry (r : LRUK) (f : Nat) : FrameEntry :=
  (r.entries f).getD ⟨0, false⟩

/-- Eviction (`LRUKReplacer::Evict`): scan `hist_list_` from the tail for an
evictable frame, then `cache_list_`; remove the chosen frame from its list
and from the entry table. -/
def lrukEvict (r : LRUK) : Option Nat × LRUK :=
  match r.hist_list.reverse.find? (fun f => (r.entry f).evictable) with
  | some f =>
    (some f,
     { r with hist_list := r.hist_list.erase f,
              entries := fun g => if g = f then none else r.entries g,
              curr_size := r.curr_size - 1 })
  | none =>
    match r.cache_list.reverse.find? (fun f => (r.entry f).evictable) with
    | some f =>
      (some f,
       { r with cache_list := r.cache_list.erase f,
                entries := fun g => if g = f then none else r.entries g,
                curr_size := r.curr_size - 1 })
    | none => (none, r)

/-- Body of `LRUKReplacer::RecordAccess` after the bounds check: bump the
hit count; on the first access push-front into the history list; on
reaching exactly `k` accesses move to the front of the cache list; past `k`
move to the cache front. -/
def lrukRecordAccessGo (r : LRUK) (f : Nat) : LRUK :=
  let e := r.entry f
  let cnt := e.hit_count + 1
  let entries' := fun g => if g = f then some { e with hit_count := cnt } else r.entries g
  if cnt = 1 then
    { r with curr_size := r.curr_size + 1, hist_list := f :: r.hist_list,
             entries := entries' }
  else if cnt = r.k then
    { r with hist_list := r.hist_list.erase f, cache_list := f :: r.cache_list,
             entries := entries' }
  else if cnt > r.k then
    { r with cache_list := f :: r.cache_list.erase f, entries := entries' }
  else
    { r with entries := entries' }

/-- `LRUKReplacer::RecordAccess` with its bounds check (`frame_id >
replacer_size_` raises `std::invalid_argument`). -/
def lrukRecordAccess (r : LRUK) (f : Nat) : Except ReplacerErr LRUK :=
  if f > r.replacer_size then .error .invalidArgument
  else .ok (lrukRecordAccessGo r f)

/-- Body of `LRUKReplacer::SetEvictable` after the bounds check: no-op for
an untracked frame; adjust `curr_size_` on evictability transitions. -/
def lrukSetEvictableGo (r : LRUK) (f : Nat) (ev : Bool) : LRUK :=
  match r.entries f with
  | none => r
  | some e =>
    let cs :=
      if e.evictable = false ∧ ev = true then r.curr_size + 1
      else if e.evictable = true ∧ ev = false then r.curr_size - 1
      else r.curr_size
    { r with curr_size := cs,
             entries := fun g => if g = f then some { e with evictable := ev }
                                 else r.entries g }

/-- `LRUKReplacer::SetEvictable` with its bounds check. -/
def lrukSetEvictable (r : LRUK) (f : Nat) (ev : Bool) : Except ReplacerErr LRUK :=
  if f > r.replacer_size then .error .invalidArgument
  else .ok (lrukSetEvictableGo r f ev)

/-- `LRUKReplacer::Remove`: bounds check, no-op for an untracked frame,
`std::logic_error` for a non-evictable frame, otherwise erase the frame
from the list holding it (history if `hit_count_ < k_`) and from the entry
table. -/
def lrukRemove (r : LRUK) (f : Nat) : Except ReplacerErr LRUK :=
  if f > r.replacer_size then .error .invalidArgument
  else
    match r.entries f with
    | none => .ok r
    | some e =>
      if e.evictable = false then .error .logicError
      else .ok
        { r with
          hist_list := if e.hit_count < r.k then r.hist_list.erase f else r.hist_list,
          cache_list := if e.hit_count < r.k then r.cache_list else r.cache_list.erase f,
          curr_size := r.curr_size - 1,
          entries := fun g => if g = f then none else r.entries g }

/-- Claim C10: record_access, set_evictable and remove raise
`std::invalid_argument` exactly when the frame id is strictly greater than
`num_frames`, so the boundary id `f = num_frames` is accepted; the final
conjunct shows the boundary id is then tracked like a valid frame (a fresh
access inserts it into the history list with hit count 1).  `remove` can
also raise `std::logic_error`, which is a different error and only occurs
for in-range frames. -/
theorem C10_bounds_check (r : LRUK) (f : Nat) :
    (lrukRecordAccess r f = .error .invalidArgument ↔ f > r.replacer_size) ∧
    (∀ ev, lrukSetEvictable r f ev = .error .invalidArgument ↔ f > r.replacer_size) ∧
    (lrukRemove r f = .error .invalidArgument ↔ f > r.replacer_size) ∧
    (∀ n k, lrukRecordAccess (lrukInit n k) n =
      .ok (lrukRecordAccessGo (lrukInit n k) n) ∧
      (lrukRecordAccessGo (lrukInit n k) n).entries n = some ⟨1, false⟩ ∧
      (lrukRecordAccessGo (lrukInit n k) n).hist_list = [n]) := by
  refine ⟨?_, fun ev => ?_, ?_, fun n k => ?_⟩
  · unfold lrukRecordAccess
    split
    · simpa using ‹f > r.replacer_size›
    · simp only [reduceCtorEq, false_iff]
      omega
  · unfold lrukSetEvictable
    split
    · simpa using ‹f > r.replacer_size›
    · simp only [reduceCtorEq, false_iff]
      omega
  · unfold lrukRemove
    split
    · simpa using ‹f > r.replacer_size›
    · constructor
      · intro h
        split at h
        · exact absurd h (by simp)
        · split at h
          · simp at h
          · exact absurd h (by simp)
      · intro h
        omega
  · refine ⟨?_, ?_, ?_⟩
    · unfold lrukRecordAccess
      simp [lrukInit]
    · simp [lrukRecordAccessGo, lrukInit, LRUK.entry]
    · simp [lrukRecordAccessGo, lrukInit, LRUK.entry]

/-! ## Replayed access histories for the eviction-order claim (C3)

To speak about "most recent recorded access" we replay a history of
`RecordAccess`/`SetEvictable` calls against a fresh replacer while keeping a
clock: for each frame the time of its first recorded access, the time of its
most recent recorded access, and the number of accesses. -/

/-- A replayed replacer call. -/
inductive ROp
  | access (f : Nat)
  | setEv (f : Nat) (ev : Bool)
deriving DecidableEq, Repr

/-- Frame id named by a call. -/
def ROp.frame : ROp → Nat
  | .access f => f
  | .setEv f _ => f

/-- One replayed call; a call that raises keeps the state unchanged, as in
the C++ code where the check precedes every mutation. -/
def rstep (r : LRUK) : ROp → LRUK
  | .access f =>
    match lrukRecordAccess r f with
    | .ok r' => r'
    | .error _ => r
  | .setEv f ev =>
    match lrukSetEvictable r f ev with
    | .ok r' => r'
    | .error _ => r

/-- Replay a history against `LRUKReplacer(n, k)`. -/
def runTrace (n k : Nat) (tr : List ROp) : LRUK :=
  tr.foldl rstep (lrukInit n k)

/-- Access bookkeeping of a history: a clock (position in the history), and
per frame the first access time, the most recent access time and the access
count. -/
structure TraceStats where
  clock : Nat
  fst : Nat → Option Nat
  lst : Nat → Option Nat
  cnt : Nat → Nat

/-- Advance the bookkeeping by one call. -/
def statsStep (s : TraceStats) : ROp → TraceStats
  | .access f =>
    { clock := s.clock + 1,
      fst := fun g => if g = f then some ((s.fst f).getD s.clock) else s.fst g,
      lst := fun g => if g = f then some s.clock else s.lst g,
      cnt := fun g => if g = f then s.cnt g + 1 else s.cnt g }
  | .setEv _ _ => { s with clock := s.clock + 1 }

/-- Bookkeeping of the empty history. -/
def statsInit : TraceStats :=
  { clock := 0, fst := fun _ => none, lst := fun _ => none, cnt := fun _ => 0 }

/-- Bookkeeping of a whole history. -/
def traceStats (tr : List ROp) : TraceStats :=
  tr.foldl statsStep statsInit

/-- First access time with default 0 (only read for accessed frames). -/
def TraceStats.fstD (s : TraceStats) (f : Nat) : Nat := (s.fst f).getD 0

/-- Most recent access time with default 0 (only read for accessed frames). -/
def TraceStats.lstD (s : TraceStats) (f : Nat) : Nat := (s.lst f).getD 0

theorem nodup_of_pairwise_lt {h : Nat → Nat} {l : List Nat}
    (hp : l.Pairwise (fun a b => h b < h a)) : l.Nodup :=
  List.Pairwise.imp (fun hab he => by rw [he] at hab; exact lt_irrefl _ hab) hp

theorem find?_min {α : Type} (R : α → α → Prop) (p : α → Bool) :
    ∀ (l : List α), l.Pairwise R → ∀ a, l.find? p = some a →
      ∀ b ∈ l, p b = true → a = b ∨ R a b := by
  intro l
  induction l with
  | nil => intro _ a ha; simp [List.find?] at ha
  | cons x t ih =>
    intro hp a ha b hb hpb
    cases hx : p x with
    | true =>
      rw [List.find?_cons_of_pos _ hx] at ha
      obtain rfl : x = a := by simpa using ha
      rcases List.mem_cons.mp hb with rfl | hbt
      · exact Or.inl rfl
      · exact Or.inr ((List.pairwise_cons.mp hp).1 b hbt)
    | false =>
      rw [List.find?_cons_of_neg _ (by simp [hx])] at ha
      rcases List.mem_cons.mp hb with rfl | hbt
      · rw [hpb] at hx; cases hx
      · exact ih (List.pairwise_cons.mp hp).2 a ha b hbt hpb

theorem pairwise_congr_on {l : List Nat} {p q : Nat → Nat}
    (h : ∀ x ∈ l, p x = q x) (hp : l.Pairwise fun a b => p b < p a) :
    l.Pairwise fun a b => q b < q a :=
  hp.imp_of_mem fun {a b} ha hb hab => by rw [← h a ha, ← h b hb]; exact hab

/-- Invariant tying a replayed replacer state to the bookkeeping of its
history: the history list holds exactly the frames with between 1 and k-1
accesses, most recent *first access* first; the cache list holds exactly
the frames with at least k accesses, most recent access first; entry hit
counts agree with the access counts. -/
structure C3Inv (n k : Nat) (st : TraceStats) (r : LRUK) : Prop where
  rsize : r.replacer_size = n
  rk : r.k = k
  entry_iff : ∀ f, (r.entries f).isSome = true ↔ 1 ≤ st.cnt f
  hit_eq : ∀ f e, r.entries f = some e → e.hit_count = st.cnt f
  hist_mem : ∀ f, f ∈ r.hist_list ↔ 1 ≤ st.cnt f ∧ st.cnt f < k
  cache_mem : ∀ f, f ∈ r.cache_list ↔ k ≤ st.cnt f
  hist_sorted : r.hist_list.Pairwise fun a b => st.fstD b < st.fstD a
  cache_sorted : r.cache_list.Pairwise fun a b => st.lstD b < st.lstD a
  fst_none : ∀ f, st.cnt f = 0 → st.fst f = none
  fst_some : ∀ f, 1 ≤ st.cnt f → ∃ t, st.fst f = some t ∧ t < st.clock
  lst_some : ∀ f, 1 ≤ st.cnt f → ∃ t, st.lst f = some t ∧ t < st.clock

theorem c3inv_init (n k : Nat) (hk : 2 ≤ k) : C3Inv n k statsInit (lrukInit n k) := by
  refine ⟨rfl, rfl, ?_, ?_, ?_, ?_, ?_, ?_, ?_, ?_, ?_⟩ <;>
    simp [statsInit, lrukInit] <;> omega

theorem c3inv_access (n k : Nat) (hk : 2 ≤ k) (st : TraceStats) (r : LRUK) (f : Nat)
    (inv : C3Inv n k st r) :
    C3Inv n k (statsStep st (.access f)) (lrukRecordAccessGo r f) := by
  rcases hent : r.entries f with _ | e
  · -- first access of f: its count is 0 and a fresh entry is pushed
    have hc : st.cnt f = 0 := by
      by_contra hc
      have := (inv.entry_iff f).mpr (by omega)
      rw [hent] at this; cases this
    have hgo : lrukRecordAccessGo r f =
        { r with curr_size := r.curr_size + 1, hist_list := f :: r.hist_list,
                 entries := fun g => if g = f then some ⟨1, false⟩ else r.entries g } := by
      simp [lrukRecordAccessGo, LRUK.entry, hent]
    have hfstf : st.fst f = none := inv.fst_none f hc
    rw [hgo]
    refine ⟨inv.rsize, inv.rk, ?_, ?_, ?_, ?_, ?_, ?_, ?_, ?_, ?_⟩
    · intro g
      by_cases hgf : g = f
      · subst hgf; simp [statsStep]
      · simpa [statsStep, hgf] using inv.entry_iff g
    · intro g e' hge
      by_cases hgf : g = f
      · subst hgf
        simp only [if_pos rfl] at hge
        cases hge
        simp [statsStep, hc]
      · simp only [if_neg hgf] at hge
        simpa [statsStep, hgf] using inv.hit_eq g e' hge
    · intro g
      by_cases hgf : g = f
      · subst hgf
        refine iff_of_true (List.mem_cons_self _ _) ⟨?_, ?_⟩ <;>
          simp [statsStep, hc] <;> omega
      · simp only [statsStep, if_neg hgf, List.mem_cons]
        rw [← inv.hist_mem g]
        constructor
        · rintro (rfl | h)
          · exact absurd rfl hgf
          · exact h
        · exact Or.inr
    · intro g
      by_cases hgf : g = f
      · subst hgf
        rw [inv.cache_mem g, hc]
        simp [statsStep, hc]
        omega
      · simpa [statsStep, hgf] using inv.cache_mem g
    · rw [List.pairwise_cons]
      constructor
      · intro b hb
        have hbcnt : 1 ≤ st.cnt b := ((inv.hist_mem b).mp hb).1
        have hbf : b ≠ f := fun hbf => by rw [hbf, hc] at hbcnt; omega
        obtain ⟨t, ht, htlt⟩ := inv.fst_some b hbcnt
        simp only [statsStep, TraceStats.fstD, if_neg hbf, if_pos rfl, ht, hfstf,
          Option.getD_some]
        exact htlt
      · refine pairwise_congr_on ?_ inv.hist_sorted
        intro x hx
        have hxcnt : 1 ≤ st.cnt x := ((inv.hist_mem x).mp hx).1
        have hxf : x ≠ f := fun hxf => by rw [hxf, hc] at hxcnt; omega
        simp [statsStep, TraceStats.fstD, hxf]
    · refine pairwise_congr_on ?_ inv.cache_sorted
      intro x hx
      have hxcnt : k ≤ st.cnt x := (inv.cache_mem x).mp hx
      have hxf : x ≠ f := fun hxf => by rw [hxf, hc] at hxcnt; omega
      simp [statsStep, TraceStats.lstD, hxf]
    · intro g hg
      by_cases hgf : g = f
      · subst hgf; simp [statsStep] at hg
      · simp only [statsStep, if_neg hgf] at hg ⊢
        exact inv.fst_none g hg
    · intro g hg
      by_cases hgf : g = f
      · subst hgf
        exact ⟨st.clock, by simp [statsStep, hfstf], by simp [statsStep]⟩
      · simp only [statsStep, if_neg hgf] at hg ⊢
        obtain ⟨t, ht, htlt⟩ := inv.fst_some g hg
        exact ⟨t, ht, by omega⟩
    · intro g hg
      by_cases hgf : g = f
      · subst hgf
        exact ⟨st.clock, by simp [statsStep], by simp [statsStep]⟩
      · simp only [statsStep, if_neg hgf] at hg ⊢
        obtain ⟨t, ht, htlt⟩ := inv.lst_some g hg
        exact ⟨t, ht, by omega⟩
  · -- repeated access: f already has count st.cnt f ≥ 1
    have hc1 : 1 ≤ st.cnt f := (inv.entry_iff f).mp (by rw [hent]; rfl)
    have hhit : e.hit_count = st.cnt f := inv.hit_eq f e hent
    obtain ⟨tf, htf, htflt⟩ := inv.fst_some f hc1
    -- first-access times are unchanged by a repeated access
    have hfst : (statsStep st (.access f)).fstD = st.fstD := by
      funext g
      by_cases hgf : g = f
      · subst hgf; simp [statsStep, TraceStats.fstD, htf]
      · simp [statsStep, TraceStats.fstD, hgf]
    have hlst_ne : ∀ g, g ≠ f → (statsStep st (.access f)).lstD g = st.lstD g := by
      intro g hgf; simp [statsStep, TraceStats.lstD, hgf]
    have hcnt_ne : ∀ g, g ≠ f → (statsStep st (.access f)).cnt g = st.cnt g := by
      intro g hgf; simp [statsStep, hgf]
    have hcnt_f : (statsStep st (.access f)).cnt f = st.cnt f + 1 := by
      simp [statsStep]
    have hlst_f : (statsStep st (.access f)).lstD f = st.clock := by
      simp [statsStep, TraceStats.lstD]
    have hclock : (statsStep st (.access f)).clock = st.clock + 1 := by
      simp [statsStep]
    have hnodup_h : r.hist_list.Nodup := nodup_of_pairwise_lt inv.hist_sorted
    have hnodup_c : r.cache_list.Nodup := nodup_of_pairwise_lt inv.cache_sorted
    have hne1 : ¬ (e.hit_count + 1 = 1) := by omega
    by_cases hck : e.hit_count + 1 = r.k
    · -- reaches exactly k accesses: move from history to cache front
      have hk1 : ¬ r.k = 1 := by omega
      have hgo : lrukRecordAccessGo r f =
          { r with hist_list := r.hist_list.erase f, cache_list := f :: r.cache_list,
                   entries := fun g => if g = f then
                     some { e with hit_count := e.hit_count + 1 } else r.entries g } := by
        simp [lrukRecordAccessGo, LRUK.entry, hent, hne1, hck, hk1]
      have hkval : st.cnt f + 1 = k := by rw [← hhit, ← inv.rk]; exact hck
      have hfmem : f ∈ r.hist_list := (inv.hist_mem f).mpr ⟨hc1, by omega⟩
      have hfnc : f ∉ r.cache_list := fun hmem => by
        have := (inv.cache_mem f).mp hmem; omega
      rw [hgo]
      refine ⟨inv.rsize, inv.rk, ?_, ?_, ?_, ?_, ?_, ?_, ?_, ?_, ?_⟩
      · intro g
        by_cases hgf : g = f
        · subst hgf; simp [statsStep]
        · rw [hcnt_ne g hgf]
          simpa [hgf] using inv.entry_iff g
      · intro g e' hge
        by_cases hgf : g = f
        · subst hgf
          simp only [if_pos rfl] at hge
          cases hge
          simp [hcnt_f, hhit]
        · simp only [if_neg hgf] at hge
          rw [hcnt_ne g hgf]
          exact inv.hit_eq g e' hge
      · intro g
        by_cases hgf : g = f
        · subst hgf
          rw [hcnt_f]
          constructor
          · intro hmem
            exact absurd rfl ((List.Nodup.mem_erase_iff hnodup_h).mp hmem).1
          · intro h
            exact absurd h.2 (by omega)
        · rw [hcnt_ne g hgf, List.mem_erase_of_ne hgf]
          exact inv.hist_mem g
      · intro g
        by_cases hgf : g = f
        · subst hgf
          rw [hcnt_f]
          simp only [List.mem_cons, true_or, true_iff]
          omega
        · rw [hcnt_ne g hgf]
          simp only [List.mem_cons, hgf, false_or]
          exact inv.cache_mem g
      · rw [hfst]
        exact inv.hist_sorted.sublist (r.hist_list.erase_sublist f)
      · rw [List.pairwise_cons]
        constructor
        · intro b hb
          have hbcnt : k ≤ st.cnt b := (inv.cache_mem b).mp hb
          have hbf : b ≠ f := fun h => hfnc (h ▸ hb)
          obtain ⟨t, ht, htlt⟩ := inv.lst_some b (by omega)
          rw [hlst_ne b hbf, hlst_f]
          simp only [TraceStats.lstD, ht, Option.getD_some]
          exact htlt
        · refine pairwise_congr_on ?_ inv.cache_sorted
          intro x hx
          have hxf : x ≠ f := fun h => hfnc (h ▸ hx)
          exact (hlst_ne x hxf).symm
      · intro g hg
        by_cases hgf : g = f
        · subst hgf; rw [hcnt_f] at hg; omega
        · rw [hcnt_ne g hgf] at hg
          simpa [statsStep, hgf] using inv.fst_none g hg
      · intro g hg
        by_cases hgf : g = f
        · subst hgf
          exact ⟨tf, by simp [statsStep, htf], by omega⟩
        · rw [hcnt_ne g hgf] at hg
          obtain ⟨t, ht, htlt⟩ := inv.fst_some g hg
          exact ⟨t, by simpa [statsStep, hgf] using ht, by omega⟩
      · intro g hg
        by_cases hgf : g = f
        · subst hgf
          exact ⟨st.clock, by simp [statsStep], by omega⟩
        · rw [hcnt_ne g hgf] at hg
          obtain ⟨t, ht, htlt⟩ := inv.lst_some g hg
          exact ⟨t, by simpa [statsStep, hgf] using ht, by omega⟩
    · by_cases hgk : e.hit_count + 1 > r.k
      · -- past k accesses: move to the cache front
        have hgo : lrukRecordAccessGo r f =
            { r with cache_list := f :: r.cache_list.erase f,
                     entries := fun g => if g = f then
                       some { e with hit_count := e.hit_count + 1 } else r.entries g } := by
          simp [lrukRecordAccessGo, LRUK.entry, hent, hne1, hck, hgk]
        have hkval : k < st.cnt f + 1 := by rw [← hhit, ← inv.rk]; exact hgk
        have hfmem : f ∈ r.cache_list := (inv.cache_mem f).mpr (by omega)
        have hfnh : f ∉ r.hist_list := fun hmem => by
          have := (inv.hist_mem f).mp hmem; omega
        rw [hgo]
        refine ⟨inv.rsize, inv.rk, ?_, ?_, ?_, ?_, ?_, ?_, ?_, ?_, ?_⟩
        · intro g
          by_cases hgf : g = f
          · subst hgf; simp [statsStep]
          · rw [hcnt_ne g hgf]
            simpa [hgf] using inv.entry_iff g
        · intro g e' hge
          by_cases hgf : g = f
          · subst hgf
            simp only [if_pos rfl] at hge
            cases hge
            simp [hcnt_f, hhit]
          · simp only [if_neg hgf] at hge
            rw [hcnt_ne g hgf]
            exact inv.hit_eq g e' hge
        · intro g
          by_cases hgf : g = f
          · subst hgf
            rw [hcnt_f]
            constructor
            · intro hmem; exact absurd hmem hfnh
            · intro h; omega
          · rw [hcnt_ne g hgf]
            exact inv.hist_mem g
        · intro g
          by_cases hgf : g = f
          · subst hgf
            rw [hcnt_f]
            simp only [List.mem_cons, true_or, true_iff]
            omega
          · rw [hcnt_ne g hgf]
            simp only [List.mem_cons, hgf, false_or]
            rw [List.mem_erase_of_ne hgf]
            exact inv.cache_mem g
        · rw [hfst]
          exact inv.hist_sorted
        · rw [List.pairwise_cons]
          constructor
          · intro b hb
            have hb' : b ∈ r.cache_list := (r.cache_list.erase_sublist f).mem hb
            have hbf : b ≠ f := (List.Nodup.mem_erase_iff hnodup_c).mp hb |>.1
            have hbcnt : k ≤ st.cnt b := (inv.cache_mem b).mp hb'
            obtain ⟨t, ht, htlt⟩ := inv.lst_some b (by omega)
            rw [hlst_ne b hbf, hlst_f]
            simp only [TraceStats.lstD, ht, Option.getD_some]
            exact htlt
          · refine pairwise_congr_on ?_
              (inv.cache_sorted.sublist (r.cache_list.erase_sublist f))
            intro x hx
            have hxf : x ≠ f := (List.Nodup.mem_erase_iff hnodup_c).mp hx |>.1
            exact (hlst_ne x hxf).symm
        · intro g hg
          by_cases hgf : g = f
          · subst hgf; rw [hcnt_f] at hg; omega
          · rw [hcnt_ne g hgf] at hg
            simpa [statsStep, hgf] using inv.fst_none g hg
        · intro g hg
          by_cases hgf : g = f
          · subst hgf
            exact ⟨tf, by simp [statsStep, htf], by omega⟩
          · rw [hcnt_ne g hgf] at hg
            obtain ⟨t, ht, htlt⟩ := inv.fst_some g hg
            exact ⟨t, by simpa [statsStep, hgf] using ht, by omega⟩
        · intro g hg
          by_cases hgf : g = f
          · subst hgf
            exact ⟨st.clock, by simp [statsStep], by omega⟩
          · rw [hcnt_ne g hgf] at hg
            obtain ⟨t, ht, htlt⟩ := inv.lst_some g hg
            exact ⟨t, by simpa [statsStep, hgf] using ht, by omega⟩
      · -- strictly between 1 and k accesses: only the hit count changes
        have hgo : lrukRecordAccessGo r f =
            { r with entries := fun g =>
                if g = f then some { e with hit_count := e.hit_count + 1 }
                else r.entries g } := by
          simp [lrukRecordAccessGo, LRUK.entry, hent, hne1, hck, hgk]
        have hkval : st.cnt f + 1 < k := by
          have h1 : e.hit_count + 1 ≠ r.k := hck
          have h2 : ¬ e.hit_count + 1 > r.k := hgk
          rw [← hhit, ← inv.rk]; omega
        have hfnc : f ∉ r.cache_list := fun hmem => by
          have := (inv.cache_mem f).mp hmem; omega
        rw [hgo]
        refine ⟨inv.rsize, inv.rk, ?_, ?_, ?_, ?_, ?_, ?_, ?_, ?_, ?_⟩
        · intro g
          by_cases hgf : g = f
          · subst hgf; simp [statsStep]
          · rw [hcnt_ne g hgf]
            simpa [hgf] using inv.entry_iff g
        · intro g e' hge
          by_cases hgf : g = f
          · subst hgf
            simp only [if_pos rfl] at hge
            cases hge
            simp [hcnt_f, hhit]
          · simp only [if_neg hgf] at hge
            rw [hcnt_ne g hgf]
            exact inv.hit_eq g e' hge
        · intro g
          by_cases hgf : g = f
          · subst hgf
            rw [hcnt_f]
            rw [inv.hist_mem g]
            omega
          · rw [hcnt_ne g hgf]
            exact inv.hist_mem g
        · intro g
          by_cases hgf : g = f
          · subst hgf
            rw [hcnt_f, inv.cache_mem g]
            omega
          · rw [hcnt_ne g hgf]
            exact inv.cache_mem g
        · rw [hfst]
          exact inv.hist_sorted
        · refine pairwise_congr_on ?_ inv.cache_sorted
          intro x hx
          have hxf : x ≠ f := fun h => hfnc (h ▸ hx)
          exact (hlst_ne x hxf).symm
        · intro g hg
          by_cases hgf : g = f
          · subst hgf; rw [hcnt_f] at hg; omega
          · rw [hcnt_ne g hgf] at hg
            simpa [statsStep, hgf] using inv.fst_none g hg
        · intro g hg
          by_cases hgf : g = f
          · subst hgf
            exact ⟨tf, by simp [statsStep, htf], by omega⟩
          · rw [hcnt_ne g hgf] at hg
            obtain ⟨t, ht, htlt⟩ := inv.fst_some g hg
            exact ⟨t, by simpa [statsStep, hgf] using ht, by omega⟩
        · intro g hg
          by_cases hgf : g = f
          · subst hgf
            exact ⟨st.clock, by simp [statsStep], by omega⟩
          · rw [hcnt_ne g hgf] at hg
            obtain ⟨t, ht, htlt⟩ := inv.lst_some g hg
            exact ⟨t, by simpa [statsStep, hgf] using ht, by omega⟩

theorem setEvGo_fields (r : LRUK) (f : Nat) (ev : Bool) :
    (lrukSetEvictableGo r f ev).replacer_size = r.replacer_size ∧
    (lrukSetEvictableGo r f ev).k = r.k ∧
    (lrukSetEvictableGo r f ev).hist_list = r.hist_list ∧
    (lrukSetEvictableGo r f ev).cache_list = r.cache_list ∧
    (∀ g, ((lrukSetEvictableGo r f ev).entries g).isSome = (r.entries g).isSome) ∧
    (∀ g e', (lrukSetEvictableGo r f ev).entries g = some e' →
      ∃ e0, r.entries g = some e0 ∧ e'.hit_count = e0.hit_count) := by
  rcases hent : r.entries f with _ | e
  · refine ⟨?_, ?_, ?_, ?_, ?_, ?_⟩ <;> simp [lrukSetEvictableGo, hent]
    exact fun g e' h => ⟨e', h, rfl⟩
  · refine ⟨?_, ?_, ?_, ?_, ?_, ?_⟩
    · simp [lrukSetEvictableGo, hent]
    · simp [lrukSetEvictableGo, hent]
    · simp [lrukSetEvictableGo, hent]
    · simp [lrukSetEvictableGo, hent]
    · intro g
      by_cases hgf : g = f
      · subst hgf; simp [lrukSetEvictableGo, hent]
      · simp [lrukSetEvictableGo, hent, hgf]
    · intro g e' hge
      by_cases hgf : g = f
      · subst hgf
        simp only [lrukSetEvictableGo, hent, if_pos rfl] at hge
        refine ⟨e, hent, ?_⟩
        cases hge
        rfl
      · simp only [lrukSetEvictableGo, hent] at hge
        rw [if_neg hgf] at hge
        exact ⟨e', hge, rfl⟩

theorem c3inv_setEv (n k : Nat) (st : TraceStats) (r : LRUK) (f : Nat) (ev : Bool)
    (inv : C3Inv n k st r) :
    C3Inv n k (statsStep st (.setEv f ev)) (lrukSetEvictableGo r f ev) := by
  obtain ⟨hsz, hks, hh, hc, hiso, hhit⟩ := setEvGo_fields r f ev
  refine ⟨hsz.trans inv.rsize, hks.trans inv.rk, ?_, ?_, ?_, ?_, ?_, ?_, ?_, ?_, ?_⟩
  · intro g
    rw [hiso g]
    exact inv.entry_iff g
  · intro g e' hge
    obtain ⟨e0, he0, hhit'⟩ := hhit g e' hge
    rw [hhit']
    exact inv.hit_eq g e0 he0
  · intro g; rw [hh]; exact inv.hist_mem g
  · intro g; rw [hc]; exact inv.cache_mem g
  · rw [hh]; exact inv.hist_sorted
  · rw [hc]; exact inv.cache_sorted
  · exact inv.fst_none
  · intro g hg
    obtain ⟨t, ht, hlt⟩ := inv.fst_some g hg
    exact ⟨t, ht, by simp [statsStep]; omega⟩
  · intro g hg
    obtain ⟨t, ht, hlt⟩ := inv.lst_some g hg
    exact ⟨t, ht, by simp [statsStep]; omega⟩

theorem rstep_access_eq (r : LRUK) (f : Nat) (h : f ≤ r.replacer_size) :
    rstep r (.access f) = lrukRecordAccessGo r f := by
  simp [rstep, lrukRecordAccess, Nat.not_lt.mpr h]

theorem rstep_setEv_eq (r : LRUK) (f : Nat) (ev : Bool) (h : f ≤ r.replacer_size) :
    rstep r (.setEv f ev) = lrukSetEvictableGo r f ev := by
  simp [rstep, lrukSetEvictable, Nat.not_lt.mpr h]

theorem c3inv_run (n k : Nat) (hk : 2 ≤ k) (tr : List ROp)
    (hvalid : ∀ op ∈ tr, ROp.frame op ≤ n) :
    C3Inv n k (traceStats tr) (runTrace n k tr) := by
  induction tr using List.reverseRecOn with
  | nil => exact c3inv_init n k hk
  | append_singleton tr op ih =>
    have hv' : ∀ op' ∈ tr, ROp.frame op' ≤ n := fun op' h =>
      hvalid op' (List.mem_append_left _ h)
    have inv := ih hv'
    have hop : ROp.frame op ≤ n := hvalid op (List.mem_append_right _ (by simp))
    have hrun : runTrace n k (tr ++ [op]) = rstep (runTrace n k tr) op := by
      simp [runTrace, List.foldl_append]
    have hstat : traceStats (tr ++ [op]) = statsStep (traceStats tr) op := by
      simp [traceStats, List.foldl_append]
    rw [hrun, hstat]
    cases op with
    | access f =>
      rw [rstep_access_eq _ _ (by rw [inv.rsize]; exact hop)]
      exact c3inv_access n k hk _ _ f inv
    | setEv f ev =>
      rw [rstep_setEv_eq _ _ _ (by rw [inv.rsize]; exact hop)]
      exact c3inv_setEv n k _ _ f ev inv

/-- Counterexample to claim C3 as stated: replay accesses of frames 0, 1,
then 0 again against `LRUKReplacer(10, 3)` and mark both frames evictable.
Both are history-class frames (fewer than 3 accesses).  Frame 1's most
recent recorded access (time 1) is older than frame 0's (time 2), so the
claim predicts frame 1 as the victim, but `Evict` returns frame 0: within
the history list the code orders frames by first access (accesses after the
first do not move a history-list frame), not by most recent access. -/
theorem C3_counterexample :
    (lrukEvict (runTrace 10 3 [ROp.access 0, ROp.access 1, ROp.access 0,
      ROp.setEv 0 true, ROp.setEv 1 true])).1 = some 0 ∧
    0 ∈ (runTrace 10 3 [ROp.access 0, ROp.access 1, ROp.access 0,
      ROp.setEv 0 true, ROp.setEv 1 true]).hist_list ∧
    1 ∈ (runTrace 10 3 [ROp.access 0, ROp.access 1, ROp.access 0,
      ROp.setEv 0 true, ROp.setEv 1 true]).hist_list ∧
    ((runTrace 10 3 [ROp.access 0, ROp.access 1, ROp.access 0,
      ROp.setEv 0 true, ROp.setEv 1 true]).entry 0).evictable = true ∧
    ((runTrace 10 3 [ROp.access 0, ROp.access 1, ROp.access 0,
      ROp.setEv 0 true, ROp.setEv 1 true]).entry 1).evictable = true ∧
    (traceStats [ROp.access 0, ROp.access 1, ROp.access 0,
      ROp.setEv 0 true, ROp.setEv 1 true]).lstD 1 <
      (traceStats [ROp.access 0, ROp.access 1, ROp.access 0,
        ROp.setEv 0 true, ROp.setEv 1 true]).lstD 0 := by
  decide

/-- Claim C3, amended: when `Evict` succeeds after a replayed history of
record_access/set_evictable calls (k at least 2, frame ids in range), the
victim is an evictable frame; it is a history-class frame (fewer than k
recorded accesses) whenever some evictable history-class frame exists and a
cache-class frame otherwise; within the cache class the victim has the
oldest most-recent recorded access, but within the history class the victim
has the oldest *first* recorded access (the code never reorders the history
list on repeated accesses), which is the only change forced by the
counterexample. -/
theorem C3_amended_evict_order (n k : Nat) (tr : List ROp) (f : Nat)
    (hk : 2 ≤ k)
    (hvalid : ∀ op ∈ tr, ROp.frame op ≤ n)
    (hf : (lrukEvict (runTrace n k tr)).1 = some f) :
    ((runTrace n k tr).entry f).evictable = true ∧
    ((∃ g ∈ (runTrace n k tr).hist_list,
        ((runTrace n k tr).entry g).evictable = true) →
      (1 ≤ (traceStats tr).cnt f ∧ (traceStats tr).cnt f < k) ∧
      ∀ g, ((runTrace n k tr).entry g).evictable = true →
        1 ≤ (traceStats tr).cnt g → (traceStats tr).cnt g < k →
        (traceStats tr).fstD f ≤ (traceStats tr).fstD g) ∧
    ((∀ g ∈ (runTrace n k tr).hist_list,
        ((runTrace n k tr).entry g).evictable = false) →
      k ≤ (traceStats tr).cnt f ∧
      ∀ g, ((runTrace n k tr).entry g).evictable = true →
        k ≤ (traceStats tr).cnt g →
        (traceStats tr).lstD f ≤ (traceStats tr).lstD g) := by
  have inv := c3inv_run n k hk tr hvalid
  set r := runTrace n k tr with hr
  set st := traceStats tr with hst
  unfold lrukEvict at hf
  rcases hfind : r.hist_list.reverse.find? (fun g => (r.entry g).evictable) with _ | f0
  · -- no evictable frame in the history list: the cache list is scanned
    rw [hfind] at hf
    have hnoev : ∀ g ∈ r.hist_list, ¬ ((r.entry g).evictable = true) := by
      intro g hg
      have := List.find?_eq_none.mp hfind g (List.mem_reverse.mpr hg)
      simpa using this
    rcases hfind2 : r.cache_list.reverse.find? (fun g => (r.entry g).evictable) with _ | f1
    · rw [hfind2] at hf
      simp at hf
    · rw [hfind2] at hf
      simp only [Option.some.injEq] at hf
      subst hf
      have hev : (r.entry f1).evictable = true := by
        have := List.find?_some hfind2
        simpa using this
      have hmem : f1 ∈ r.cache_list :=
        List.mem_reverse.mp (List.mem_of_find?_eq_some hfind2)
      refine ⟨hev, ?_, ?_⟩
      · rintro ⟨g, hg, hgev⟩
        exact absurd hgev (hnoev g hg)
      · intro _
        refine ⟨(inv.cache_mem f1).mp hmem, ?_⟩
        intro g hgev hgk
        have hgmem : g ∈ r.cache_list := (inv.cache_mem g).mpr hgk
        have hrev : r.cache_list.reverse.Pairwise
            (fun a b => st.lstD a < st.lstD b) := by
          rw [List.pairwise_reverse]
          exact inv.cache_sorted
        have := find?_min (fun a b => st.lstD a < st.lstD b) _
          r.cache_list.reverse hrev f1 hfind2 g (List.mem_reverse.mpr hgmem)
          (by simpa using hgev)
        rcases this with rfl | hlt
        · exact le_refl _
        · exact le_of_lt hlt
  · -- an evictable history frame exists and wins
    rw [hfind] at hf
    simp only [Option.some.injEq] at hf
    subst hf
    have hev : (r.entry f0).evictable = true := by
      have := List.find?_some hfind
      simpa using this
    have hmem : f0 ∈ r.hist_list :=
      List.mem_reverse.mp (List.mem_of_find?_eq_some hfind)
    have hcls := (inv.hist_mem f0).mp hmem
    refine ⟨hev, ?_, ?_⟩
    · intro _
      refine ⟨hcls, ?_⟩
      intro g hgev hg1 hgk
      have hgmem : g ∈ r.hist_list := (inv.hist_mem g).mpr ⟨hg1, hgk⟩
      have hrev : r.hist_list.reverse.Pairwise
          (fun a b => st.fstD a < st.fstD b) := by
        rw [List.pairwise_reverse]
        exact inv.hist_sorted
      have := find?_min (fun a b => st.fstD a < st.fstD b) _
        r.hist_list.reverse hrev f0 hfind g (List.mem_reverse.mpr hgmem)
        (by simpa using hgev)
      rcases this with rfl | hlt
      · exact le_refl _
      · exact le_of_lt hlt
    · intro hall
      exact absurd hev (by simpa using hall f0 hmem)

/-- Witness for C3 (amended) at the boundary scenario of spec section 8.2:
k = 2, frames 0, 1, 2 accessed and marked evictable, frame 0 accessed again
(reaching k and moving to the cache list); eviction picks frame 1, the
evictable history frame with the oldest first access. -/
theorem C3_amended_evict_order_witness :
    ((runTrace 3 2 [ROp.access 0, ROp.access 1, ROp.access 2, ROp.setEv 0 true,
        ROp.setEv 1 true, ROp.setEv 2 true, ROp.access 0]).entry 1).evictable = true ∧
    ((∃ g ∈ (runTrace 3 2 [ROp.access 0, ROp.access 1, ROp.access 2, ROp.setEv 0 true,
        ROp.setEv 1 true, ROp.setEv 2 true, ROp.access 0]).hist_list,
        ((runTrace 3 2 [ROp.access 0, ROp.access 1, ROp.access 2, ROp.setEv 0 true,
          ROp.setEv 1 true, ROp.setEv 2 true, ROp.access 0]).entry g).evictable = true) →
      (1 ≤ (traceStats [ROp.access 0, ROp.access 1, ROp.access 2, ROp.setEv 0 true,
          ROp.setEv 1 true, ROp.setEv 2 true, ROp.access 0]).cnt 1 ∧
        (traceStats [ROp.access 0, ROp.access 1, ROp.access 2, ROp.setEv 0 true,
          ROp.setEv 1 true, ROp.setEv 2 true, ROp.access 0]).cnt 1 < 2) ∧
      ∀ g, ((runTrace 3 2 [ROp.access 0, ROp.access 1, ROp.access 2, ROp.setEv 0 true,
          ROp.setEv 1 true, ROp.setEv 2 true, ROp.access 0]).entry g).evictable = true →
        1 ≤ (traceStats [ROp.access 0, ROp.access 1, ROp.access 2, ROp.setEv 0 true,
          ROp.setEv 1 true, ROp.setEv 2 true, ROp.access 0]).cnt g →
        (traceStats [ROp.access 0, ROp.access 1, ROp.access 2, ROp.setEv 0 true,
          ROp.setEv 1 true, ROp.setEv 2 true, ROp.access 0]).cnt g < 2 →
        (traceStats [ROp.access 0, ROp.access 1, ROp.access 2, ROp.setEv 0 true,
          ROp.setEv 1 true, ROp.setEv 2 true, ROp.access 0]).fstD 1 ≤
          (traceStats [ROp.access 0, ROp.access 1, ROp.access 2, ROp.setEv 0 true,
            ROp.setEv 1 true, ROp.setEv 2 true, ROp.access 0]).fstD g) ∧
    ((∀ g ∈ (runTrace 3 2 [ROp.access 0, ROp.access 1, ROp.access 2, ROp.setEv 0 true,
        ROp.setEv 1 true, ROp.setEv 2 true, ROp.access 0]).hist_list,
        ((runTrace 3 2 [ROp.access 0, ROp.access 1, ROp.access 2, ROp.setEv 0 true,
          ROp.setEv 1 true, ROp.setEv 2 true, ROp.access 0]).entry g).evictable = false) →
      2 ≤ (traceStats [ROp.access 0, ROp.access 1, ROp.access 2, ROp.setEv 0 true,
          ROp.setEv 1 true, ROp.setEv 2 true, ROp.access 0]).cnt 1 ∧
      ∀ g, ((runTrace 3 2 [ROp.access 0, ROp.access 1, ROp.access 2, ROp.setEv 0 true,
          ROp.setEv 1 true, ROp.setEv 2 true, ROp.access 0]).entry g).evictable = true →
        2 ≤ (traceStats [ROp.access 0, ROp.access 1, ROp.access 2, ROp.setEv 0 true,
          ROp.setEv 1 true, ROp.setEv 2 true, ROp.access 0]).cnt g →
        (traceStats [ROp.access 0, ROp.access 1, ROp.access 2, ROp.setEv 0 true,
          ROp.setEv 1 true, ROp.setEv 2 true, ROp.access 0]).lstD 1 ≤
          (traceStats [ROp.access 0, ROp.access 1, ROp.access 2, ROp.setEv 0 true,
            ROp.setEv 1 true, ROp.setEv 2 true, ROp.access 0]).lstD g) :=
  C3_amended_evict_order 3 2
    [ROp.access 0, ROp.access 1, ROp.access 2, ROp.setEv 0 true,
      ROp.setEv 1 true, ROp.setEv 2 true, ROp.access 0] 1
    (by decide) (by decide) (by decide)

/-! # Buffer pool (src/bustub/src/buffer/buffer_pool_manager_instance.cpp)

State of `BufferPoolManagerInstance`: the page frames, the free list, the
page table, the LRU-K replacer and the page-id allocator.  The page table
is the `ExtendibleHashTable<page_id_t, frame_id_t>` owned by the pool and
is modelled here by its map semantics (the table itself is embedded and
verified separately for claim C4).  The disk manager is a map from page id
to page payload.  `next_page_id_` starts at 0 and is bumped by
`AllocatePage`.  Replacer calls go through the checked operations via
`rstep`; the pool only ever passes frame ids below `pool_size =
replacer_size`, so the bounds check never fires (`rstep_access_eq`,
`rstep_setEv_eq`). -/

/-- One element of the `pages_` array. -/
structure BPage where
  page_id : Int
  pin_count : Nat
  is_dirty : Bool
  data : Nat
deriving DecidableEq, Repr

/-- State of `BufferPoolManagerInstance`. -/
structure BPState where
  pool_size : Nat
  pages : Nat → BPage
  free_list : List Nat
  page_table : Int → Option Nat
  repl : LRUK
  next_page_id : Int
  disk : Int → Nat

/-- The constructor: every frame starts empty and on the free list. -/
def bpInit (pool_size replacer_k : Nat) (disk : Int → Nat) : BPState :=
  { pool_size := pool_size,
    pages := fun _ => ⟨-1, 0, false, 0⟩,
    free_list := List.range pool_size,
    page_table := fun _ => none,
    repl := lrukInit pool_size replacer_k,
    next_page_id := 0,
    disk := disk }

/-- `page_table_->Insert(pid, f)` (map semantics: bind pid to f). -/
def ptInsert (pt : Int → Option Nat) (pid : Int) (f : Nat) : Int → Option Nat :=
  fun q => if q = pid then some f else pt q

/-- `page_table_->Remove(pid)` (map semantics: unbind pid). -/
def ptRemove (pt : Int → Option Nat) (pid : Int) : Int → Option Nat :=
  fun q => if q = pid then none else pt q

/-- `LRUKReplacer::Remove` as called by the pool; the error case (out of
range, or a non-evictable frame) cannot occur from pool states — shown as
part of the invariant proof — and is mapped to the unchanged state. -/
def rstepRemove (r : LRUK) (f : Nat) : LRUK :=
  match lrukRemove r f with
  | .ok r' => r'
  | .error _ => r

/-- `BufferPoolManagerInstance::GetAvailableFrame`: pop the free list, else
evict a victim (writing it out when dirty) and drop its page-table entry. -/
def GetAvailableFrame (s : BPState) : Option (Nat × BPState) :=
  match s.free_list with
  | f :: rest => some (f, { s with free_list := rest })
  | [] =>
    match lrukEvict s.repl with
    | (some f, repl') =>
      let s1 := { s with repl := repl' }
      let disk1 := fun q => if q = (s.pages f).page_id then (s.pages f).data else s1.disk q
      let s2 := if (s.pages f).is_dirty then { s1 with disk := disk1 } else s1
      some (f, { s2 with page_table := ptRemove s2.page_table ((s.pages f).page_id) })
    | (none, _) => none

/-- `BufferPoolManagerInstance::NewPgImp`: allocate a fresh page id into an
available frame, pin it, record the access and make it non-evictable. -/
def NewPgImp (s : BPState) : Option Int × BPState :=
  match GetAvailableFrame s with
  | none => (none, s)
  | some (f, s1) =>
    let pid := s1.next_page_id
    let s2 := { s1 with next_page_id := pid + 1 }
    let pages1 := fun g => if g = f then (⟨pid, 1, false, 0⟩ : BPage) else s2.pages g
    let s3 := { s2 with pages := pages1 }
    let s4 := { s3 with page_table := ptInsert s3.page_table pid f }
    (some pid,
     { s4 with repl := rstep (rstep s4.repl (.access f)) (.setEv f false) })

/-- `BufferPoolManagerInstance::FetchPgImp`: serve a resident page by
pinning it, otherwise read it from disk into an available frame. -/
def FetchPgImp (s : BPState) (pid : Int) : Option Nat × BPState :=
  match s.page_table pid with
  | some f =>
    let p := s.pages f
    let pages1 := fun g => if g = f then { p with pin_count := p.pin_count + 1 } else s.pages g
    let s1 := { s with pages := pages1 }
    (some f,
     { s1 with repl := rstep (rstep s1.repl (.access f)) (.setEv f false) })
  | none =>
    match GetAvailableFrame s with
    | none => (none, s)
    | some (f, s1) =>
      let pages2 := fun g => if g = f then (⟨pid, 1, false, s1.disk pid⟩ : BPage) else s1.pages g
      let s2 := { s1 with pages := pages2 }
      let s3 := { s2 with page_table := ptInsert s2.page_table pid f }
      (some f,
       { s3 with repl := rstep (rstep s3.repl (.access f)) (.setEv f false) })

/-- `BufferPoolManagerInstance::UnpinPgImp`: false for a missing page; set
the dirty flag when asked (before the pin check, as in the source); then
false when the pin count is already zero, else decrement and mark the frame
evictable exactly when the count reaches zero. -/
def UnpinPgImp (s : BPState) (pid : Int) (is_dirty : Bool) : Bool × BPState :=
  match s.page_table pid with
  | none => (false, s)
  | some f =>
    let pagesd := fun g => if g = f then { (s.pages f) with is_dirty := true } else s.pages g
    let s1 := if is_dirty then { s with pages := pagesd } else s
    if (s1.pages f).pin_count ≠ 0 then
      let p := s1.pages f
      let pages2 := fun g => if g = f then { p with pin_count := p.pin_count - 1 } else s1.pages g
      let s2 := { s1 with pages := pages2 }
      if p.pin_count - 1 = 0 then
        (true, { s2 with repl := rstep s2.repl (.setEv f true) })
      else (true, s2)
    else (false, s1)

/-- `BufferPoolManagerInstance::FlushPgImp`: write a resident page to disk
and clear its dirty flag (regardless of whether it was dirty). -/
def FlushPgImp (s : BPState) (pid : Int) : Bool × BPState :=
  match s.page_table pid with
  | some f =>
    let pages1 := fun g => if g = f then { (s.pages f) with is_dirty := false } else s.pages g
    let disk1 := fun q => if q = pid then (s.pages f).data else s.disk q
    (true, { s with disk := disk1, pages := pages1 })
  | none => (false, s)

/-- One iteration of the loop of `FlushAllPgsImp` (frame index i). -/
def flushIter (s : BPState) (i : Nat) : BPState :=
  match s.page_table ((s.pages i).page_id) with
  | some f =>
    let pages1 := fun g => if g = f then { (s.pages f) with is_dirty := false } else s.pages g
    let disk1 := fun q => if q = (s.pages i).page_id then (s.pages f).data else s.disk q
    { s with disk := disk1, pages := pages1 }
  | none => s

/-- `BufferPoolManagerInstance::FlushAllPgsImp`. -/
def FlushAllPgsImp (s : BPState) : BPState :=
  (List.range s.pool_size).foldl flushIter s

/-- `BufferPoolManagerInstance::DeletePgImp`: trivially true for a missing
page, false for a pinned page, otherwise unbind it, drop it from the
replacer, return the frame to the free list and reset it. -/
def DeletePgImp (s : BPState) (pid : Int) : Bool × BPState :=
  match s.page_table pid with
  | none => (true, s)
  | some f =>
    if (s.pages f).pin_count > 0 then (false, s)
    else
      let s1 := { s with page_table := ptRemove s.page_table pid }
      let s2 := { s1 with repl := rstepRemove s1.repl f }
      let s3 := { s2 with free_list := s2.free_list ++ [f] }
      let pages1 := fun g => if g = f then (⟨-1, 0, false, 0⟩ : BPage) else s3.pages g
      (true, { s3 with pages := pages1 })

/-- A public buffer-pool call, for reachability over call sequences. -/
inductive BPOp
  | newPage
  | fetchPage (pid : Int)
  | unpinPage (pid : Int) (is_dirty : Bool)
  | flushPage (pid : Int)
  | flushAll
  | deletePage (pid : Int)
deriving DecidableEq, Repr

/-- Effect of one call on the pool state. -/
def bpStep (s : BPState) : BPOp → BPState
  | .newPage => (NewPgImp s).2
  | .fetchPage pid => (FetchPgImp s pid).2
  | .unpinPage pid d => (UnpinPgImp s pid d).2
  | .flushPage pid => (FlushPgImp s pid).2
  | .flushAll => FlushAllPgsImp s
  | .deletePage pid => (DeletePgImp s pid).2

/-- Effect of a call sequence. -/
def bpRun (s : BPState) (ops : List BPOp) : BPState :=
  ops.foldl bpStep s

/-- Reachable-state invariant of the buffer pool (claim C1):
frames bound in the page table are in range and carry their page id back
(pt_frame), at most one page id binds a frame (pt_inj), every resident
frame has a replacer entry whose evictable flag mirrors "pin count zero"
(res_entry), an evictable entry always belongs to a frame with pin count
zero (ev_pin), and free frames are in range, unbound, untracked and listed
once (free_*). -/
structure BPInv (s : BPState) : Prop where
  repl_size : s.repl.replacer_size = s.pool_size
  pt_frame : ∀ pid f, s.page_table pid = some f →
    f < s.pool_size ∧ (s.pages f).page_id = pid
  pt_inj : ∀ pid pid' f, s.page_table pid = some f → s.page_table pid' = some f →
    pid = pid'
  res_entry : ∀ pid f, s.page_table pid = some f →
    ∃ e, s.repl.entries f = some e ∧
      (e.evictable = true ↔ (s.pages f).pin_count = 0)
  ev_pin : ∀ f e, s.repl.entries f = some e → e.evictable = true →
    (s.pages f).pin_count = 0
  entry_range : ∀ f e, s.repl.entries f = some e → f < s.pool_size
  free_range : ∀ f ∈ s.free_list, f < s.pool_size
  free_not_res : ∀ f ∈ s.free_list, ∀ pid, s.page_table pid ≠ some f
  free_no_entry : ∀ f ∈ s.free_list, s.repl.entries f = none
  free_nodup : s.free_list.Nodup

theorem bpInv_init (pool_size replacer_k : Nat) (disk : Int → Nat) :
    BPInv (bpInit pool_size replacer_k disk) := by
  refine ⟨rfl, ?_, ?_, ?_, ?_, ?_, ?_, ?_, ?_, ?_⟩ <;>
    simp [bpInit, lrukInit, List.nodup_range]

theorem recordGo_fields (r : LRUK) (f : Nat) :
    (lrukRecordAccessGo r f).replacer_size = r.replacer_size ∧
    (lrukRecordAccessGo r f).entries f =
      some ⟨(r.entry f).hit_count + 1, (r.entry f).evictable⟩ ∧
    (∀ g, g ≠ f → (lrukRecordAccessGo r f).entries g = r.entries g) := by
  refine ⟨?_, ?_, ?_⟩
  · dsimp only [lrukRecordAccessGo]
    split_ifs <;> rfl
  · dsimp only [lrukRecordAccessGo]
    split_ifs <;> simp
  · intro g hg
    dsimp only [lrukRecordAccessGo]
    split_ifs <;> simp [hg]

theorem setEvGo_entries (r : LRUK) (f : Nat) (ev : Bool) (e : FrameEntry)
    (hent : r.entries f = some e) :
    (lrukSetEvictableGo r f ev).entries f = some ⟨e.hit_count, ev⟩ ∧
    (∀ g, g ≠ f → (lrukSetEvictableGo r f ev).entries g = r.entries g) := by
  constructor
  · simp [lrukSetEvictableGo, hent]
  · intro g hg
    simp [lrukSetEvictableGo, hent, hg]

/-- Effect of the record-then-mark-non-evictable pair every page install
performs, for an in-range frame. -/
theorem installRepl_spec (r : LRUK) (f : Nat) (hf : f ≤ r.replacer_size) :
    (rstep (rstep r (.access f)) (.setEv f false)).replacer_size = r.replacer_size ∧
    (∃ e, (rstep (rstep r (.access f)) (.setEv f false)).entries f = some e ∧
      e.evictable = false) ∧
    (∀ g, g ≠ f → (rstep (rstep r (.access f)) (.setEv f false)).entries g =
      r.entries g) := by
  obtain ⟨hsz1, hef1, hg1⟩ := recordGo_fields r f
  rw [rstep_access_eq r f hf]
  have hf2 : f ≤ (lrukRecordAccessGo r f).replacer_size := by rw [hsz1]; exact hf
  rw [rstep_setEv_eq _ f false hf2]
  obtain ⟨hef2, hg2⟩ := setEvGo_entries (lrukRecordAccessGo r f) f false _ hef1
  obtain ⟨hsz2, -, -, -, -, -⟩ := setEvGo_fields (lrukRecordAccessGo r f) f false
  refine ⟨hsz2.trans hsz1, ⟨_, hef2, rfl⟩, ?_⟩
  intro g hg
  rw [hg2 g hg, hg1 g hg]

/-- What a successful `Evict` guarantees: the victim had an evictable
entry, and only the victim's entry is dropped. -/
theorem lrukEvict_spec (r : LRUK) (f : Nat) (r' : LRUK)
    (h : lrukEvict r = (some f, r')) :
    (∃ e, r.entries f = some e ∧ e.evictable = true) ∧
    r'.entries f = none ∧
    (∀ g, g ≠ f → r'.entries g = r.entries g) ∧
    r'.replacer_size = r.replacer_size := by
  have hev : ∀ f0, (r.entry f0).evictable = true →
      ∃ e, r.entries f0 = some e ∧ e.evictable = true := by
    intro f0 h0
    rcases he : r.entries f0 with _ | e
    · rw [LRUK.entry, he] at h0; simp at h0
    · exact ⟨e, rfl, by rw [LRUK.entry, he] at h0; simpa using h0⟩
  unfold lrukEvict at h
  rcases h1 : r.hist_list.reverse.find? (fun g => (r.entry g).evictable) with _ | f0
  · rw [h1] at h
    rcases h2 : r.cache_list.reverse.find? (fun g => (r.entry g).evictable) with _ | f1
    · rw [h2] at h; simp at h
    · rw [h2] at h
      have hf1 : f1 = f := by
        have := congrArg Prod.fst h
        simpa using this
      have hr1 := congrArg Prod.snd h
      simp only at hr1
      subst hf1
      rw [← hr1]
      refine ⟨hev f1 (by simpa using List.find?_some h2), by simp, ?_, rfl⟩
      intro g hg
      simp [hg]
  · rw [h1] at h
    have hf1 : f0 = f := by
      have := congrArg Prod.fst h
      simpa using this
    have hr1 := congrArg Prod.snd h
    simp only at hr1
    subst hf1
    rw [← hr1]
    refine ⟨hev f0 (by simpa using List.find?_some h1), by simp, ?_, rfl⟩
    intro g hg
    simp [hg]

/-- A `Remove` of an in-range, tracked, evictable frame succeeds and drops
exactly that entry. -/
theorem lrukRemove_spec (r : LRUK) (f : Nat) (e : FrameEntry)
    (hf : f ≤ r.replacer_size) (hent : r.entries f = some e)
    (hev : e.evictable = true) :
    (rstepRemove r f).entries f = none ∧
    (∀ g, g ≠ f → (rstepRemove r f).entries g = r.entries g) ∧
    (rstepRemove r f).replacer_size = r.replacer_size := by
  have hok : lrukRemove r f = .ok
      { r with
        hist_list := if e.hit_count < r.k then r.hist_list.erase f else r.hist_list,
        cache_list := if e.hit_count < r.k then r.cache_list else r.cache_list.erase f,
        curr_size := r.curr_size - 1,
        entries := fun g => if g = f then none else r.entries g } := by
    unfold lrukRemove
    rw [if_neg (by omega), hent]
    simp [hev]
  rw [rstepRemove, hok]
  refine ⟨by simp, ?_, rfl⟩
  intro g hg
  simp [hg]

/-- What `GetAvailableFrame` guarantees from an invariant state: the
invariant still holds, the produced frame is in range, unbound, and off the
free list; the page array, pool size and allocator are untouched and the
page table only shrank. -/
theorem bpInv_gaf (s : BPState) (hinv : BPInv s) (f : Nat) (s1 : BPState)
    (h : GetAvailableFrame s = some (f, s1)) :
    BPInv s1 ∧ f < s1.pool_size ∧ (∀ q, s1.page_table q ≠ some f) ∧
    f ∉ s1.free_list ∧ s1.pool_size = s.pool_size ∧
    s1.next_page_id = s.next_page_id ∧ s1.pages = s.pages ∧
    (∀ q f', s1.page_table q = some f' → s.page_table q = some f') := by
  rcases hfl : s.free_list with _ | ⟨f0, rest⟩
  · -- free list empty: the evict path
    rcases hevq : lrukEvict s.repl with ⟨fo, repl'⟩
    rcases fo with _ | f0
    · exfalso
      simp only [GetAvailableFrame, hfl, hevq] at h
      exact Option.noConfusion h
    · simp only [GetAvailableFrame, hfl, hevq] at h
      have hf0 : f0 = f := by
        have := congrArg Prod.fst (Option.some.inj h)
        simpa using this
      subst hf0
      have hs1 := congrArg Prod.snd (Option.some.inj h)
      simp only at hs1
      obtain ⟨⟨e, hent, heev⟩, hnone, hother, hsz⟩ := lrukEvict_spec s.repl f0 repl' hevq
      have hfrange : f0 < s.pool_size := hinv.entry_range f0 e hent
      have hfmap : ∀ q, s.page_table q = some f0 → q = (s.pages f0).page_id := by
        intro q hq
        exact ((hinv.pt_frame q f0 hq).2).symm
      have hpt1 : s1.page_table = ptRemove s.page_table ((s.pages f0).page_id) := by
        rw [← hs1]
        by_cases hd : (s.pages f0).is_dirty <;> simp [hd]
      have hrepl1 : s1.repl = repl' := by
        rw [← hs1]
        by_cases hd : (s.pages f0).is_dirty <;> simp [hd]
      have hpages1 : s1.pages = s.pages := by
        rw [← hs1]
        by_cases hd : (s.pages f0).is_dirty <;> simp [hd]
      have hpool1 : s1.pool_size = s.pool_size := by
        rw [← hs1]
        by_cases hd : (s.pages f0).is_dirty <;> simp [hd]
      have hfree1 : s1.free_list = s.free_list := by
        rw [← hs1]
        by_cases hd : (s.pages f0).is_dirty <;> simp [hd, hfl]
      have hnp1 : s1.next_page_id = s.next_page_id := by
        rw [← hs1]
        by_cases hd : (s.pages f0).is_dirty <;> simp [hd]
      have hptsub : ∀ q f', s1.page_table q = some f' → s.page_table q = some f' := by
        intro q f' hq
        rw [hpt1, ptRemove] at hq
        by_cases hqp : q = (s.pages f0).page_id
        · rw [if_pos hqp] at hq; cases hq
        · rwa [if_neg hqp] at hq
      have hnof : ∀ q, s1.page_table q ≠ some f0 := by
        intro q hq
        have hq' := hptsub q f0 hq
        have := hfmap q hq'
        rw [hpt1, ptRemove, if_pos this] at hq
        cases hq
      refine ⟨?_, by rwa [hpool1], hnof, by simp [hfree1, hfl], hpool1, hnp1, hpages1,
        hptsub⟩
      refine ⟨?_, ?_, ?_, ?_, ?_, ?_, ?_, ?_, ?_, ?_⟩
      · rw [hrepl1, hsz, hpool1]; exact hinv.repl_size
      · intro q g hq
        have := hinv.pt_frame q g (hptsub q g hq)
        rw [hpages1, hpool1]
        exact this
      · intro q q' g hq hq'
        exact hinv.pt_inj q q' g (hptsub q g hq) (hptsub q' g hq')
      · intro q g hq
        have hgf : g ≠ f0 := fun hgf => hnof q (hgf ▸ hq)
        obtain ⟨e', he', hiff⟩ := hinv.res_entry q g (hptsub q g hq)
        rw [hrepl1, hpages1]
        exact ⟨e', (hother g hgf).symm ▸ he', hiff⟩
      · intro g e' he' hev'
        rw [hrepl1] at he'
        have hgf : g ≠ f0 := by
          intro hgf; subst hgf; rw [hnone] at he'; cases he'
        rw [hother g hgf] at he'
        rw [hpages1]
        exact hinv.ev_pin g e' he' hev'
      · intro g e' he'
        rw [hrepl1] at he'
        have hgf : g ≠ f0 := by
          intro hgf; subst hgf; rw [hnone] at he'; cases he'
        rw [hother g hgf] at he'
        rw [hpool1]
        exact hinv.entry_range g e' he'
      · intro g hg; rw [hfree1, hfl] at hg; cases hg
      · intro g hg; rw [hfree1, hfl] at hg; cases hg
      · intro g hg; rw [hfree1, hfl] at hg; cases hg
      · rw [hfree1, hfl]; exact List.nodup_nil
  · -- free list non-empty: pop its head
    simp only [GetAvailableFrame, hfl] at h
    have hf0 : f0 = f := by
      have := congrArg Prod.fst (Option.some.inj h)
      simpa using this
    subst hf0
    have hs1 := congrArg Prod.snd (Option.some.inj h)
    simp only at hs1
    have hmem : f0 ∈ s.free_list := by rw [hfl]; exact List.mem_cons_self _ _
    have hnodup := hinv.free_nodup
    rw [hfl] at hnodup
    have hpt1 : s1.page_table = s.page_table := by rw [← hs1]
    have hrepl1 : s1.repl = s.repl := by rw [← hs1]
    have hpages1 : s1.pages = s.pages := by rw [← hs1]
    have hpool1 : s1.pool_size = s.pool_size := by rw [← hs1]
    have hfree1 : s1.free_list = rest := by rw [← hs1]
    have hnp1 : s1.next_page_id = s.next_page_id := by rw [← hs1]
    refine ⟨?_, by rw [hpool1]; exact hinv.free_range f0 hmem, ?_, ?_, hpool1, hnp1,
      hpages1, ?_⟩
    · refine ⟨?_, ?_, ?_, ?_, ?_, ?_, ?_, ?_, ?_, ?_⟩
      · rw [hrepl1, hpool1]; exact hinv.repl_size
      · intro q g hq
        rw [hpt1] at hq
        rw [hpages1, hpool1]
        exact hinv.pt_frame q g hq
      · intro q q' g hq hq'
        rw [hpt1] at hq hq'
        exact hinv.pt_inj q q' g hq hq'
      · intro q g hq
        rw [hpt1] at hq
        rw [hrepl1, hpages1]
        exact hinv.res_entry q g hq
      · intro g e' he' hev'
        rw [hrepl1] at he'
        rw [hpages1]
        exact hinv.ev_pin g e' he' hev'
      · intro g e' he'
        rw [hrepl1] at he'
        rw [hpool1]
        exact hinv.entry_range g e' he'
      · intro g hg
        rw [hfree1] at hg
        rw [hpool1]
        exact hinv.free_range g (by rw [hfl]; exact List.mem_cons_of_mem _ hg)
      · intro g hg
        rw [hfree1] at hg
        intro pid
        rw [hpt1]
        exact hinv.free_not_res g (by rw [hfl]; exact List.mem_cons_of_mem _ hg) pid
      · intro g hg
        rw [hfree1] at hg
        rw [hrepl1]
        exact hinv.free_no_entry g (by rw [hfl]; exact List.mem_cons_of_mem _ hg)
      · rw [hfree1]; exact hnodup.of_cons
    · intro q
      rw [hpt1]
      exact hinv.free_not_res f0 hmem q
    · rw [hfree1]
      exact (List.nodup_cons.mp hnodup).1
    · intro q f' hq
      rw [hpt1] at hq
      exact hq

/-- Installing a page into a fresh frame (the shared tail of `NewPgImp` and
the miss path of `FetchPgImp`) preserves the invariant. -/
theorem bpInv_install (s1 : BPState) (hinv : BPInv s1) (f : Nat) (pid : Int)
    (data : Nat) (np : Int)
    (hf : f < s1.pool_size) (hnres : ∀ q, s1.page_table q ≠ some f)
    (hnfree : f ∉ s1.free_list) :
    BPInv { s1 with
      next_page_id := np,
      pages := fun g => if g = f then ⟨pid, 1, false, data⟩ else s1.pages g,
      page_table := ptInsert s1.page_table pid f,
      repl := rstep (rstep s1.repl (.access f)) (.setEv f false) } := by
  have hfsz : f ≤ s1.repl.replacer_size := by rw [hinv.repl_size]; omega
  obtain ⟨hsz, ⟨enew, hef, heev⟩, hother⟩ := installRepl_spec s1.repl f hfsz
  refine ⟨?_, ?_, ?_, ?_, ?_, ?_, ?_, ?_, ?_, ?_⟩
  · show (rstep (rstep s1.repl (.access f)) (.setEv f false)).replacer_size = s1.pool_size
    rw [hsz]; exact hinv.repl_size
  · intro q g hq
    simp only [ptInsert] at hq
    by_cases hqp : q = pid
    · rw [if_pos hqp] at hq
      obtain rfl : f = g := by simpa using hq
      exact ⟨hf, by simp [hqp]⟩
    · rw [if_neg hqp] at hq
      have hgf : g ≠ f := fun hgf => hnres q (hgf ▸ hq)
      obtain ⟨h1, h2⟩ := hinv.pt_frame q g hq
      exact ⟨h1, by simpa [hgf] using h2⟩
  · intro q q' g hq hq'
    simp only [ptInsert] at hq hq'
    by_cases hqp : q = pid <;> by_cases hqp' : q' = pid
    · rw [hqp, hqp']
    · rw [if_pos hqp] at hq
      rw [if_neg hqp'] at hq'
      obtain rfl : f = g := by simpa using hq
      exact absurd hq' (hnres q')
    · rw [if_neg hqp] at hq
      rw [if_pos hqp'] at hq'
      obtain rfl : f = g := by simpa using hq'
      exact absurd hq (hnres q)
    · rw [if_neg hqp] at hq
      rw [if_neg hqp'] at hq'
      exact hinv.pt_inj q q' g hq hq'
  · intro q g hq
    simp only [ptInsert] at hq
    by_cases hqp : q = pid
    · rw [if_pos hqp] at hq
      obtain rfl : f = g := by simpa using hq
      refine ⟨enew, hef, ?_⟩
      rw [heev]
      simp
    · rw [if_neg hqp] at hq
      have hgf : g ≠ f := fun hgf => hnres q (hgf ▸ hq)
      obtain ⟨e', he', hiff⟩ := hinv.res_entry q g hq
      refine ⟨e', ?_, ?_⟩
      · rw [hother g hgf]; exact he'
      · simpa [hgf] using hiff
  · intro g e' he' hev'
    by_cases hgf : g = f
    · subst hgf
      rw [hef] at he'
      obtain rfl : enew = e' := by simpa using he'
      simp [hev'] at heev
    · rw [hother g hgf] at he'
      have := hinv.ev_pin g e' he' hev'
      simpa [hgf] using this
  · intro g e' he'
    by_cases hgf : g = f
    · subst hgf; exact hf
    · rw [hother g hgf] at he'
      exact hinv.entry_range g e' he'
  · exact hinv.free_range
  · intro g hg q hq
    simp only [ptInsert] at hq
    by_cases hqp : q = pid
    · rw [if_pos hqp] at hq
      obtain rfl : f = g := by simpa using hq
      exact hnfree hg
    · rw [if_neg hqp] at hq
      exact hinv.free_not_res g hg q hq
  · intro g hg
    have hgf : g ≠ f := fun hgf => hnfree (hgf ▸ hg)
    rw [hother g hgf]
    exact hinv.free_no_entry g hg
  · exact hinv.free_nodup

/-- The invariant only observes the pool size, free list, page table,
replacer, and the page id / pin count of every frame. -/
theorem bpInv_obs (s s' : BPState)
    (hps : s'.pool_size = s.pool_size) (hfl : s'.free_list = s.free_list)
    (hpt : s'.page_table = s.page_table) (hrepl : s'.repl = s.repl)
    (hpage : ∀ g, (s'.pages g).page_id = (s.pages g).page_id ∧
      ((s'.pages g).pin_count = 0 ↔ (s.pages g).pin_count = 0))
    (hinv : BPInv s) : BPInv s' := by
  refine ⟨?_, ?_, ?_, ?_, ?_, ?_, ?_, ?_, ?_, ?_⟩
  · rw [hrepl, hps]; exact hinv.repl_size
  · intro q g hq
    rw [hpt] at hq
    obtain ⟨h1, h2⟩ := hinv.pt_frame q g hq
    rw [hps, (hpage g).1]
    exact ⟨h1, h2⟩
  · intro q q' g hq hq'
    rw [hpt] at hq hq'
    exact hinv.pt_inj q q' g hq hq'
  · intro q g hq
    rw [hpt] at hq
    obtain ⟨e, he, hiff⟩ := hinv.res_entry q g hq
    rw [hrepl, (hpage g).2]
    exact ⟨e, he, hiff⟩
  · intro g e he hev
    rw [hrepl] at he
    rw [(hpage g).2]
    exact hinv.ev_pin g e he hev
  · intro g e he
    rw [hrepl] at he
    rw [hps]
    exact hinv.entry_range g e he
  · intro g hg
    rw [hfl] at hg
    rw [hps]
    exact hinv.free_range g hg
  · intro g hg
    rw [hfl] at hg
    rw [hpt]
    exact hinv.free_not_res g hg
  · intro g hg
    rw [hfl] at hg
    rw [hrepl]
    exact hinv.free_no_entry g hg
  · rw [hfl]; exact hinv.free_nodup

theorem bpInv_newPage (s : BPState) (hinv : BPInv s) : BPInv (NewPgImp s).2 := by
  unfold NewPgImp
  rcases hg : GetAvailableFrame s with _ | ⟨f, s1⟩
  · exact hinv
  · obtain ⟨hinv1, hf, hnres, hnfree, hpool, hnp, hpages, hsub⟩ := bpInv_gaf s hinv f s1 hg
    exact bpInv_install s1 hinv1 f s1.next_page_id 0 (s1.next_page_id + 1) hf hnres hnfree

theorem bpInv_fetchPage (s : BPState) (pid : Int) (hinv : BPInv s) :
    BPInv (FetchPgImp s pid).2 := by
  unfold FetchPgImp
  rcases hq : s.page_table pid with _ | f
  · rcases hg : GetAvailableFrame s with _ | ⟨f, s1⟩
    · exact hinv
    · obtain ⟨hinv1, hf, hnres, hnfree, hpool, hnp, hpages, hsub⟩ :=
        bpInv_gaf s hinv f s1 hg
      exact bpInv_install s1 hinv1 f pid (s1.disk pid) s1.next_page_id hf hnres hnfree
  · -- resident page: pin it and mark non-evictable
    have hfr := hinv.pt_frame pid f hq
    have hfsz : f ≤ s.repl.replacer_size := by rw [hinv.repl_size]; omega
    obtain ⟨hsz, ⟨enew, hef, heev⟩, hother⟩ := installRepl_spec s.repl f hfsz
    refine ⟨?_, ?_, ?_, ?_, ?_, ?_, ?_, ?_, ?_, ?_⟩
    · show (rstep (rstep s.repl (.access f)) (.setEv f false)).replacer_size = s.pool_size
      rw [hsz]; exact hinv.repl_size
    · intro q g hgq
      obtain ⟨h1, h2⟩ := hinv.pt_frame q g hgq
      refine ⟨h1, ?_⟩
      by_cases hgf : g = f
      · subst hgf; simpa using h2
      · simpa [hgf] using h2
    · exact hinv.pt_inj
    · intro q g hgq
      by_cases hgf : g = f
      · subst hgf
        refine ⟨enew, hef, ?_⟩
        rw [heev]
        simp
      · obtain ⟨e', he', hiff⟩ := hinv.res_entry q g hgq
        refine ⟨e', ?_, ?_⟩
        · rw [hother g hgf]; exact he'
        · simpa [hgf] using hiff
    · intro g e' he' hev'
      by_cases hgf : g = f
      · subst hgf
        rw [hef] at he'
        obtain rfl : enew = e' := by simpa using he'
        simp [hev'] at heev
      · rw [hother g hgf] at he'
        have := hinv.ev_pin g e' he' hev'
        simpa [hgf] using this
    · intro g e' he'
      by_cases hgf : g = f
      · subst hgf; exact hfr.1
      · rw [hother g hgf] at he'
        exact hinv.entry_range g e' he'
    · exact hinv.free_range
    · exact hinv.free_not_res
    · intro g hg
      have hgf : g ≠ f := by
        intro hgf
        exact hinv.free_not_res g hg pid (by rw [hgf]; exact hq)
      rw [hother g hgf]
      exact hinv.free_no_entry g hg
    · exact hinv.free_nodup

theorem bpInv_unpin (s : BPState) (pid : Int) (d : Bool) (hinv : BPInv s) :
    BPInv (UnpinPgImp s pid d).2 := by
  unfold UnpinPgImp
  rcases hq : s.page_table pid with _ | f
  · exact hinv
  · dsimp only
    have hfr := hinv.pt_frame pid f hq
    have hfsz : f ≤ s.repl.replacer_size := by rw [hinv.repl_size]; omega
    -- the possibly-dirtied intermediate state keeps the invariant
    set s1 := if d then
        { s with pages := fun g => if g = f then { (s.pages f) with is_dirty := true }
                                   else s.pages g }
      else s with hs1
    have hobs1 : s1.pool_size = s.pool_size ∧ s1.free_list = s.free_list ∧
        s1.page_table = s.page_table ∧ s1.repl = s.repl ∧
        (∀ g, (s1.pages g).page_id = (s.pages g).page_id ∧
          ((s1.pages g).pin_count = 0 ↔ (s.pages g).pin_count = 0)) := by
      rcases d with _ | _
      · simp [hs1]
      · refine ⟨by simp [hs1], by simp [hs1], by simp [hs1], by simp [hs1], ?_⟩
        intro g
        by_cases hgf : g = f <;> simp [hs1, hgf]
    obtain ⟨ho1, ho2, ho3, ho4, ho5⟩ := hobs1
    have hinv1 : BPInv s1 := bpInv_obs s s1 ho1 ho2 ho3 ho4 ho5 hinv
    split_ifs with hpin hz
    · -- the pin count reaches zero: the frame is marked evictable
      dsimp only
      obtain ⟨e1, he1, hiff1⟩ := hinv1.res_entry pid f (ho3 ▸ hq)
      have hfsz1 : f ≤ s1.repl.replacer_size := by rw [ho4]; exact hfsz
      have hsetl := rstep_setEv_eq s1.repl f true hfsz1
      obtain ⟨hefT, hotherT⟩ := setEvGo_entries s1.repl f true e1 he1
      refine ⟨?_, ?_, ?_, ?_, ?_, ?_, ?_, ?_, ?_, ?_⟩
      · show (rstep s1.repl (.setEv f true)).replacer_size = s1.pool_size
        rw [hsetl]
        obtain ⟨hsz2, -, -, -, -, -⟩ := setEvGo_fields s1.repl f true
        rw [hsz2, ho4, ho1]
        exact hinv.repl_size
      · intro q g hgq
        obtain ⟨h1, h2⟩ := hinv1.pt_frame q g hgq
        refine ⟨h1, ?_⟩
        by_cases hgf : g = f
        · subst hgf; simpa using h2
        · simpa [hgf] using h2
      · exact hinv1.pt_inj
      · intro q g hgq
        by_cases hgf : g = f
        · subst hgf
          rw [hsetl]
          refine ⟨⟨e1.hit_count, true⟩, hefT, ?_⟩
          simp [hz]
        · obtain ⟨e', he', hiff⟩ := hinv1.res_entry q g hgq
          rw [hsetl]
          refine ⟨e', ?_, ?_⟩
          · rw [hotherT g hgf]; exact he'
          · simpa [hgf] using hiff
      · intro g e' he' hev'
        rw [hsetl] at he'
        by_cases hgf : g = f
        · subst hgf
          simpa using hz
        · rw [hotherT g hgf] at he'
          have := hinv1.ev_pin g e' he' hev'
          simpa [hgf] using this
      · intro g e' he'
        rw [hsetl] at he'
        by_cases hgf : g = f
        · subst hgf
          exact ho1 ▸ hfr.1
        · rw [hotherT g hgf] at he'
          exact hinv1.entry_range g e' he'
      · exact hinv1.free_range
      · exact hinv1.free_not_res
      · intro g hg
        have hgf : g ≠ f := by
          intro hgf
          exact hinv1.free_not_res g hg pid (by rw [hgf, ho3]; exact hq)
        rw [hsetl, hotherT g hgf]
        exact hinv1.free_no_entry g hg
      · exact hinv1.free_nodup
    · -- still pinned afterwards: the evictable flag stays false
      dsimp only
      refine bpInv_obs s1 _ rfl rfl rfl rfl ?_ hinv1
      intro g
      by_cases hgf : g = f
      · subst hgf
        refine ⟨by simp, ?_⟩
        simp only [if_pos rfl]
        show (s1.pages g).pin_count - 1 = 0 ↔ (s1.pages g).pin_count = 0
        omega
      · simp [hgf]
    · exact hinv1

theorem bpInv_flushPage (s : BPState) (pid : Int) (hinv : BPInv s) :
    BPInv (FlushPgImp s pid).2 := by
  unfold FlushPgImp
  rcases hq : s.page_table pid with _ | f
  · exact hinv
  · dsimp only
    refine bpInv_obs s _ rfl rfl rfl rfl ?_ hinv
    intro g
    by_cases hgf : g = f <;> simp [hgf]

theorem bpInv_flushIter (s : BPState) (i : Nat) (hinv : BPInv s) :
    BPInv (flushIter s i) := by
  unfold flushIter
  rcases hq : s.page_table ((s.pages i).page_id) with _ | f
  · exact hinv
  · dsimp only
    refine bpInv_obs s _ rfl rfl rfl rfl ?_ hinv
    intro g
    by_cases hgf : g = f <;> simp [hgf]

theorem bpInv_flushAll (s : BPState) (hinv : BPInv s) : BPInv (FlushAllPgsImp s) := by
  unfold FlushAllPgsImp
  generalize List.range s.pool_size = l
  induction l generalizing s with
  | nil => exact hinv
  | cons i t ih => exact ih _ (bpInv_flushIter s i hinv)

theorem bpInv_deletePage (s : BPState) (pid : Int) (hinv : BPInv s) :
    BPInv (DeletePgImp s pid).2 := by
  unfold DeletePgImp
  rcases hq : s.page_table pid with _ | f
  · exact hinv
  · dsimp only
    split_ifs with hpin
    · exact hinv
    · dsimp only
      have hfr := hinv.pt_frame pid f hq
      have hpin0 : (s.pages f).pin_count = 0 := by omega
      obtain ⟨e, he, hiff⟩ := hinv.res_entry pid f hq
      have hev : e.evictable = true := hiff.mpr hpin0
      have hfsz : f ≤ s.repl.replacer_size := by rw [hinv.repl_size]; omega
      obtain ⟨hnone, hother, hsz⟩ := lrukRemove_spec s.repl f e hfsz he hev
      have hfmap : ∀ q, s.page_table q = some f → q = pid := fun q hq' =>
        hinv.pt_inj q pid f hq' hq
      refine ⟨?_, ?_, ?_, ?_, ?_, ?_, ?_, ?_, ?_, ?_⟩
      · show (rstepRemove s.repl f).replacer_size = s.pool_size
        rw [hsz]; exact hinv.repl_size
      · intro q g hgq
        simp only [ptRemove] at hgq
        by_cases hqp : q = pid
        · rw [if_pos hqp] at hgq; cases hgq
        · rw [if_neg hqp] at hgq
          have hgf : g ≠ f := fun hgf => hqp (hfmap q (hgf ▸ hgq))
          obtain ⟨h1, h2⟩ := hinv.pt_frame q g hgq
          exact ⟨h1, by simpa [hgf] using h2⟩
      · intro q q' g hgq hgq'
        simp only [ptRemove] at hgq hgq'
        by_cases hqp : q = pid
        · rw [if_pos hqp] at hgq; cases hgq
        · by_cases hqp' : q' = pid
          · rw [if_pos hqp'] at hgq'; cases hgq'
          · rw [if_neg hqp] at hgq
            rw [if_neg hqp'] at hgq'
            exact hinv.pt_inj q q' g hgq hgq'
      · intro q g hgq
        simp only [ptRemove] at hgq
        by_cases hqp : q = pid
        · rw [if_pos hqp] at hgq; cases hgq
        · rw [if_neg hqp] at hgq
          have hgf : g ≠ f := fun hgf => hqp (hfmap q (hgf ▸ hgq))
          obtain ⟨e', he', hiff'⟩ := hinv.res_entry q g hgq
          refine ⟨e', ?_, ?_⟩
          · rw [hother g hgf]; exact he'
          · simpa [hgf] using hiff'
      · intro g e' he' hev'
        by_cases hgf : g = f
        · subst hgf
          rw [hnone] at he'; cases he'
        · rw [hother g hgf] at he'
          have := hinv.ev_pin g e' he' hev'
          simpa [hgf] using this
      · intro g e' he'
        by_cases hgf : g = f
        · subst hgf
          rw [hnone] at he'; cases he'
        · rw [hother g hgf] at he'
          exact hinv.entry_range g e' he'
      · intro g hg
        rcases List.mem_append.mp hg with hg | hg
        · exact hinv.free_range g hg
        · obtain rfl : g = f := by simpa using hg
          exact hfr.1
      · intro g hg q hgq
        simp only [ptRemove] at hgq
        by_cases hqp : q = pid
        · rw [if_pos hqp] at hgq; cases hgq
        · rw [if_neg hqp] at hgq
          rcases List.mem_append.mp hg with hg | hg
          · exact hinv.free_not_res g hg q hgq
          · obtain rfl : g = f := by simpa using hg
            exact hqp (hfmap q hgq)
      · intro g hg
        rcases List.mem_append.mp hg with hg | hg
        · have hgf : g ≠ f := by
            intro hgf
            exact hinv.free_not_res g hg pid (by rw [hgf]; exact hq)
          rw [hother g hgf]
          exact hinv.free_no_entry g hg
        · obtain rfl : g = f := by simpa using hg
          exact hnone
      · refine List.Nodup.append hinv.free_nodup (List.nodup_singleton f) ?_
        intro g hg hg'
        obtain rfl : g = f := by simpa using hg'
        exact hinv.free_not_res g hg pid hq

theorem bpInv_step (s : BPState) (op : BPOp) (hinv : BPInv s) : BPInv (bpStep s op) := by
  cases op with
  | newPage => exact bpInv_newPage s hinv
  | fetchPage pid => exact bpInv_fetchPage s pid hinv
  | unpinPage pid d => exact bpInv_unpin s pid d hinv
  | flushPage pid => exact bpInv_flushPage s pid hinv
  | flushAll => exact bpInv_flushAll s hinv
  | deletePage pid => exact bpInv_deletePage s pid hinv

theorem bpInv_run_from (s : BPState) (ops : List BPOp) (hinv : BPInv s) :
    BPInv (bpRun s ops) := by
  induction ops generalizing s with
  | nil => exact hinv
  | cons op t ih => exact ih _ (bpInv_step s op hinv)

theorem bpInv_run (pool_size replacer_k : Nat) (dk : Int → Nat) (ops : List BPOp) :
    BPInv (bpRun (bpInit pool_size replacer_k dk) ops) :=
  bpInv_run_from _ ops (bpInv_init pool_size replacer_k dk)

/-- C1: in every buffer-pool state reachable from the initial state by a
sequence of NewPgImp / FetchPgImp / UnpinPgImp / FlushPgImp / FlushAllPgsImp
/ DeletePgImp calls, a resident frame is marked evictable in the replacer
iff its page's pin count is zero; consequently Evict never returns a frame
whose page has a positive pin count. -/
theorem C1_resident_evictable_iff_unpinned (P k : Nat) (dk : Int → Nat)
    (ops : List BPOp) :
    (∀ pid f, (bpRun (bpInit P k dk) ops).page_table pid = some f →
      (((bpRun (bpInit P k dk) ops).repl.entry f).evictable = true ↔
        ((bpRun (bpInit P k dk) ops).pages f).pin_count = 0)) ∧
    (∀ f r', lrukEvict (bpRun (bpInit P k dk) ops).repl = (some f, r') →
      ((bpRun (bpInit P k dk) ops).pages f).pin_count = 0) := by
  have hinv := bpInv_run P k dk ops
  set s := bpRun (bpInit P k dk) ops
  constructor
  · intro pid f hq
    obtain ⟨e, he, hiff⟩ := hinv.res_entry pid f hq
    have hent : s.repl.entry f = e := by simp [LRUK.entry, he]
    rw [hent]
    exact hiff
  · intro f r' hev
    obtain ⟨⟨e, he, heev⟩, -, -, -⟩ := lrukEvict_spec s.repl f r' hev
    exact hinv.ev_pin f e he heev

theorem C1_resident_evictable_iff_unpinned_witness :
    (bpRun (bpInit 2 2 (fun _ => 0)) [BPOp.newPage, BPOp.unpinPage 0 false]).page_table 0
      = some 0 ∧
    (((bpRun (bpInit 2 2 (fun _ => 0))
        [BPOp.newPage, BPOp.unpinPage 0 false]).repl.entry 0).evictable = true ↔
      ((bpRun (bpInit 2 2 (fun _ => 0))
        [BPOp.newPage, BPOp.unpinPage 0 false]).pages 0).pin_count = 0) :=
  ⟨by decide,
   (C1_resident_evictable_iff_unpinned 2 2 (fun _ => 0)
     [BPOp.newPage, BPOp.unpinPage 0 false]).1 0 0 (by decide)⟩

/-- C2 counterexample: for a resident page whose pin count is already zero,
UnpinPgImp returns false but still ORs the dirty argument into the page's
dirty flag — the state is not unchanged as claimed. State: a one-frame pool
after new_page(0); unpin(0,false) brings the pin count to 0 with a clean
page; the call unpin(0,true) then returns false yet flips the dirty bit. -/
theorem C2_counterexample :
    (UnpinPgImp (bpRun (bpInit 1 2 (fun _ => 0))
        [BPOp.newPage, BPOp.unpinPage 0 false]) 0 true).1 = false ∧
    ((bpRun (bpInit 1 2 (fun _ => 0))
        [BPOp.newPage, BPOp.unpinPage 0 false]).pages 0).is_dirty = false ∧
    ((UnpinPgImp (bpRun (bpInit 1 2 (fun _ => 0))
        [BPOp.newPage, BPOp.unpinPage 0 false]) 0 true).2.pages 0).is_dirty = true := by
  decide

/-- C2 (amended): UnpinPgImp on a non-resident page returns false with the
state unchanged.  On a resident page the dirty argument is ORed into the
dirty flag unconditionally (before the pin-count check); then, if the pin
count is zero the call returns false with no further change, and if it is
positive the call returns true, decrements the pin count, and marks the
frame evictable exactly when the count reaches zero. -/
theorem C2_unpin_field_semantics (s : BPState) (pid : Int) (d : Bool) :
    (s.page_table pid = none → UnpinPgImp s pid d = (false, s)) ∧
    (∀ f, s.page_table pid = some f →
      ((s.pages f).pin_count = 0 →
        (UnpinPgImp s pid d).1 = false ∧
        (UnpinPgImp s pid d).2.pages f
          = { (s.pages f) with is_dirty := ((s.pages f).is_dirty || d) } ∧
        (∀ g, g ≠ f → (UnpinPgImp s pid d).2.pages g = s.pages g) ∧
        (UnpinPgImp s pid d).2.page_table = s.page_table ∧
        (UnpinPgImp s pid d).2.free_list = s.free_list ∧
        (UnpinPgImp s pid d).2.repl = s.repl ∧
        (UnpinPgImp s pid d).2.disk = s.disk) ∧
      (0 < (s.pages f).pin_count →
        (UnpinPgImp s pid d).1 = true ∧
        (UnpinPgImp s pid d).2.pages f
          = { (s.pages f) with pin_count := (s.pages f).pin_count - 1,
                               is_dirty := ((s.pages f).is_dirty || d) } ∧
        (∀ g, g ≠ f → (UnpinPgImp s pid d).2.pages g = s.pages g) ∧
        (UnpinPgImp s pid d).2.page_table = s.page_table ∧
        (UnpinPgImp s pid d).2.free_list = s.free_list ∧
        (UnpinPgImp s pid d).2.disk = s.disk ∧
        (UnpinPgImp s pid d).2.repl
          = (if (s.pages f).pin_count - 1 = 0 then rstep s.repl (.setEv f true)
             else s.repl))) := by
  constructor
  · intro hq
    simp [UnpinPgImp, hq]
  · intro f hq
    constructor
    · intro hpin0
      have hne : ¬ (s.pages f).pin_count ≠ 0 := by omega
      cases d with
      | false =>
        refine ⟨?_, ?_, ?_, ?_, ?_, ?_, ?_⟩
        · simp [UnpinPgImp, hq, hne]
        · simp [UnpinPgImp, hq, hne]
        · intro g hg
          simp [UnpinPgImp, hq, hne]
        · simp [UnpinPgImp, hq, hne]
        · simp [UnpinPgImp, hq, hne]
        · simp [UnpinPgImp, hq, hne]
        · simp [UnpinPgImp, hq, hne]
      | true =>
        refine ⟨?_, ?_, ?_, ?_, ?_, ?_, ?_⟩
        · simp [UnpinPgImp, hq, hne]
        · simp [UnpinPgImp, hq, hne]
        · intro g hg
          simp [UnpinPgImp, hq, hne, hg]
        · simp [UnpinPgImp, hq, hne]
        · simp [UnpinPgImp, hq, hne]
        · simp [UnpinPgImp, hq, hne]
        · simp [UnpinPgImp, hq, hne]
    · intro hpin
      have hne : (s.pages f).pin_count ≠ 0 := by omega
      by_cases hz : (s.pages f).pin_count - 1 = 0
      · cases d <;>
          simp [UnpinPgImp, hq, hne, hz] <;>
          intro g hg <;> simp [hg]
      · cases d <;>
          simp [UnpinPgImp, hq, hne, hz] <;>
          intro g hg <;> simp [hg]

theorem C2_unpin_field_semantics_witness :
    (bpRun (bpInit 1 2 (fun _ => 0))
      [BPOp.newPage, BPOp.unpinPage 0 false]).page_table 0 = some 0 ∧
    ((bpRun (bpInit 1 2 (fun _ => 0))
      [BPOp.newPage, BPOp.unpinPage 0 false]).pages 0).pin_count = 0 ∧
    (UnpinPgImp (bpRun (bpInit 1 2 (fun _ => 0))
      [BPOp.newPage, BPOp.unpinPage 0 false]) 0 true).1 = false :=
  ⟨by decide, by decide,
   (((C2_unpin_field_semantics (bpRun (bpInit 1 2 (fun _ => 0))
       [BPOp.newPage, BPOp.unpinPage 0 false]) 0 true).2 0
      (by decide)).1 (by decide)).1⟩

/-! ### Extendible hash table (`ExtendibleHashTable`, claim C4)

Buckets live in an arena `store : Nat → EBucket` indexed by bucket id, and
the directory `dir_` is a list of bucket ids, so that several directory
slots may alias one bucket exactly as the C++ `shared_ptr`s do.  Keys,
values and hashes are `Nat`; the hash function is an explicit parameter
(`std::hash` is opaque). -/

/-- `ExtendibleHashTable::Bucket`: `list_`, `size_` and `depth_`. -/
structure EBucket where
  list : List (Nat × Nat)
  size : Nat
  depth : Nat
deriving Repr

/-- `Bucket::Find`: first entry with the key, if any. -/
def bucketFind (b : EBucket) (k : Nat) : Option Nat :=
  (b.list.find? (fun p => p.1 == k)).map Prod.snd

/-- The update loop of `Bucket::Insert`: replace the value of the first
entry carrying the key, or report that the key is absent. -/
def bucketListInsert : List (Nat × Nat) → Nat → Nat → Option (List (Nat × Nat))
  | [], _, _ => none
  | p :: rest, k, v =>
    if p.1 = k then some ((k, v) :: rest)
    else (bucketListInsert rest k v).map (fun l => p :: l)

/-- `Bucket::Insert`: update in place if the key exists, else append unless
the bucket is full.  Modelled from the spec: `IsFull()` holds when the
bucket holds `size_` entries (the class header is not among the sources). -/
def bucketInsert (b : EBucket) (k v : Nat) : Bool × EBucket :=
  match bucketListInsert b.list k v with
  | some l => (true, { b with list := l })
  | none =>
    if b.list.length = b.size then (false, b)
    else (true, { b with list := b.list ++ [(k, v)] })

/-- `ExtendibleHashTable` state: `global_depth_`, `bucket_size_`,
`num_buckets_`, the bucket arena with its allocation counter, and `dir_`. -/
structure EHT where
  global_depth : Nat
  bucket_size : Nat
  num_buckets : Nat
  store : Nat → EBucket
  nextb : Nat
  dir : List Nat

/-- The constructor: one empty bucket of depth 0, directory of size one. -/
def ehtInit (sz : Nat) : EHT :=
  { global_depth := 0, bucket_size := sz, num_buckets := 1,
    store := fun _ => ⟨[], sz, 0⟩, nextb := 1, dir := [0] }

/-- `ExtendibleHashTable::IndexOf`: low `global_depth_` bits of the hash. -/
def IndexOf (hash : Nat → Nat) (t : EHT) (k : Nat) : Nat :=
  hash k &&& 2 ^ t.global_depth - 1

/-- `ExtendibleHashTable::Find`. -/
def ehtFind (hash : Nat → Nat) (t : EHT) (k : Nat) : Option Nat :=
  bucketFind (t.store (t.dir.getD (IndexOf hash t k) 0)) k

/-- The directory-rewiring `for` loop of `Insert`: starting from
`hash(key) & (local_mask - 1)` and stepping by `local_mask`, point each
visited slot at the new bucket selected by bit `local_depth` of the slot
index.  `fuel` bounds the iteration count (the loop runs at most
`dir.length` times since `local_mask ≥ 1`). -/
def strideLoop : List Nat → Nat → Nat → Nat → Nat → Nat → List Nat
  | dir, _, _, _, _, 0 => dir
  | dir, lm, b0, b1, i, fuel + 1 =>
    if i < dir.length then
      strideLoop (dir.set i (if i &&& lm ≠ 0 then b1 else b0)) lm b0 b1 (i + lm) fuel
    else dir

/-- One iteration of the `while(dir_[index]->IsFull())` loop of `Insert`:
double the directory when the local depth has reached the global depth,
split the full bucket into two fresh buckets by bit `local_depth` of each
entry's hash, and rewire the directory slots of the key's congruence
class. -/
def ehtSplitStep (hash : Nat → Nat) (t : EHT) (k : Nat) : EHT :=
  let index := IndexOf hash t k
  let bid := t.dir.getD index 0
  let ld := (t.store bid).depth
  let t1 := if ld = t.global_depth then
      { t with dir := t.dir ++ t.dir, global_depth := t.global_depth + 1 }
    else t
  let lm := 2 ^ ld
  let distribute := fun (pr : EBucket × EBucket) (p : Nat × Nat) =>
    if hash p.1 &&& lm ≠ 0 then (pr.1, (bucketInsert pr.2 p.1 p.2).2)
    else ((bucketInsert pr.1 p.1 p.2).2, pr.2)
  let pr := (t1.store bid).list.foldl distribute
    (⟨[], t.bucket_size, ld + 1⟩, ⟨[], t.bucket_size, ld + 1⟩)
  let b0id := t.nextb
  let b1id := t.nextb + 1
  let store2 := fun j => if j = b0id then pr.1 else if j = b1id then pr.2 else t1.store j
  let dir2 := strideLoop t1.dir lm b0id b1id (hash k &&& lm - 1) (t1.dir.length + 1)
  { t1 with store := store2, dir := dir2, nextb := t.nextb + 2 }

/-- The `while(dir_[index]->IsFull())` loop of `Insert`, fuel-bounded. -/
def ehtSplitLoop (hash : Nat → Nat) : Nat → EHT → Nat → Option EHT
  | 0, _, _ => none
  | fuel + 1, t, k =>
    let bid := t.dir.getD (IndexOf hash t k) 0
    if (t.store bid).list.length = (t.store bid).size then
      ehtSplitLoop hash fuel (ehtSplitStep hash t k) k
    else some t

/-- `ExtendibleHashTable::Insert`: overwrite in place when the key is
found in its bucket; otherwise run the split loop until the key's bucket
has room, then insert. -/
def ehtInsert (hash : Nat → Nat) (fuel : Nat) (t : EHT) (k v : Nat) : Option EHT :=
  let bid := t.dir.getD (IndexOf hash t k) 0
  if (bucketFind (t.store bid) k).isSome then
    some { t with
      store := fun j => if j = bid then (bucketInsert (t.store bid) k v).2 else t.store j }
  else
    match ehtSplitLoop hash fuel t k with
    | none => none
    | some t2 =>
      let bid2 := t2.dir.getD (IndexOf hash t2 k) 0
      some { t2 with
        store := fun j => if j = bid2 then (bucketInsert (t2.store bid2) k v).2
                          else t2.store j }

/-- A sequence of inserts. -/
def ehtRun (hash : Nat → Nat) (fuel : Nat) : EHT → List (Nat × Nat) → Option EHT
  | t, [] => some t
  | t, (k, v) :: rest =>
    match ehtInsert hash fuel t k v with
    | none => none
    | some t1 => ehtRun hash fuel t1 rest

/-- The value of the most recent insert of key `k` in `ops`, if any. -/
def lastInsert (ops : List (Nat × Nat)) (k : Nat) : Option Nat :=
  (ops.reverse.find? (fun p => p.1 == k)).map Prod.snd

/-- Structural invariant of the extendible hash table. -/
structure EHTInv (hash : Nat → Nat) (t : EHT) : Prop where
  dir_len : t.dir.length = 2 ^ t.global_depth
  depth_le : ∀ i, i < t.dir.length → (t.store (t.dir.getD i 0)).depth ≤ t.global_depth
  bsize : ∀ i, i < t.dir.length → (t.store (t.dir.getD i 0)).size = t.bucket_size
  classes : ∀ i, i < t.dir.length → ∀ j, j < t.dir.length →
    (t.dir.getD j 0 = t.dir.getD i 0 ↔
      j % 2 ^ (t.store (t.dir.getD i 0)).depth = i % 2 ^ (t.store (t.dir.getD i 0)).depth)
  hashes : ∀ i, i < t.dir.length → ∀ p ∈ (t.store (t.dir.getD i 0)).list,
    hash p.1 % 2 ^ (t.store (t.dir.getD i 0)).depth = i % 2 ^ (t.store (t.dir.getD i 0)).depth
  nodup_keys : ∀ i, i < t.dir.length → ((t.store (t.dir.getD i 0)).list.map Prod.fst).Nodup
  fresh : ∀ i, i < t.dir.length → t.dir.getD i 0 < t.nextb

theorem indexOf_eq_mod (hash : Nat → Nat) (t : EHT) (k : Nat) :
    IndexOf hash t k = hash k % 2 ^ t.global_depth := by
  rw [IndexOf, Nat.and_pow_two_sub_one_eq_mod]

theorem and_two_pow_ne_zero (x n : Nat) : x &&& 2 ^ n ≠ 0 ↔ x / 2 ^ n % 2 = 1 := by
  have h1 : x &&& 2 ^ n ≠ 0 ↔ x.testBit n = true := by
    constructor
    · intro h
      obtain ⟨i, hi⟩ := Nat.ne_zero_implies_bit_true h
      rw [Nat.testBit_and, Nat.testBit_two_pow] at hi
      have hi' : x.testBit i = true ∧ n = i := by simpa using hi
      rw [hi'.2]; exact hi'.1
    · intro h hzero
      have h2 := congrArg (fun y => y.testBit n) hzero
      simp [Nat.testBit_and, h, Nat.testBit_two_pow] at h2
  rw [h1, Nat.testBit_to_div_mod]
  simp

theorem div_pow_mod_two_of_mod_pow (a d e : Nat) (h : d < e) :
    a % 2 ^ e / 2 ^ d % 2 = a / 2 ^ d % 2 := by
  have h1 : (a % 2 ^ e).testBit d = a.testBit d := by
    rw [Nat.testBit_mod_two_pow]
    simp [h]
  rw [Nat.testBit_to_div_mod, Nat.testBit_to_div_mod] at h1
  have h2 := decide_eq_decide.mp h1
  have h3 := Nat.mod_two_eq_zero_or_one (a % 2 ^ e / 2 ^ d)
  have h4 := Nat.mod_two_eq_zero_or_one (a / 2 ^ d)
  omega

theorem mod_pow_of_le (a d e : Nat) (h : d ≤ e) : a % 2 ^ e % 2 ^ d = a % 2 ^ d :=
  Nat.mod_mod_of_dvd a (pow_dvd_pow 2 h)

theorem mod_pow_succ_eq_iff (a b n : Nat) :
    a % 2 ^ (n + 1) = b % 2 ^ (n + 1) ↔
      (a % 2 ^ n = b % 2 ^ n ∧ a / 2 ^ n % 2 = b / 2 ^ n % 2) := by
  have ha : a % 2 ^ (n + 1) = a % 2 ^ n + 2 ^ n * (a / 2 ^ n % 2) := by
    rw [pow_succ]
    exact Nat.mod_mul
  have hb : b % 2 ^ (n + 1) = b % 2 ^ n + 2 ^ n * (b / 2 ^ n % 2) := by
    rw [pow_succ]
    exact Nat.mod_mul
  have hpa : a % 2 ^ n < 2 ^ n := Nat.mod_lt _ (Nat.two_pow_pos n)
  have hpb : b % 2 ^ n < 2 ^ n := Nat.mod_lt _ (Nat.two_pow_pos n)
  rcases Nat.mod_two_eq_zero_or_one (a / 2 ^ n) with hx | hx <;>
    rcases Nat.mod_two_eq_zero_or_one (b / 2 ^ n) with hy | hy <;>
    rw [hx] at ha <;> rw [hy] at hb <;> rw [hx, hy] <;>
    omega

theorem getD_append_left (l1 l2 : List Nat) (i : Nat) (h : i < l1.length) :
    (l1 ++ l2).getD i 0 = l1.getD i 0 := by
  simp [List.getD_eq_getElem?_getD, List.getElem?_append_left h]

theorem getD_append_right (l1 l2 : List Nat) (i : Nat) (h : l1.length ≤ i) :
    (l1 ++ l2).getD i 0 = l2.getD (i - l1.length) 0 := by
  simp [List.getD_eq_getElem?_getD, List.getElem?_append_right h]

theorem find?_filter_key (l : List (Nat × Nat)) (P : Nat × Nat → Bool) (k0 : Nat)
    (h : ∀ p ∈ l, p.1 = k0 → P p = true) :
    (l.filter P).find? (fun p => p.1 == k0) = l.find? (fun p => p.1 == k0) := by
  induction l with
  | nil => rfl
  | cons q rest ih =>
    have hrest : ∀ p ∈ rest, p.1 = k0 → P p = true := fun p hp => h p (by simp [hp])
    by_cases hq : q.1 = k0
    · have hPq : P q = true := h q (by simp) hq
      simp [List.filter_cons, hPq, List.find?_cons, hq]
    · cases hPq : P q with
      | true =>
        simp [List.filter_cons, hPq, List.find?_cons, hq, ih hrest]
      | false =>
        simp [List.filter_cons, hPq, List.find?_cons, hq, ih hrest]

theorem bucketListInsert_none (l : List (Nat × Nat)) (k v : Nat)
    (hk : k ∉ l.map Prod.fst) : bucketListInsert l k v = none := by
  induction l with
  | nil => rfl
  | cons p rest ih =>
    have hp : ¬ p.1 = k := fun h => hk (by rw [← h]; simp)
    have hr : k ∉ rest.map Prod.fst := fun hm => hk (by simp [hm])
    simp [bucketListInsert, hp, ih hr]

theorem bucketListInsert_isSome (l : List (Nat × Nat)) (k v : Nat)
    (hk : k ∈ l.map Prod.fst) : (bucketListInsert l k v).isSome := by
  induction l with
  | nil => simp at hk
  | cons p rest ih =>
    by_cases hp : p.1 = k
    · simp [bucketListInsert, hp]
    · have hk' : k ∈ rest.map Prod.fst := by
        rcases (by simpa using hk : k = p.1 ∨ k ∈ rest.map Prod.fst) with h | h
        · exact absurd h.symm hp
        · exact h
      simp only [bucketListInsert, if_neg hp]
      rcases hs : bucketListInsert rest k v with _ | l2
      · rw [hs] at ih
        simp [ih hk'] at *
      · simp

theorem bucketListInsert_some_spec (l : List (Nat × Nat)) (k v : Nat) :
    ∀ l', bucketListInsert l k v = some l' →
    l'.map Prod.fst = l.map Prod.fst ∧
    l'.find? (fun p => p.1 == k) = some (k, v) ∧
    (∀ k0, k0 ≠ k → l'.find? (fun p => p.1 == k0) = l.find? (fun p => p.1 == k0)) ∧
    (∀ p ∈ l', p ∈ l ∨ (p = (k, v) ∧ k ∈ l.map Prod.fst)) := by
  induction l with
  | nil => intro l' h; cases h
  | cons q rest ih =>
    intro l' h
    by_cases hq : q.1 = k
    · rw [bucketListInsert, if_pos hq] at h
      obtain rfl : (k, v) :: rest = l' := Option.some.inj h
      refine ⟨by simp [hq], by simp [List.find?_cons], ?_, ?_⟩
      · intro k0 hk0
        have hne : ¬ k = k0 := fun h0 => hk0 h0.symm
        simp [List.find?_cons, hq, hne]
      · intro p hp
        rcases List.mem_cons.mp hp with rfl | hp
        · right
          exact ⟨rfl, by simp [← hq]⟩
        · left
          exact List.mem_cons_of_mem q hp
    · rw [bucketListInsert, if_neg hq] at h
      rcases hrec : bucketListInsert rest k v with _ | l2
      · rw [hrec] at h; cases h
      · rw [hrec] at h
        obtain rfl : q :: l2 = l' := by simpa using h
        obtain ⟨hm, hf, ho, hmem⟩ := ih l2 hrec
        refine ⟨by simp [hm], by simp [List.find?_cons, hq, hf], ?_, ?_⟩
        · intro k0 hk0
          by_cases hqk0 : q.1 = k0
          · simp [List.find?_cons, hqk0]
          · simp [List.find?_cons, hqk0, ho k0 hk0]
        · intro p hp
          rcases List.mem_cons.mp hp with rfl | hp
          · left; simp
          · rcases hmem p hp with h1 | ⟨h1, h2⟩
            · left; simp [h1]
            · right; exact ⟨h1, by simp [h2]⟩

theorem bucketFind_eq_none_iff (b : EBucket) (k : Nat) :
    bucketFind b k = none ↔ k ∉ b.list.map Prod.fst := by
  rw [bucketFind, Option.map_eq_none', List.find?_eq_none]
  constructor
  · intro h hk
    obtain ⟨p, hp, hpk⟩ := List.mem_map.mp hk
    exact h p hp (by simp [hpk])
  · intro h p hp
    simp only [beq_iff_eq]
    intro hpk
    exact h (hpk ▸ List.mem_map_of_mem Prod.fst hp)

theorem bucketFind_isSome_iff (b : EBucket) (k : Nat) :
    (bucketFind b k).isSome ↔ k ∈ b.list.map Prod.fst := by
  rcases hf : bucketFind b k with _ | v
  · simp [(bucketFind_eq_none_iff b k).mp hf]
  · constructor
    · intro _
      by_contra hk
      rw [(bucketFind_eq_none_iff b k).mpr hk] at hf
      cases hf
    · intro _
      simp

theorem bucketInsert_append (b : EBucket) (k v : Nat)
    (hk : k ∉ b.list.map Prod.fst) (hlen : b.list.length ≠ b.size) :
    (bucketInsert b k v).2 = { b with list := b.list ++ [(k, v)] } := by
  simp [bucketInsert, bucketListInsert_none b.list k v hk, hlen]

/-- Pointwise description of the directory-rewiring loop. -/
theorem strideLoop_getD (lm b0 b1 : Nat) (hlm : 1 ≤ lm) :
    ∀ (fuel : Nat) (dir : List Nat) (i : Nat), dir.length ≤ i + fuel →
      (strideLoop dir lm b0 b1 i fuel).length = dir.length ∧
      ∀ j, j < dir.length →
        (strideLoop dir lm b0 b1 i fuel).getD j 0 =
          if i ≤ j ∧ j % lm = i % lm then (if j &&& lm ≠ 0 then b1 else b0)
          else dir.getD j 0 := by
  intro fuel
  induction fuel with
  | zero =>
    intro dir i hle
    refine ⟨rfl, ?_⟩
    intro j hj
    simp only [strideLoop]
    rw [if_neg]
    rintro ⟨h1, h2⟩
    omega
  | succ fuel ih =>
    intro dir i hle
    simp only [strideLoop]
    by_cases hi : i < dir.length
    · rw [if_pos hi]
      obtain ⟨ihlen, ihget⟩ :=
        ih (dir.set i (if i &&& lm ≠ 0 then b1 else b0)) (i + lm)
          (by simp only [List.length_set]; omega)
      refine ⟨by rw [ihlen]; simp, ?_⟩
      intro j hj
      rw [ihget j (by simpa using hj)]
      by_cases hcond : i + lm ≤ j ∧ j % lm = (i + lm) % lm
      · have hc2 : i ≤ j ∧ j % lm = i % lm :=
          ⟨by omega, by rw [hcond.2, Nat.add_mod_right]⟩
        rw [if_pos hcond, if_pos hc2]
      · rw [if_neg hcond]
        by_cases hji : j = i
        · subst hji
          have hc2 : j ≤ j ∧ j % lm = j % lm := ⟨le_refl j, rfl⟩
          rw [if_pos hc2]
          simp [List.getD_eq_getElem?_getD, List.getElem?_set_self hi]
        · have hc3 : ¬ (i ≤ j ∧ j % lm = i % lm) := by
            rintro ⟨h1, h2⟩
            have e1 := Nat.div_add_mod i lm
            have e2 := Nat.div_add_mod j lm
            have hne : i / lm ≠ j / lm := by
              intro he
              rw [he] at e1
              exact hji (by omega)
            have hlt : i / lm < j / lm :=
              lt_of_le_of_ne (Nat.div_le_div_right h1) hne
            have hstep : lm * (i / lm + 1) ≤ lm * (j / lm) :=
              Nat.mul_le_mul_left lm hlt
            have hmul : lm * (i / lm + 1) = lm * (i / lm) + lm := by ring
            exact hcond ⟨by omega, by rw [Nat.add_mod_right]; exact h2⟩
          rw [if_neg hc3]
          simp [List.getD_eq_getElem?_getD,
            List.getElem?_set_ne (fun h => hji h.symm)]
    · rw [if_neg hi]
      refine ⟨rfl, ?_⟩
      intro j hj
      rw [if_neg]
      rintro ⟨h1, h2⟩
      omega

/-- Bit `local_depth` of an entry's hash, the split criterion. -/
def hbit (hash : Nat → Nat) (lm : Nat) (p : Nat × Nat) : Bool :=
  hash p.1 &&& lm != 0

/-- The distribution fold of the split sends a full bucket's entries into
the two fresh buckets by `hbit`, and since keys are distinct and the fold
never exceeds the capacity, both lists are plain filters. -/
theorem dist_foldl (hash : Nat → Nat) (lm sz : Nat) :
    ∀ (items : List (Nat × Nat)) (a0 a1 : EBucket),
    a0.size = sz → a1.size = sz →
    (items.map Prod.fst).Nodup →
    (∀ p ∈ items, p.1 ∉ a0.list.map Prod.fst) →
    (∀ p ∈ items, p.1 ∉ a1.list.map Prod.fst) →
    a0.list.length + (items.filter (fun p => ! hbit hash lm p)).length ≤ sz →
    a1.list.length + (items.filter (hbit hash lm)).length ≤ sz →
    items.foldl
      (fun (pr : EBucket × EBucket) (p : Nat × Nat) =>
        if hash p.1 &&& lm ≠ 0 then (pr.1, (bucketInsert pr.2 p.1 p.2).2)
        else ((bucketInsert pr.1 p.1 p.2).2, pr.2)) (a0, a1)
      = ({ a0 with list := a0.list ++ items.filter (fun p => ! hbit hash lm p) },
         { a1 with list := a1.list ++ items.filter (hbit hash lm) }) := by
  intro items
  induction items with
  | nil =>
    intro a0 a1 h0 h1 _ _ _ _ _
    simp
  | cons p rest ih =>
    intro a0 a1 h0 h1 hnod hd0 hd1 hl0 hl1
    simp only [List.foldl_cons]
    have hmap : (p.1 :: rest.map Prod.fst).Nodup := by simpa using hnod
    have hnod' : (rest.map Prod.fst).Nodup := (List.nodup_cons.mp hmap).2
    have hhead : p.1 ∉ rest.map Prod.fst := (List.nodup_cons.mp hmap).1
    by_cases hp : hash p.1 &&& lm ≠ 0
    · rw [if_pos hp]
      have hbp : hbit hash lm p = true := by simpa [hbit] using hp
      have hkey : p.1 ∉ a1.list.map Prod.fst := hd1 p (by simp)
      have hflen : (List.filter (hbit hash lm) (p :: rest)).length
          = (List.filter (hbit hash lm) rest).length + 1 := by
        simp [List.filter_cons, hbp]
      have hlen : a1.list.length ≠ a1.size := by omega
      rw [bucketInsert_append a1 p.1 p.2 hkey hlen]
      rw [ih a0 { a1 with list := a1.list ++ [(p.1, p.2)] } h0 (by simpa using h1)
        hnod' (fun q hq => hd0 q (by simp [hq]))
        (fun q hq => by
          simp only [List.map_append, List.mem_append]
          rintro (hin | hin)
          · exact hd1 q (by simp [hq]) hin
          · have : q.1 = p.1 := by simpa using hin
            exact hhead (this ▸ List.mem_map_of_mem Prod.fst hq))
        (by
          have : (List.filter (fun p => ! hbit hash lm p) (p :: rest)).length
              = (List.filter (fun p => ! hbit hash lm p) rest).length := by
            simp [List.filter_cons, hbp]
          omega)
        (by simp only [List.length_append, List.length_cons, List.length_nil]; omega)]
      simp [List.filter_cons, hbp, List.append_assoc]
    · rw [if_neg hp]
      have hbp : hbit hash lm p = false := by
        simp only [hbit, bne_eq_false_iff_eq]
        omega
      have hkey : p.1 ∉ a0.list.map Prod.fst := hd0 p (by simp)
      have hflen : (List.filter (fun p => ! hbit hash lm p) (p :: rest)).length
          = (List.filter (fun p => ! hbit hash lm p) rest).length + 1 := by
        simp [List.filter_cons, hbp]
      have hlen : a0.list.length ≠ a0.size := by omega
      rw [bucketInsert_append a0 p.1 p.2 hkey hlen]
      rw [ih { a0 with list := a0.list ++ [(p.1, p.2)] } a1 (by simpa using h0) h1
        hnod'
        (fun q hq => by
          simp only [List.map_append, List.mem_append]
          rintro (hin | hin)
          · exact hd0 q (by simp [hq]) hin
          · have : q.1 = p.1 := by simpa using hin
            exact hhead (this ▸ List.mem_map_of_mem Prod.fst hq))
        (fun q hq => hd1 q (by simp [hq]))
        (by simp only [List.length_append, List.length_cons, List.length_nil]; omega)
        (by
          have : (List.filter (hbit hash lm) (p :: rest)).length
              = (List.filter (hbit hash lm) rest).length := by
            simp [List.filter_cons, hbp]
          omega)]
      simp [List.filter_cons, hbp, List.append_assoc]

theorem double_getD (t : EHT) (hlen : t.dir.length = 2 ^ t.global_depth)
    (i : Nat) (hi : i < 2 ^ (t.global_depth + 1)) :
    (t.dir ++ t.dir).getD i 0 = t.dir.getD (i % 2 ^ t.global_depth) 0 := by
  have hpow : (2:Nat) ^ (t.global_depth + 1) = 2 ^ t.global_depth * 2 := by ring
  by_cases h : i < t.dir.length
  · rw [getD_append_left _ _ _ h]
    congr 1
    rw [Nat.mod_eq_of_lt (by omega)]
  · rw [getD_append_right _ _ _ (le_of_not_lt h)]
    congr 1
    have h2 : 2 ^ t.global_depth ≤ i := by omega
    rw [hlen, Nat.mod_eq_sub_mod h2, Nat.mod_eq_of_lt (by omega)]

/-- Doubling the directory (`std::copy_n` of the whole directory onto its
own end plus `global_depth_++`) preserves the invariant and the result of
every lookup. -/
theorem double_spec (hash : Nat → Nat) (t : EHT) (hinv : EHTInv hash t) :
    EHTInv hash { t with dir := t.dir ++ t.dir, global_depth := t.global_depth + 1 } ∧
    (∀ k0, ehtFind hash
        { t with dir := t.dir ++ t.dir, global_depth := t.global_depth + 1 } k0
      = ehtFind hash t k0) := by
  have hpow : (2:Nat) ^ (t.global_depth + 1) = 2 ^ t.global_depth + 2 ^ t.global_depth := by
    ring
  have hpos : 0 < (2:Nat) ^ t.global_depth := Nat.two_pow_pos _
  have hlen2 : (t.dir ++ t.dir).length = 2 ^ (t.global_depth + 1) := by
    simp [hinv.dir_len, hpow]
  have hget : ∀ i, i < 2 ^ (t.global_depth + 1) →
      (t.dir ++ t.dir).getD i 0 = t.dir.getD (i % 2 ^ t.global_depth) 0 :=
    fun i hi => double_getD t hinv.dir_len i hi
  have hmlt : ∀ i : Nat, i % 2 ^ t.global_depth < t.dir.length := by
    intro i
    rw [hinv.dir_len]
    exact Nat.mod_lt _ hpos
  constructor
  · refine ⟨?_, ?_, ?_, ?_, ?_, ?_, ?_⟩
    · exact hlen2
    · intro i hi
      rw [hlen2] at hi
      dsimp only
      rw [hget i hi]
      exact le_trans (hinv.depth_le _ (hmlt i)) (Nat.le_succ _)
    · intro i hi
      rw [hlen2] at hi
      dsimp only
      rw [hget i hi]
      exact hinv.bsize _ (hmlt i)
    · intro i hi j hj
      rw [hlen2] at hi hj
      dsimp only
      rw [hget i hi, hget j hj]
      have hd := hinv.depth_le _ (hmlt i)
      rw [hinv.classes _ (hmlt i) _ (hmlt j)]
      rw [mod_pow_of_le j _ _ hd, mod_pow_of_le i _ _ hd]
    · intro i hi p hp
      rw [hlen2] at hi
      dsimp only at hp ⊢
      rw [hget i hi] at hp ⊢
      have hd := hinv.depth_le _ (hmlt i)
      rw [hinv.hashes _ (hmlt i) p hp, mod_pow_of_le i _ _ hd]
    · intro i hi
      rw [hlen2] at hi
      dsimp only
      rw [hget i hi]
      exact hinv.nodup_keys _ (hmlt i)
    · intro i hi
      rw [hlen2] at hi
      dsimp only
      rw [hget i hi]
      exact hinv.fresh _ (hmlt i)
  · intro k0
    rw [ehtFind, ehtFind, indexOf_eq_mod, indexOf_eq_mod]
    dsimp only
    rw [hget (hash k0 % 2 ^ (t.global_depth + 1)) (Nat.mod_lt _ (Nat.two_pow_pos _))]
    rw [mod_pow_of_le (hash k0) _ _ (Nat.le_succ _)]

/-- Core of one split iteration, phrased over the (possibly just doubled)
table `t1`: rewiring the key's congruence class to the two fresh buckets
and distributing the full bucket's entries preserves the invariant and
every lookup. -/
theorem splitCore (hash : Nat → Nat) (t1 : EHT) (k : Nat) (bid ld sz nb : Nat)
    (hinv : EHTInv hash t1)
    (hbid : bid = t1.dir.getD (IndexOf hash t1 k) 0)
    (hld : ld = (t1.store bid).depth)
    (hsz : sz = t1.bucket_size)
    (hnb : nb = t1.nextb)
    (hlt : ld < t1.global_depth)
    (hfull : (t1.store bid).list.length = (t1.store bid).size) :
    EHTInv hash
      { t1 with
        store := fun j =>
          if j = nb then
            ((t1.store bid).list.foldl
              (fun (pr : EBucket × EBucket) (p : Nat × Nat) =>
                if hash p.1 &&& 2 ^ ld ≠ 0 then (pr.1, (bucketInsert pr.2 p.1 p.2).2)
                else ((bucketInsert pr.1 p.1 p.2).2, pr.2))
              (⟨[], sz, ld + 1⟩, ⟨[], sz, ld + 1⟩)).1
          else if j = nb + 1 then
            ((t1.store bid).list.foldl
              (fun (pr : EBucket × EBucket) (p : Nat × Nat) =>
                if hash p.1 &&& 2 ^ ld ≠ 0 then (pr.1, (bucketInsert pr.2 p.1 p.2).2)
                else ((bucketInsert pr.1 p.1 p.2).2, pr.2))
              (⟨[], sz, ld + 1⟩, ⟨[], sz, ld + 1⟩)).2
          else t1.store j,
        dir := strideLoop t1.dir (2 ^ ld) nb (nb + 1) (hash k &&& 2 ^ ld - 1)
          (t1.dir.length + 1),
        nextb := nb + 2 } ∧
    (∀ k0, ehtFind hash
      { t1 with
        store := fun j =>
          if j = nb then
            ((t1.store bid).list.foldl
              (fun (pr : EBucket × EBucket) (p : Nat × Nat) =>
                if hash p.1 &&& 2 ^ ld ≠ 0 then (pr.1, (bucketInsert pr.2 p.1 p.2).2)
                else ((bucketInsert pr.1 p.1 p.2).2, pr.2))
              (⟨[], sz, ld + 1⟩, ⟨[], sz, ld + 1⟩)).1
          else if j = nb + 1 then
            ((t1.store bid).list.foldl
              (fun (pr : EBucket × EBucket) (p : Nat × Nat) =>
                if hash p.1 &&& 2 ^ ld ≠ 0 then (pr.1, (bucketInsert pr.2 p.1 p.2).2)
                else ((bucketInsert pr.1 p.1 p.2).2, pr.2))
              (⟨[], sz, ld + 1⟩, ⟨[], sz, ld + 1⟩)).2
          else t1.store j,
        dir := strideLoop t1.dir (2 ^ ld) nb (nb + 1) (hash k &&& 2 ^ ld - 1)
          (t1.dir.length + 1),
        nextb := nb + 2 } k0 = ehtFind hash t1 k0) := by
  set lm := 2 ^ ld with hlm
  set items := (t1.store bid).list with hitemsd
  set pr := items.foldl
      (fun (pr : EBucket × EBucket) (p : Nat × Nat) =>
        if hash p.1 &&& lm ≠ 0 then (pr.1, (bucketInsert pr.2 p.1 p.2).2)
        else ((bucketInsert pr.1 p.1 p.2).2, pr.2))
      (⟨[], sz, ld + 1⟩, ⟨[], sz, ld + 1⟩) with hprd
  set dir2 := strideLoop t1.dir lm nb (nb + 1) (hash k &&& lm - 1)
      (t1.dir.length + 1) with hdir2d
  -- basic arithmetic facts
  have hlm1 : 1 ≤ lm := by rw [hlm]; exact Nat.two_pow_pos ld
  have hbitiff : ∀ a : Nat, (a &&& lm ≠ 0 ↔ a / lm % 2 = 1) := by
    intro a; rw [hlm]; exact and_two_pow_ne_zero a ld
  have h2succ : ∀ a b : Nat, (a % 2 ^ (ld + 1) = b % 2 ^ (ld + 1)) ↔
      (a % lm = b % lm ∧ a / lm % 2 = b / lm % 2) := by
    intro a b; rw [hlm]; exact mod_pow_succ_eq_iff a b ld
  have hmod1 : ∀ a : Nat, a % 2 ^ (ld + 1) % lm = a % lm := by
    intro a; rw [hlm]; exact mod_pow_of_le a ld (ld + 1) (Nat.le_succ ld)
  have hlmdvd : lm ∣ 2 ^ t1.global_depth := by
    rw [hlm]; exact pow_dvd_pow 2 (le_of_lt hlt)
  have hmodlm : ∀ a : Nat, a % 2 ^ t1.global_depth % lm = a % lm := fun a =>
    Nat.mod_mod_of_dvd a hlmdvd
  have hbitpres : ∀ a : Nat, a % 2 ^ t1.global_depth / lm % 2 = a / lm % 2 := by
    intro a; rw [hlm]; exact div_pow_mod_two_of_mod_pow a ld _ hlt
  have hstart : hash k &&& lm - 1 = hash k % lm := by
    rw [hlm]; exact Nat.and_pow_two_sub_one_eq_mod (hash k) ld
  -- the slot of the key
  have hidx : IndexOf hash t1 k < t1.dir.length := by
    rw [indexOf_eq_mod, hinv.dir_len]
    exact Nat.mod_lt _ (Nat.two_pow_pos _)
  have hidxC : IndexOf hash t1 k % lm = hash k % lm := by
    rw [indexOf_eq_mod]
    exact hmodlm (hash k)
  have halias : ∀ j, j < t1.dir.length →
      (t1.dir.getD j 0 = bid ↔ j % lm = hash k % lm) := by
    intro j hj
    have h := hinv.classes (IndexOf hash t1 k) hidx j hj
    rw [← hbid, ← hld, ← hlm, hidxC] at h
    exact h
  have hfreshd : ∀ j, j < t1.dir.length → t1.dir.getD j 0 < nb := by
    intro j hj
    rw [hnb]
    exact hinv.fresh j hj
  have hnodup : (items.map Prod.fst).Nodup := by
    have h := hinv.nodup_keys (IndexOf hash t1 k) hidx
    rw [← hbid] at h
    exact h
  have hihash : ∀ p ∈ items, hash p.1 % lm = hash k % lm := by
    intro p hp
    have hp2 : p ∈ (t1.store (t1.dir.getD (IndexOf hash t1 k) 0)).list := by
      rw [← hbid, ← hitemsd]
      exact hp
    have h := hinv.hashes (IndexOf hash t1 k) hidx p hp2
    rw [← hbid, ← hld, ← hlm, hidxC] at h
    exact h
  have hitemlen : items.length = sz := by
    have h := hinv.bsize (IndexOf hash t1 k) hidx
    rw [← hbid] at h
    rw [hitemsd, hfull, h, hsz]
  -- the distribution fold is a pair of filters
  have hdist := dist_foldl hash lm sz items ⟨[], sz, ld + 1⟩ ⟨[], sz, ld + 1⟩
    rfl rfl hnodup (by intro p hp; simp) (by intro p hp; simp)
    (by simpa using le_trans (List.length_filter_le _ _) (le_of_eq hitemlen))
    (by simpa using le_trans (List.length_filter_le _ _) (le_of_eq hitemlen))
  have hpr1 : pr.1 = ⟨items.filter (fun p => ! hbit hash lm p), sz, ld + 1⟩ := by
    rw [hprd, hdist]
    rfl
  have hpr2 : pr.2 = ⟨items.filter (hbit hash lm), sz, ld + 1⟩ := by
    rw [hprd, hdist]
    rfl
  -- the rewired directory, pointwise
  have hslen : dir2.length = t1.dir.length :=
    (strideLoop_getD lm nb (nb + 1) hlm1 (t1.dir.length + 1) t1.dir
      (hash k &&& lm - 1) (by omega)).1
  have hsg : ∀ j, j < t1.dir.length → dir2.getD j 0 =
      if j % lm = hash k % lm then (if j &&& lm ≠ 0 then nb + 1 else nb)
      else t1.dir.getD j 0 := by
    intro j hj
    obtain ⟨-, hg⟩ := strideLoop_getD lm nb (nb + 1) hlm1 (t1.dir.length + 1) t1.dir
      (hash k &&& lm - 1) (by omega)
    rw [hg j hj, hstart, Nat.mod_mod_of_dvd _ dvd_rfl]
    by_cases hc : j % lm = hash k % lm
    · rw [if_pos ⟨le_trans (le_of_eq hc.symm) (Nat.mod_le j lm), hc⟩, if_pos hc]
    · rw [if_neg (fun h => hc h.2), if_neg hc]
  constructor
  · refine ⟨?_, ?_, ?_, ?_, ?_, ?_, ?_⟩
    · -- dir_len
      dsimp only
      rw [hslen]
      exact hinv.dir_len
    · -- depth_le
      intro i hi
      dsimp only at hi ⊢
      rw [hslen] at hi
      rw [hsg i hi]
      by_cases hC : i % lm = hash k % lm
      · rw [if_pos hC]
        by_cases hb : i &&& lm ≠ 0
        · rw [if_pos hb, if_neg (by omega), if_pos rfl, hpr2]
          exact hlt
        · rw [if_neg hb, if_pos rfl, hpr1]
          exact hlt
      · rw [if_neg hC]
        have hlt2 := hfreshd i hi
        rw [if_neg (by omega), if_neg (by omega)]
        exact hinv.depth_le i hi
    · -- bsize
      intro i hi
      dsimp only at hi ⊢
      rw [hslen] at hi
      rw [hsg i hi]
      by_cases hC : i % lm = hash k % lm
      · rw [if_pos hC]
        by_cases hb : i &&& lm ≠ 0
        · rw [if_pos hb, if_neg (by omega), if_pos rfl, hpr2]
          exact hsz
        · rw [if_neg hb, if_pos rfl, hpr1]
          exact hsz
      · rw [if_neg hC]
        have hlt2 := hfreshd i hi
        rw [if_neg (by omega), if_neg (by omega)]
        exact hinv.bsize i hi
    · -- classes
      intro i hi j hj
      dsimp only at hi hj ⊢
      rw [hslen] at hi hj
      rw [hsg i hi, hsg j hj]
      by_cases hCi : i % lm = hash k % lm
      · rw [if_pos hCi]
        by_cases hCj : j % lm = hash k % lm
        · -- both slots rewired: pointer equality is equality of bit ld
          rw [if_pos hCj]
          have hdepth : ((if (if i &&& lm ≠ 0 then nb + 1 else nb) = nb then pr.1
              else if (if i &&& lm ≠ 0 then nb + 1 else nb) = nb + 1 then pr.2
              else t1.store (if i &&& lm ≠ 0 then nb + 1 else nb))).depth = ld + 1 := by
            by_cases hb : i &&& lm ≠ 0
            · rw [if_pos hb, if_neg (by omega), if_pos rfl, hpr2]
            · rw [if_neg hb, if_pos rfl, hpr1]
          rw [hdepth]
          have hmods : j % lm = i % lm := by rw [hCj, hCi]
          have h2i := Nat.mod_two_eq_zero_or_one (i / lm)
          have h2j := Nat.mod_two_eq_zero_or_one (j / lm)
          rw [h2succ j i]
          by_cases hbi' : i &&& lm ≠ 0 <;> by_cases hbj' : j &&& lm ≠ 0
          · rw [if_pos hbi', if_pos hbj']
            have e1 := (hbitiff i).mp hbi'
            have e2 := (hbitiff j).mp hbj'
            constructor
            · intro _
              exact ⟨hmods, by omega⟩
            · intro _
              rfl
          · rw [if_pos hbi', if_neg hbj']
            have e1 := (hbitiff i).mp hbi'
            have e2 : ¬ j / lm % 2 = 1 := fun h => hbj' ((hbitiff j).mpr h)
            constructor
            · intro h
              exact absurd h (by omega)
            · rintro ⟨-, hbits⟩
              exact absurd hbits (by omega)
          · rw [if_neg hbi', if_pos hbj']
            have e1 : ¬ i / lm % 2 = 1 := fun h => hbi' ((hbitiff i).mpr h)
            have e2 := (hbitiff j).mp hbj'
            constructor
            · intro h
              exact absurd h (by omega)
            · rintro ⟨-, hbits⟩
              exact absurd hbits (by omega)
          · rw [if_neg hbi', if_neg hbj']
            have e1 : ¬ i / lm % 2 = 1 := fun h => hbi' ((hbitiff i).mpr h)
            have e2 : ¬ j / lm % 2 = 1 := fun h => hbj' ((hbitiff j).mpr h)
            constructor
            · intro _
              exact ⟨hmods, by omega⟩
            · intro _
              rfl
        · -- i rewired, j untouched
          rw [if_neg hCj]
          have hltj := hfreshd j hj
          have hdepth : ((if (if i &&& lm ≠ 0 then nb + 1 else nb) = nb then pr.1
              else if (if i &&& lm ≠ 0 then nb + 1 else nb) = nb + 1 then pr.2
              else t1.store (if i &&& lm ≠ 0 then nb + 1 else nb))).depth = ld + 1 := by
            by_cases hb : i &&& lm ≠ 0
            · rw [if_pos hb, if_neg (by omega), if_pos rfl, hpr2]
            · rw [if_neg hb, if_pos rfl, hpr1]
          rw [hdepth]
          constructor
          · intro heq
            exfalso
            by_cases hb : i &&& lm ≠ 0
            · rw [if_pos hb] at heq; omega
            · rw [if_neg hb] at heq; omega
          · intro heq
            exfalso
            have hmods : j % lm = i % lm := by
              have := (h2succ j i).mp heq
              exact this.1
            exact hCj (by rw [hmods, hCi])
      · rw [if_neg hCi]
        have hlti := hfreshd i hi
        have hsame : (if t1.dir.getD i 0 = nb then pr.1
            else if t1.dir.getD i 0 = nb + 1 then pr.2
            else t1.store (t1.dir.getD i 0)) = t1.store (t1.dir.getD i 0) := by
          rw [if_neg (by omega), if_neg (by omega)]
        rw [hsame]
        by_cases hCj : j % lm = hash k % lm
        · -- j rewired, i untouched
          rw [if_pos hCj]
          constructor
          · intro heq
            exfalso
            by_cases hb : j &&& lm ≠ 0
            · rw [if_pos hb] at heq; omega
            · rw [if_neg hb] at heq; omega
          · intro heq
            exfalso
            have hold := (hinv.classes i hi j hj).mpr heq
            have hjb := (halias j hj).mpr hCj
            have hib : ¬ t1.dir.getD i 0 = bid := fun h => hCi ((halias i hi).mp h)
            rw [← hold] at hib
            exact hib hjb
        · rw [if_neg hCj]
          exact hinv.classes i hi j hj
    · -- hashes
      intro i hi p hp
      dsimp only at hi hp ⊢
      rw [hslen] at hi
      rw [hsg i hi] at hp ⊢
      by_cases hC : i % lm = hash k % lm
      · rw [if_pos hC] at hp ⊢
        by_cases hb : i &&& lm ≠ 0
        · rw [if_pos hb, if_neg (by omega), if_pos rfl, hpr2] at hp ⊢
          obtain ⟨hpi, hpb⟩ := List.mem_filter.mp hp
          have hpb' : hash p.1 &&& lm ≠ 0 := by
            simpa [hbit] using hpb
          rw [h2succ]
          refine ⟨by rw [hihash p hpi, hC], ?_⟩
          have h1 := (hbitiff (hash p.1)).mp hpb'
          have h2 := (hbitiff i).mp hb
          omega
        · rw [if_neg hb, if_pos rfl, hpr1] at hp ⊢
          obtain ⟨hpi, hpb⟩ := List.mem_filter.mp hp
          have hpb' : ¬ hash p.1 &&& lm ≠ 0 := by
            simp only [hbit, Bool.not_eq_true] at hpb
            simpa [bne_eq_false_iff_eq] using hpb
          rw [h2succ]
          refine ⟨by rw [hihash p hpi, hC], ?_⟩
          have h1 := Nat.mod_two_eq_zero_or_one (hash p.1 / lm)
          have h2 := Nat.mod_two_eq_zero_or_one (i / lm)
          have h3 : ¬ hash p.1 / lm % 2 = 1 := fun h => hpb' ((hbitiff _).mpr h)
          have h4 : ¬ i / lm % 2 = 1 := fun h => hb ((hbitiff _).mpr h)
          omega
      · rw [if_neg hC] at hp ⊢
        have hlt2 := hfreshd i hi
        rw [if_neg (by omega), if_neg (by omega)] at hp ⊢
        exact hinv.hashes i hi p hp
    · -- nodup_keys
      intro i hi
      dsimp only at hi ⊢
      rw [hslen] at hi
      rw [hsg i hi]
      have hsub : ∀ P : Nat × Nat → Bool,
          ((items.filter P).map Prod.fst).Nodup :=
        fun P => ((List.filter_sublist items).map Prod.fst).nodup hnodup
      by_cases hC : i % lm = hash k % lm
      · rw [if_pos hC]
        by_cases hb : i &&& lm ≠ 0
        · rw [if_pos hb, if_neg (by omega), if_pos rfl, hpr2]
          exact hsub _
        · rw [if_neg hb, if_pos rfl, hpr1]
          exact hsub _
      · rw [if_neg hC]
        have hlt2 := hfreshd i hi
        rw [if_neg (by omega), if_neg (by omega)]
        exact hinv.nodup_keys i hi
    · -- fresh
      intro i hi
      dsimp only at hi ⊢
      rw [hslen] at hi
      rw [hsg i hi]
      by_cases hC : i % lm = hash k % lm
      · rw [if_pos hC]
        by_cases hb : i &&& lm ≠ 0
        · rw [if_pos hb]; omega
        · rw [if_neg hb]; omega
      · rw [if_neg hC]
        have hlt2 := hfreshd i hi
        omega
  · -- lookups are preserved
    intro k0
    rw [ehtFind, ehtFind, indexOf_eq_mod, indexOf_eq_mod]
    dsimp only
    have hi0 : hash k0 % 2 ^ t1.global_depth < t1.dir.length := by
      rw [hinv.dir_len]
      exact Nat.mod_lt _ (Nat.two_pow_pos _)
    rw [hsg _ hi0]
    by_cases hC : hash k0 % 2 ^ t1.global_depth % lm = hash k % lm
    · rw [if_pos hC]
      have hptr := (halias _ hi0).mpr hC
      rw [hptr]
      have hkey : ∀ P : Nat × Nat → Bool,
          (∀ p ∈ items, p.1 = k0 → P p = true) →
          bucketFind ⟨items.filter P, sz, ld + 1⟩ k0 = bucketFind (t1.store bid) k0 := by
        intro P hP
        rw [bucketFind, bucketFind]
        dsimp only
        rw [find?_filter_key items P k0 hP]
      by_cases hb : hash k0 % 2 ^ t1.global_depth &&& lm ≠ 0
      · rw [if_pos hb, if_neg (by omega), if_pos rfl, hpr2]
        refine hkey _ ?_
        intro p hp hpk
        have hbk0 : hash k0 / lm % 2 = 1 := by
          have := (hbitiff _).mp hb
          rw [hbitpres (hash k0)] at this
          exact this
        have : hash p.1 &&& lm ≠ 0 := by
          rw [hbitiff, hpk]
          exact hbk0
        simpa [hbit] using this
      · rw [if_neg hb, if_pos rfl, hpr1]
        refine hkey _ ?_
        intro p hp hpk
        have hbk0 : ¬ hash k0 / lm % 2 = 1 := by
          intro h
          exact hb ((hbitiff _).mpr (by rw [hbitpres (hash k0)]; exact h))
        have hnot : ¬ hash p.1 &&& lm ≠ 0 := by
          rw [hbitiff, hpk]
          exact hbk0
        simp only [hbit]
        simp only [bne_eq_false_iff_eq] at *
        simpa using hnot
    · rw [if_neg hC]
      have hlt2 := hfreshd _ hi0
      rw [if_neg (by omega), if_neg (by omega)]

/-- One iteration of the split loop preserves the invariant and lookups. -/
theorem splitStep_spec (hash : Nat → Nat) (t : EHT) (k : Nat)
    (hinv : EHTInv hash t)
    (hfull : (t.store (t.dir.getD (IndexOf hash t k) 0)).list.length
      = (t.store (t.dir.getD (IndexOf hash t k) 0)).size) :
    EHTInv hash (ehtSplitStep hash t k) ∧
    (∀ k0, ehtFind hash (ehtSplitStep hash t k) k0 = ehtFind hash t k0) := by
  have hidx : IndexOf hash t k < t.dir.length := by
    rw [indexOf_eq_mod, hinv.dir_len]
    exact Nat.mod_lt _ (Nat.two_pow_pos _)
  by_cases hdb : (t.store (t.dir.getD (IndexOf hash t k) 0)).depth = t.global_depth
  · -- the local depth equals the global depth: double the directory first
    obtain ⟨hinvD, hfindD⟩ := double_spec hash t hinv
    have hbidD : t.dir.getD (IndexOf hash t k) 0 =
        ({ t with dir := t.dir ++ t.dir, global_depth := t.global_depth + 1 } : EHT).dir.getD
          (IndexOf hash
            { t with dir := t.dir ++ t.dir, global_depth := t.global_depth + 1 } k) 0 := by
      show t.dir.getD (IndexOf hash t k) 0
        = (t.dir ++ t.dir).getD (hash k &&& 2 ^ (t.global_depth + 1) - 1) 0
      rw [Nat.and_pow_two_sub_one_eq_mod]
      rw [double_getD t hinv.dir_len _ (Nat.mod_lt _ (Nat.two_pow_pos _))]
      rw [mod_pow_of_le (hash k) _ _ (Nat.le_succ _), indexOf_eq_mod]
    obtain ⟨hc1, hc2⟩ := splitCore hash
      { t with dir := t.dir ++ t.dir, global_depth := t.global_depth + 1 } k
      (t.dir.getD (IndexOf hash t k) 0)
      ((t.store (t.dir.getD (IndexOf hash t k) 0)).depth)
      t.bucket_size t.nextb hinvD hbidD rfl rfl rfl
      (by
        show (t.store (t.dir.getD (IndexOf hash t k) 0)).depth < t.global_depth + 1
        omega)
      hfull
    constructor
    · show EHTInv hash (ehtSplitStep hash t k)
      dsimp only [ehtSplitStep]
      rw [if_pos hdb]
      exact hc1
    · intro k0
      show ehtFind hash (ehtSplitStep hash t k) k0 = ehtFind hash t k0
      dsimp only [ehtSplitStep]
      rw [if_pos hdb]
      exact (hc2 k0).trans (hfindD k0)
  · -- room in the directory: split in place
    obtain ⟨hc1, hc2⟩ := splitCore hash t k
      (t.dir.getD (IndexOf hash t k) 0)
      ((t.store (t.dir.getD (IndexOf hash t k) 0)).depth)
      t.bucket_size t.nextb hinv rfl rfl rfl rfl
      (lt_of_le_of_ne (hinv.depth_le _ hidx) hdb)
      hfull
    constructor
    · show EHTInv hash (ehtSplitStep hash t k)
      dsimp only [ehtSplitStep]
      rw [if_neg hdb]
      exact hc1
    · intro k0
      show ehtFind hash (ehtSplitStep hash t k) k0 = ehtFind hash t k0
      dsimp only [ehtSplitStep]
      rw [if_neg hdb]
      exact hc2 k0

/-- The split loop, when it terminates, preserves the invariant and all
lookups, and leaves the key's bucket with room. -/
theorem splitLoop_spec (hash : Nat → Nat) :
    ∀ (fuel : Nat) (t : EHT) (k : Nat) (t2 : EHT), EHTInv hash t →
      ehtSplitLoop hash fuel t k = some t2 →
      EHTInv hash t2 ∧ (∀ k0, ehtFind hash t2 k0 = ehtFind hash t k0) ∧
      (t2.store (t2.dir.getD (IndexOf hash t2 k) 0)).list.length
        ≠ (t2.store (t2.dir.getD (IndexOf hash t2 k) 0)).size := by
  intro fuel
  induction fuel with
  | zero =>
    intro t k t2 _ h
    cases h
  | succ fuel ih =>
    intro t k t2 hinv h
    dsimp only [ehtSplitLoop] at h
    by_cases hfull : (t.store (t.dir.getD (IndexOf hash t k) 0)).list.length
        = (t.store (t.dir.getD (IndexOf hash t k) 0)).size
    · rw [if_pos hfull] at h
      obtain ⟨hinv1, hfind1⟩ := splitStep_spec hash t k hinv hfull
      obtain ⟨h1, h2, h3⟩ := ih (ehtSplitStep hash t k) k t2 hinv1 h
      exact ⟨h1, fun k0 => (h2 k0).trans (hfind1 k0), h3⟩
    · rw [if_neg hfull] at h
      obtain rfl : t = t2 := Option.some.inj h
      exact ⟨hinv, fun _ => rfl, hfull⟩

/-- Replacing the list of one bucket (all aliases at once, as the shared
pointer does) preserves the invariant when keys stay distinct and every
new entry hashes into the congruence class of every slot of the bucket. -/
theorem storeUpdate_inv (hash : Nat → Nat) (t : EHT) (bid : Nat)
    (l' : List (Nat × Nat)) (hinv : EHTInv hash t)
    (hnodup' : (l'.map Prod.fst).Nodup)
    (hclass : ∀ i, i < t.dir.length → t.dir.getD i 0 = bid →
      ∀ p ∈ l', hash p.1 % 2 ^ (t.store bid).depth = i % 2 ^ (t.store bid).depth) :
    EHTInv hash { t with
      store := fun j => if j = bid then { (t.store bid) with list := l' }
                        else t.store j } := by
  have hs : ∀ x, (if x = bid then { (t.store bid) with list := l' } else t.store x)
      = if x = bid then { (t.store x) with list := l' } else t.store x := by
    intro x
    by_cases hx : x = bid
    · rw [if_pos hx, if_pos hx, hx]
    · rw [if_neg hx, if_neg hx]
  refine ⟨?_, ?_, ?_, ?_, ?_, ?_, ?_⟩
  · exact hinv.dir_len
  · intro i hi
    dsimp only at hi ⊢
    rw [hs]
    by_cases hx : t.dir.getD i 0 = bid
    · rw [if_pos hx]
      exact hinv.depth_le i hi
    · rw [if_neg hx]
      exact hinv.depth_le i hi
  · intro i hi
    dsimp only at hi ⊢
    rw [hs]
    by_cases hx : t.dir.getD i 0 = bid
    · rw [if_pos hx]
      exact hinv.bsize i hi
    · rw [if_neg hx]
      exact hinv.bsize i hi
  · intro i hi j hj
    dsimp only at hi hj ⊢
    rw [hs]
    by_cases hx : t.dir.getD i 0 = bid
    · rw [if_pos hx]
      exact hinv.classes i hi j hj
    · rw [if_neg hx]
      exact hinv.classes i hi j hj
  · intro i hi p hp
    dsimp only at hi hp ⊢
    rw [hs] at hp ⊢
    by_cases hx : t.dir.getD i 0 = bid
    · rw [if_pos hx] at hp ⊢
      have hp' : p ∈ l' := hp
      have := hclass i hi hx p hp'
      rw [hx]
      exact this
    · rw [if_neg hx] at hp ⊢
      exact hinv.hashes i hi p hp
  · intro i hi
    dsimp only at hi ⊢
    rw [hs]
    by_cases hx : t.dir.getD i 0 = bid
    · rw [if_pos hx]
      exact hnodup'
    · rw [if_neg hx]
      exact hinv.nodup_keys i hi
  · intro i hi
    dsimp only at hi ⊢
    exact hinv.fresh i hi

/-- `Insert` (when its split loop terminates): invariant preserved, the
inserted key maps to the new value, every other key is untouched. -/
theorem ehtInsert_spec (hash : Nat → Nat) (fuel : Nat) (t : EHT) (k v : Nat)
    (t' : EHT) (hinv : EHTInv hash t)
    (h : ehtInsert hash fuel t k v = some t') :
    EHTInv hash t' ∧ ehtFind hash t' k = some v ∧
    (∀ k0, k0 ≠ k → ehtFind hash t' k0 = ehtFind hash t k0) := by
  have hfind' : ∀ (S : Nat → EBucket) (k0 : Nat),
      ehtFind hash { t with store := S } k0
        = bucketFind (S (t.dir.getD (IndexOf hash t k0) 0)) k0 := fun S k0 => rfl
  have hidx : IndexOf hash t k < t.dir.length := by
    rw [indexOf_eq_mod, hinv.dir_len]
    exact Nat.mod_lt _ (Nat.two_pow_pos _)
  dsimp only [ehtInsert] at h
  by_cases hp : (bucketFind (t.store (t.dir.getD (IndexOf hash t k) 0)) k).isSome
  · rw [if_pos hp] at h
    obtain rfl := Option.some.inj h
    have hkmem : k ∈ (t.store (t.dir.getD (IndexOf hash t k) 0)).list.map Prod.fst :=
      (bucketFind_isSome_iff _ _).mp hp
    have hsome := bucketListInsert_isSome
      (t.store (t.dir.getD (IndexOf hash t k) 0)).list k v hkmem
    rcases hli : bucketListInsert (t.store (t.dir.getD (IndexOf hash t k) 0)).list k v
      with _ | l'
    · rw [hli] at hsome
      simp at hsome
    · obtain ⟨hmap, hfk, hfo, hmem⟩ := bucketListInsert_some_spec _ k v l' hli
      have hbi : (bucketInsert (t.store (t.dir.getD (IndexOf hash t k) 0)) k v).2
          = { (t.store (t.dir.getD (IndexOf hash t k) 0)) with list := l' } := by
        simp only [bucketInsert]
        rw [hli]
      simp only [hbi]
      refine ⟨?_, ?_, ?_⟩
      · apply storeUpdate_inv hash t _ l' hinv
        · rw [hmap]
          exact hinv.nodup_keys (IndexOf hash t k) hidx
        · intro i hi hib p hp'
          rcases hmem p hp' with hold | ⟨hpkv, hkin⟩
          · have hthis := hinv.hashes i hi p (by rw [hib]; exact hold)
            rw [hib] at hthis
            exact hthis
          · obtain ⟨q, hq, hq1⟩ := List.mem_map.mp hkin
            have hthis := hinv.hashes i hi q (by rw [hib]; exact hq)
            rw [hib, hq1] at hthis
            rw [hpkv]
            exact hthis
      · rw [hfind']
        rw [if_pos rfl, bucketFind]
        dsimp only
        rw [hfk]
        rfl
      · intro k0 hk0
        rw [hfind']
        by_cases hx : t.dir.getD (IndexOf hash t k0) 0
            = t.dir.getD (IndexOf hash t k) 0
        · rw [if_pos hx, ehtFind, hx, bucketFind, bucketFind]
          dsimp only
          rw [hfo k0 hk0]
        · rw [if_neg hx, ehtFind]
  · rw [if_neg hp] at h
    rcases hloop : ehtSplitLoop hash fuel t k with _ | t2
    · rw [hloop] at h
      cases h
    · rw [hloop] at h
      obtain rfl := Option.some.inj h
      obtain ⟨hinv2, hfind2, hnotfull⟩ := splitLoop_spec hash fuel t k t2 hinv hloop
      have hfind2' : ∀ (S : Nat → EBucket) (k0 : Nat),
          ehtFind hash { t2 with store := S } k0
            = bucketFind (S (t2.dir.getD (IndexOf hash t2 k0) 0)) k0 := fun S k0 => rfl
      have hidx2 : IndexOf hash t2 k < t2.dir.length := by
        rw [indexOf_eq_mod, hinv2.dir_len]
        exact Nat.mod_lt _ (Nat.two_pow_pos _)
      have hfindk : ehtFind hash t2 k = none := by
        rw [hfind2 k, ehtFind]
        exact Option.not_isSome_iff_eq_none.mp hp
      have hknot : k ∉ (t2.store (t2.dir.getD (IndexOf hash t2 k) 0)).list.map Prod.fst := by
        rw [← bucketFind_eq_none_iff]
        rw [ehtFind] at hfindk
        exact hfindk
      have happ := bucketInsert_append (t2.store (t2.dir.getD (IndexOf hash t2 k) 0))
        k v hknot hnotfull
      simp only [happ]
      have hfnone : List.find? (fun p => p.1 == k)
          (t2.store (t2.dir.getD (IndexOf hash t2 k) 0)).list = none := by
        rw [ehtFind, bucketFind] at hfindk
        exact Option.map_eq_none'.mp hfindk
      refine ⟨?_, ?_, ?_⟩
      · apply storeUpdate_inv hash t2 _ _ hinv2
        · rw [List.map_append]
          refine List.Nodup.append (hinv2.nodup_keys _ hidx2) (by simp) ?_
          intro a ha ha2
          have : a = k := by simpa using ha2
          rw [this] at ha
          exact hknot ha
        · intro i hi hib p hp'
          rcases List.mem_append.mp hp' with hold | hnew
          · have hthis := hinv2.hashes i hi p (by rw [hib]; exact hold)
            rw [hib] at hthis
            exact hthis
          · have hpkv : p = (k, v) := by simpa using hnew
            have hii2 := (hinv2.classes (IndexOf hash t2 k) hidx2 i hi).mp
              (by rw [hib])
            have hld2 := hinv2.depth_le (IndexOf hash t2 k) hidx2
            rw [hpkv]
            show hash k % _ = _
            rw [hii2, indexOf_eq_mod]
            rw [indexOf_eq_mod] at hld2
            exact (mod_pow_of_le (hash k) _ _ hld2).symm
      · rw [hfind2']
        rw [if_pos rfl, bucketFind]
        dsimp only
        rw [List.find?_append, hfnone]
        simp
      · intro k0 hk0
        rw [hfind2']
        rw [← hfind2 k0]
        by_cases hx : t2.dir.getD (IndexOf hash t2 k0) 0
            = t2.dir.getD (IndexOf hash t2 k) 0
        · rw [if_pos hx, ehtFind, hx, bucketFind, bucketFind]
          dsimp only
          rw [List.find?_append]
          have hxnone : List.find? (fun p => p.1 == k0) [(k, v)] = none := by
            have hne : (k == k0) = false := by
              simp only [beq_eq_false_iff_ne]
              exact fun h0 => hk0 h0.symm
            simp [List.find?_cons, hne]
          rw [hxnone]
          simp
        · rw [if_neg hx, ehtFind]

theorem ehtInit_inv (hash : Nat → Nat) (sz : Nat) : EHTInv hash (ehtInit sz) := by
  refine ⟨rfl, ?_, ?_, ?_, ?_, ?_, ?_⟩
  · intro i hi
    simp [ehtInit] at hi ⊢
  · intro i hi
    simp [ehtInit]
  · intro i hi j hj
    simp [ehtInit] at hi hj ⊢
    omega
  · intro i hi p hp
    simp [ehtInit] at hp
  · intro i hi
    simp [ehtInit]
  · intro i hi
    simp [ehtInit]

theorem lastInsert_cons (k1 v1 : Nat) (rest : List (Nat × Nat)) (k : Nat) :
    lastInsert ((k1, v1) :: rest) k =
      (lastInsert rest k).or (if k1 = k then some v1 else none) := by
  rcases hr : List.find? (fun p => p.1 == k) rest.reverse with _ | p <;>
    by_cases hk1 : k1 = k <;>
      simp [lastInsert, List.find?_append, hr, hk1]

/-- A run of inserts computes the rightmost binding of every key. -/
theorem ehtRun_spec (hash : Nat → Nat) (fuel : Nat) :
    ∀ (ops : List (Nat × Nat)) (t t' : EHT), EHTInv hash t →
      ehtRun hash fuel t ops = some t' →
      EHTInv hash t' ∧ ∀ k,
        ehtFind hash t' k = (match lastInsert ops k with
          | some v => some v
          | none => ehtFind hash t k) := by
  intro ops
  induction ops with
  | nil =>
    intro t t' hinv h
    obtain rfl : t = t' := Option.some.inj h
    exact ⟨hinv, fun k => rfl⟩
  | cons kv rest ih =>
    rcases kv with ⟨k1, v1⟩
    intro t t' hinv h
    dsimp only [ehtRun] at h
    rcases hins : ehtInsert hash fuel t k1 v1 with _ | t1
    · rw [hins] at h
      cases h
    · rw [hins] at h
      obtain ⟨hinv1, hfk1, hfo1⟩ := ehtInsert_spec hash fuel t k1 v1 t1 hinv hins
      obtain ⟨hinv2, hfind2⟩ := ih t1 t' hinv1 h
      refine ⟨hinv2, ?_⟩
      intro k
      rw [hfind2 k, lastInsert_cons]
      rcases hr2 : lastInsert rest k with _ | v
      · simp only [Option.none_or]
        by_cases hk1 : k1 = k
        · subst hk1
          rw [if_pos rfl]
          exact hfk1
        · rw [if_neg hk1]
          exact hfo1 k (fun h0 => hk1 h0.symm)
      · rw [Option.or_some]

/-- C4: after any sequence of inserts (whose split loops terminate within
the given fuel), find returns the value of the most recent insert of each
key: duplicate keys are overwritten in place, and the directory-doubling
bucket splits lose no binding. -/
theorem C4_insert_find_round_trip (hash : Nat → Nat) (sz fuel : Nat)
    (ops : List (Nat × Nat)) (t : EHT)
    (h : ehtRun hash fuel (ehtInit sz) ops = some t) :
    ∀ k v, lastInsert ops k = some v → ehtFind hash t k = some v := by
  obtain ⟨-, hfind⟩ := ehtRun_spec hash fuel ops (ehtInit sz) t (ehtInit_inv hash sz) h
  intro k v hkv
  rw [hfind k, hkv]

theorem C4_insert_find_round_trip_witness :
    ehtFind (fun x => x)
        ((ehtRun (fun x => x) 5 (ehtInit 2) [(1, 10), (2, 20), (3, 30)]).getD (ehtInit 2)) 1
      = some 10 ∧
    ehtFind (fun x => x)
        ((ehtRun (fun x => x) 5 (ehtInit 2) [(1, 10), (2, 20), (3, 30)]).getD (ehtInit 2)) 2
      = some 20 ∧
    ehtFind (fun x => x)
        ((ehtRun (fun x => x) 5 (ehtInit 2) [(1, 10), (2, 20), (3, 30)]).getD (ehtInit 2)) 3
      = some 30 :=
  ⟨C4_insert_find_round_trip (fun x => x) 2 5 [(1, 10), (2, 20), (3, 30)] _ rfl 1 10
    (by decide),
   C4_insert_find_round_trip (fun x => x) 2 5 [(1, 10), (2, 20), (3, 30)] _ rfl 2 20
    (by decide),
   C4_insert_find_round_trip (fun x => x) 2 5 [(1, 10), (2, 20), (3, 30)] _ rfl 3 30
    (by decide)⟩

/-! ### B+ tree (claims C5 and C6)

Pages live in a store `pages : Int → BTPage` keyed by page id, so that the
pointer casts of the C++ (including the `reinterpret_cast` slip in
`Redistribute`) translate to page ids and aliasing is by construction.
Keys are `Nat` (the comparator is the natural order), leaf values and
child page ids share the `Int` value slot of `array_`.  The physical
array survives beyond `size_` exactly as in C++ (logical deletion),
which matters for the reference-after-shift reads of the move helpers.
Locking, latch crabbing and the buffer pool are not modelled; FetchPage
and NewPage are assumed to succeed, and DeletePage only frees buffer
frames without touching reachable tree content. -/

/-- A B+ tree page: `page_type_`, `size_`, `max_size_`,
`parent_page_id_`, `next_page_id_` (leaf only) and `array_`. -/
structure BTPage where
  is_leaf : Bool
  size : Nat
  max_size : Nat
  parent_page_id : Int
  next_page_id : Int
  arr : Nat → Nat × Int

/-- `BPlusTreePage::GetMinSize`. -/
def BTPage.minSize (p : BTPage) : Nat :=
  if p.is_leaf = false then
    if p.max_size % 2 = 0 then p.max_size / 2 else (p.max_size + 1) / 2
  else p.max_size / 2

/-- The tree: root id (−1 = empty), size limits, the page store and the
allocator for fresh page ids. -/
structure BTree where
  root_page_id : Int
  leaf_max_size : Nat
  internal_max_size : Nat
  pages : Int → BTPage
  next_page_id : Int

def setPage (t : BTree) (pid : Int) (p : BTPage) : BTree :=
  { t with pages := fun q => if q = pid then p else t.pages q }

/-- `std::lower_bound` over the valid prefix: the first index whose key is
not less than the probe (the arrays the tree maintains are sorted, on
which the binary search coincides with this first hit). -/
def lowerBound (arrf : Nat → Nat × Int) (size key : Nat) : Nat :=
  ((List.range size).find? (fun i => decide (key ≤ (arrf i).1))).getD size

/-- `BPlusTreeLeafPage::LookUp`. -/
def leafLookUp (p : BTPage) (key : Nat) : Option Int :=
  let idx := lowerBound p.arr p.size key
  if idx = p.size then none
  else if (p.arr idx).1 ≠ key then none
  else some (p.arr idx).2

/-- `BPlusTreeLeafPage::Insert`: returns the size after the call,
unchanged exactly when the key is already present. -/
def leafInsert (p : BTPage) (key : Nat) (v : Int) : Nat × BTPage :=
  let idx := lowerBound p.arr p.size key
  if idx = p.size ∨ (p.arr idx).1 ≠ key then
    let arr1 := fun i => if idx < i ∧ i ≤ p.size then p.arr (i - 1) else p.arr i
    let arr2 := fun i => if i = idx then (key, v) else arr1 i
    (p.size + 1, { p with size := p.size + 1, arr := arr2 })
  else (p.size, p)

/-- `BPlusTreeLeafPage::Remove`: returns the size after the call. -/
def leafRemove (p : BTPage) (key : Nat) : Nat × BTPage :=
  let idx := lowerBound p.arr p.size key
  if idx = p.size ∨ (p.arr idx).1 ≠ key then (p.size, p)
  else
    let arr1 := fun i => if idx ≤ i ∧ i + 1 < p.size then p.arr (i + 1) else p.arr i
    (p.size - 1, { p with size := p.size - 1, arr := arr1 })

/-- `BPlusTreeLeafPage::CopyLastFrom`; the item argument is a C++
reference, so it is dereferenced here, after any shifts the caller made. -/
def leafCopyLastFrom (t : BTree) (selfId itemPage : Int) (itemIdx : Nat) : BTree :=
  let p := t.pages selfId
  let item := (t.pages itemPage).arr itemIdx
  let arr1 := fun i => if i = p.size then item else p.arr i
  setPage t selfId { p with arr := arr1, size := p.size + 1 }

/-- `BPlusTreeLeafPage::CopyFirstFrom`: `move_backward` happens before
the reference argument is read. -/
def leafCopyFirstFrom (t : BTree) (selfId itemPage : Int) (itemIdx : Nat) : BTree :=
  let p := t.pages selfId
  let arr1 := fun i => if 1 ≤ i ∧ i ≤ p.size then p.arr (i - 1) else p.arr i
  let t1 := setPage t selfId { p with arr := arr1 }
  let item := (t1.pages itemPage).arr itemIdx
  let p1 := t1.pages selfId
  let arr2 := fun i => if i = 0 then item else p1.arr i
  setPage t1 selfId { p1 with arr := arr2, size := p1.size + 1 }

/-- `BPlusTreeLeafPage::MoveFirstToEnd`: `first_item` is a reference to
`array_[0]`, taken before the shift but only read inside CopyLastFrom. -/
def leafMoveFirstToEnd (t : BTree) (selfId sibId : Int) : BTree :=
  let p := t.pages selfId
  let arr1 := fun i => if i + 1 < p.size then p.arr (i + 1) else p.arr i
  let t1 := setPage t selfId { p with arr := arr1, size := p.size - 1 }
  leafCopyLastFrom t1 sibId selfId 0

/-- `BPlusTreeLeafPage::MoveLastToFront`: the reference points at
`array_[GetSize()-1]` of the original page. -/
def leafMoveLastToFront (t : BTree) (selfId sibId : Int) : BTree :=
  let p := t.pages selfId
  let t1 := setPage t selfId { p with size := p.size - 1 }
  leafCopyFirstFrom t1 sibId selfId (p.size - 1)

/-- `BPlusTreeLeafPage::MoveAllTo` (CopyNFrom into the sibling's tail,
then zero the own size). -/
def leafMoveAllTo (t : BTree) (selfId sibId : Int) : BTree :=
  let p := t.pages selfId
  let sb := t.pages sibId
  let arr1 := fun i => if sb.size ≤ i ∧ i < sb.size + p.size
    then p.arr (i - sb.size) else sb.arr i
  let t1 := setPage t sibId { sb with arr := arr1, size := sb.size + p.size }
  let p1 := t1.pages selfId
  setPage t1 selfId { p1 with size := p1.size - p1.size }

def internalSetKeyAt (t : BTree) (pid : Int) (idx key : Nat) : BTree :=
  let p := t.pages pid
  let arr1 := fun i => if i = idx then (key, (p.arr idx).2) else p.arr i
  setPage t pid { p with arr := arr1 }

/-- `BPlusTreeInternalPage::ValueIndex` (`find_if` position, size if absent). -/
def internalValueIndex (p : BTPage) (v : Int) : Nat :=
  ((List.range p.size).find? (fun i => decide ((p.arr i).2 = v))).getD p.size

/-- `BPlusTreeInternalPage::Remove(index)`. -/
def internalRemoveAt (t : BTree) (pid : Int) (idx : Nat) : BTree :=
  let p := t.pages pid
  let arr1 := fun i => if idx ≤ i ∧ i + 1 < p.size then p.arr (i + 1) else p.arr i
  setPage t pid { p with arr := arr1, size := p.size - 1 }

/-- `BPlusTreeInternalPage::CopyLastFrom` (value argument; reparents the
moved child). -/
def internalCopyLastFrom (t : BTree) (selfId : Int) (item : Nat × Int) : BTree :=
  let p := t.pages selfId
  let arr1 := fun i => if i = p.size then item else p.arr i
  let t1 := setPage t selfId { p with arr := arr1, size := p.size + 1 }
  let c := t1.pages item.2
  setPage t1 item.2 { c with parent_page_id := selfId }

/-- `BPlusTreeInternalPage::CopyFirstFrom`. -/
def internalCopyFirstFrom (t : BTree) (selfId : Int) (item : Nat × Int) : BTree :=
  let p := t.pages selfId
  let arr1 := fun i => if 1 ≤ i ∧ i ≤ p.size then p.arr (i - 1) else p.arr i
  let arr2 := fun i => if i = 0 then item else arr1 i
  let t1 := setPage t selfId { p with arr := arr2, size := p.size + 1 }
  let c := t1.pages item.2
  setPage t1 item.2 { c with parent_page_id := selfId }

/-- `BPlusTreeInternalPage::MoveFirstToEnd` (the internal variant copies
before shifting, unlike the leaf variant). -/
def internalMoveFirstToEnd (t : BTree) (selfId sibId : Int) (midKey : Nat) : BTree :=
  let t0 := internalSetKeyAt t selfId 0 midKey
  let item := (t0.pages selfId).arr 0
  let t1 := internalCopyLastFrom t0 sibId item
  let p := t1.pages selfId
  let arr1 := fun i => if i + 1 < p.size then p.arr (i + 1) else p.arr i
  setPage t1 selfId { p with arr := arr1, size := p.size - 1 }

/-- `BPlusTreeInternalPage::MoveLastToFront`. -/
def internalMoveLastToFront (t : BTree) (selfId sibId : Int) (midKey : Nat) : BTree :=
  let t0 := internalSetKeyAt t sibId 0 midKey
  let item := (t0.pages selfId).arr ((t0.pages selfId).size - 1)
  let t1 := internalCopyFirstFrom t0 sibId item
  let p := t1.pages selfId
  setPage t1 selfId { p with size := p.size - 1 }

/-- `BPlusTreeInternalPage::CopyNFrom` (copies `n` pairs to the tail and
reparents each moved child). -/
def internalCopyNFrom (t : BTree) (selfId : Int) (src : Nat → Nat × Int) (n : Nat) : BTree :=
  let p := t.pages selfId
  let before := p.size
  let arr1 := fun i => if before ≤ i ∧ i < before + n then src (i - before) else p.arr i
  let t1 := setPage t selfId { p with arr := arr1, size := before + n }
  (List.range n).foldl
    (fun acc j =>
      let cid := ((acc.pages selfId).arr (before + j)).2
      let c := acc.pages cid
      setPage acc cid { c with parent_page_id := selfId }) t1

/-- `BPlusTreeInternalPage::MoveAllTo`. -/
def internalMoveAllTo (t : BTree) (selfId sibId : Int) (midKey : Nat) : BTree :=
  let t0 := internalSetKeyAt t selfId 0 midKey
  let p := t0.pages selfId
  let t1 := internalCopyNFrom t0 sibId p.arr p.size
  let p1 := t1.pages selfId
  setPage t1 selfId { p1 with size := p1.size - p1.size }

/-- `BPlusTreeInternalPage::Insert` (position after `old_value`). -/
def internalInsert (t : BTree) (pid : Int) (oldVal : Int) (newKey : Nat)
    (newVal : Int) : Nat × BTree :=
  let p := t.pages pid
  let idx := internalValueIndex p oldVal + 1
  let arr1 := fun i => if idx < i ∧ i ≤ p.size then p.arr (i - 1) else p.arr i
  let arr2 := fun i => if i = idx then (newKey, newVal) else arr1 i
  (p.size + 1, setPage t pid { p with arr := arr2, size := p.size + 1 })

/-- The child chosen by the descent loop of `GetLeafPage`: rightmost
child by default, else the child left of the first strictly larger key. -/
def internalChild (p : BTPage) (key : Nat) : Int :=
  match (List.range' 1 (p.size - 1)).find? (fun i => decide (key < (p.arr i).1)) with
  | some i => (p.arr (i - 1)).2
  | none => (p.arr (p.size - 1)).2

/-- `GetLeafPage` descent (latching not modelled; both passes descend the
same way). -/
def getLeafPage (t : BTree) (key : Nat) : Nat → Int → Option Int
  | 0, _ => none
  | fuel + 1, pid =>
    if (t.pages pid).is_leaf then some pid
    else getLeafPage t key fuel (internalChild (t.pages pid) key)

/-- `BPlusTree::GetValue`. -/
def btGetValue (t : BTree) (fuel : Nat) (key : Nat) : Option Int :=
  if t.root_page_id = -1 then none
  else
    match getLeafPage t key fuel t.root_page_id with
    | none => none
    | some pid => leafLookUp (t.pages pid) key

/-- `BPlusTree::Split` (NewPage + Init + MoveHalfTo). -/
def btSplit (t : BTree) (pid : Int) : Int × BTree :=
  let nid := t.next_page_id
  let node := t.pages pid
  if node.is_leaf then
    let fresh : BTPage := ⟨true, 0, t.leaf_max_size, node.parent_page_id, -1, fun _ => (0, 0)⟩
    let ms := node.minSize
    let mv := node.max_size - ms
    let sib := { fresh with arr := fun i => if i < mv then node.arr (ms + i) else (0, 0),
                            size := mv }
    let t1 := setPage t pid { node with size := node.size - mv }
    (nid, { (setPage t1 nid sib) with next_page_id := nid + 1 })
  else
    let fresh : BTPage := ⟨false, 0, t.internal_max_size, node.parent_page_id, -1, fun _ => (0, 0)⟩
    let ms := node.minSize
    let mv := node.max_size - ms + 1
    let t1 := setPage t nid fresh
    let t2 := internalCopyNFrom t1 nid (fun j => node.arr (ms + j)) mv
    let nd := t2.pages pid
    let t3 := setPage t2 pid { nd with size := nd.size - mv }
    (nid, { t3 with next_page_id := nid + 1 })

/-- `BPlusTree::InsertIntoParent`. -/
def insertIntoParent (fuel : Nat) (t : BTree) (leftId : Int) (key : Nat)
    (rightId : Int) : Option BTree :=
  match fuel with
  | 0 => none
  | fuel + 1 =>
    if (t.pages leftId).parent_page_id = -1 then
      let rid := t.next_page_id
      let root : BTPage := ⟨false, 0, t.internal_max_size, -1, -1, fun _ => (0, 0)⟩
      let root1 := { root with
        arr := fun i => if i = 0 then (0, leftId)
               else if i = 1 then (key, rightId) else (0, 0),
        size := 2 }
      let t1 := setPage t rid root1
      let lp := t1.pages leftId
      let t2 := setPage t1 leftId { lp with parent_page_id := rid }
      let rp := t2.pages rightId
      let t3 := setPage t2 rightId { rp with parent_page_id := rid }
      some { t3 with root_page_id := rid, next_page_id := rid + 1 }
    else
      let pid := (t.pages leftId).parent_page_id
      let res := internalInsert t pid leftId key rightId
      if res.1 ≤ t.internal_max_size then some res.2
      else
        let sp := btSplit res.2 pid
        let parent_key := ((sp.2.pages sp.1).arr 0).1
        insertIntoParent fuel sp.2 pid parent_key sp.1

/-- `BPlusTree::Insert` (StartNewTree or InsertIntoLeaf). -/
def btInsert (t : BTree) (fuel : Nat) (key : Nat) (v : Int) : Option (Bool × BTree) :=
  if t.root_page_id = -1 then
    let rid := t.next_page_id
    let fresh : BTPage := ⟨true, 0, t.leaf_max_size, -1, -1, fun _ => (0, 0)⟩
    let res := leafInsert fresh key v
    some (true, { (setPage t rid res.2) with root_page_id := rid, next_page_id := rid + 1 })
  else
    match getLeafPage t key fuel t.root_page_id with
    | none => none
    | some pid =>
      let lp := t.pages pid
      let res := leafInsert lp key v
      if lp.size = res.1 then some (false, t)
      else
        let t1 := setPage t pid res.2
        if res.1 < t.leaf_max_size then some (true, t1)
        else
          let sp := btSplit t1 pid
          let sib := sp.2.pages sp.1
          let t2 := setPage sp.2 sp.1 { sib with next_page_id := (sp.2.pages pid).next_page_id }
          let lf := t2.pages pid
          let t3 := setPage t2 pid { lf with next_page_id := sp.1 }
          let parent_key := ((t3.pages sp.1).arr 0).1
          match insertIntoParent fuel t3 pid parent_key sp.1 with
          | none => none
          | some t4 => some (true, t4)

/-- `BPlusTree::AdjustRoot`. -/
def adjustRoot (t : BTree) (pid : Int) : Bool × BTree :=
  let p := t.pages pid
  if p.is_leaf = false ∧ p.size = 1 then
    let cid := (p.arr 0).2
    let c := t.pages cid
    let t1 := setPage t cid { c with parent_page_id := -1 }
    (true, { t1 with root_page_id := cid })
  else if p.is_leaf = true ∧ p.size = 0 then
    (true, { t with root_page_id := -1 })
  else (false, t)

/-- `BPlusTree::Redistribute`, translated with the source's casts: in the
leaf branch BOTH local pointers are obtained by casting `node`
(`reinterpret_cast<LeafPage*>(node)` twice), so the sibling alias of the
leaf case is the underfull page itself. -/
def redistribute (t : BTree) (sibId nodeId parentId : Int) (index : Nat) : BTree :=
  let node := t.pages nodeId
  if node.is_leaf then
    let leafId := nodeId
    let siblingLeafId := nodeId
    if index = 0 then
      let t1 := leafMoveFirstToEnd t siblingLeafId leafId
      internalSetKeyAt t1 parentId 1 ((t1.pages siblingLeafId).arr 0).1
    else
      let t1 := leafMoveLastToFront t siblingLeafId leafId
      internalSetKeyAt t1 parentId index ((t1.pages leafId).arr 0).1
  else
    if index = 0 then
      let t1 := internalMoveFirstToEnd t sibId nodeId ((t.pages parentId).arr 1).1
      internalSetKeyAt t1 parentId 1 ((t1.pages sibId).arr 0).1
    else
      let t1 := internalMoveLastToFront t sibId nodeId ((t.pages parentId).arr index).1
      internalSetKeyAt t1 parentId index ((t1.pages nodeId).arr 0).1

/-- `BPlusTree::CoalesceOrRedistribute` with `Coalesce` inlined at its
only call site (mutual recursion on the parent, fuel-bounded).  The
deleted-page set only releases buffer frames and is not modelled. -/
def coalesceOrRedistribute : BTree → Nat → Int → Option (Bool × BTree)
  | _, 0, _ => none
  | t, fuel + 1, pid =>
    let node := t.pages pid
    if node.parent_page_id = -1 then some (adjustRoot t pid)
    else if node.minSize ≤ node.size then some (false, t)
    else
      let parentId := node.parent_page_id
      let parent := t.pages parentId
      let index := internalValueIndex parent pid
      let sibId := (parent.arr (if index = 0 then 1 else index - 1)).2
      if node.max_size ≤ node.size + (t.pages sibId).size then
        some (false, redistribute t sibId pid parentId index)
      else
        let parent_key_index := if index = 0 then 1 else index
        let pr := if index = 0 then (sibId, pid) else (pid, sibId)
        let nodeId := pr.1
        let leftId := pr.2
        let t1 := if (t.pages nodeId).is_leaf then
            let ta := leafMoveAllTo t nodeId leftId
            let lp := ta.pages leftId
            setPage ta leftId { lp with next_page_id := (ta.pages nodeId).next_page_id }
          else
            internalMoveAllTo t nodeId leftId ((t.pages parentId).arr parent_key_index).1
        let t2 := internalRemoveAt t1 parentId parent_key_index
        match coalesceOrRedistribute t2 fuel parentId with
        | none => none
        | some pr2 => some (true, pr2.2)

/-- `BPlusTree::Remove`. -/
def btRemove (t : BTree) (fuel : Nat) (key : Nat) : Option BTree :=
  if t.root_page_id = -1 then some t
  else
    match getLeafPage t key fuel t.root_page_id with
    | none => none
    | some pid =>
      let lp := t.pages pid
      let res := leafRemove lp key
      if lp.size = res.1 then some t
      else
        let t1 := setPage t pid res.2
        match coalesceOrRedistribute t1 fuel pid with
        | none => none
        | some pr => some pr.2

/-- The C5 failing input: root internal page 1 with children leaf 2
(keys 1,2) and leaf 3 (keys 3,4,5), leaf max size 4 (min size 2). -/
def C5tree : BTree :=
  { root_page_id := 1, leaf_max_size := 4, internal_max_size := 4,
    next_page_id := 4,
    pages := fun pid =>
      if pid = 1 then ⟨false, 2, 4, -1, -1, fun i => [(0, (2 : Int)), (3, 3)].getD i (0, 0)⟩
      else if pid = 2 then ⟨true, 2, 4, 1, 3, fun i => [(1, (100 : Int)), (2, 200)].getD i (0, 0)⟩
      else if pid = 3 then
        ⟨true, 3, 4, 1, -1, fun i => [(3, (300 : Int)), (4, 400), (5, 500)].getD i (0, 0)⟩
      else ⟨true, 0, 4, -1, -1, fun _ => (0, 0)⟩ }

/-- C5 (code bug): `Redistribute` casts BOTH leaf pointers from `node`
(line 745 reads `reinterpret_cast<LeafPage*>(node)` where the intended
source is `sibling_node`), so the leaf redistribution borrows from the
underfull page itself.  Removing key 1 from `C5tree` leaves leaf 2 with
size 1 < min 2 and its right sibling with combined size 1+3 ≥ max 4, so
the claim requires one pair to move from leaf 3 into leaf 2 and the
separator to become 4.  Instead the code leaves leaf 3 completely
untouched (size 3, first pair still (3,300)), leaf 2 still underfull
with its lone pair (2,200), and sets the separator to 2, the first key
of the underfull page itself. -/
theorem C5_redistribute_leaf_alias_bug :
    (btRemove C5tree 10 1).isSome = true ∧
    (((btRemove C5tree 10 1).getD C5tree).pages 3).size = 3 ∧
    (((btRemove C5tree 10 1).getD C5tree).pages 3).arr 0 = (3, 300) ∧
    (((btRemove C5tree 10 1).getD C5tree).pages 2).size = 1 ∧
    (((btRemove C5tree 10 1).getD C5tree).pages 2).size
      < (((btRemove C5tree 10 1).getD C5tree).pages 2).minSize ∧
    ((((btRemove C5tree 10 1).getD C5tree).pages 1).arr 1).1 = 2 ∧
    (((btRemove C5tree 10 1).getD C5tree).pages 2).arr 0 = (2, 200) := by
  decide

/-- C6: inserting a key the tree's own lookup already finds returns
false and leaves the tree state completely unchanged: the descent of
Insert reaches the same leaf as GetValue, and the leaf-level Insert
returns the unchanged size without writing, which InsertIntoLeaf treats
as a duplicate and aborts before any modification. -/
theorem C6_duplicate_insert_noop (t : BTree) (fuel : Nat) (k : Nat) (v : Int)
    (hfound : (btGetValue t fuel k).isSome = true) :
    btInsert t fuel k v = some (false, t) := by
  rw [btGetValue] at hfound
  by_cases hroot : t.root_page_id = -1
  · rw [if_pos hroot] at hfound
    simp at hfound
  · rw [if_neg hroot] at hfound
    rcases hleaf : getLeafPage t k fuel t.root_page_id with _ | pid
    · rw [hleaf] at hfound
      simp at hfound
    · rw [hleaf] at hfound
      dsimp only [leafLookUp] at hfound
      by_cases h1 : lowerBound (t.pages pid).arr (t.pages pid).size k = (t.pages pid).size
      · rw [if_pos h1] at hfound
        simp at hfound
      · rw [if_neg h1] at hfound
        by_cases h2 : ((t.pages pid).arr
            (lowerBound (t.pages pid).arr (t.pages pid).size k)).1 ≠ k
        · rw [if_pos h2] at hfound
          simp at hfound
        · have hins : (leafInsert (t.pages pid) k v).1 = (t.pages pid).size := by
            dsimp only [leafInsert]
            rw [if_neg (fun hor => Or.elim hor h1 h2)]
          dsimp only [btInsert]
          rw [if_neg hroot, hleaf]
          dsimp only
          rw [hins, if_pos rfl]

/-- The C6 witness tree: a single root leaf holding keys 1 and 2. -/
def C6tree : BTree :=
  { root_page_id := 1, leaf_max_size := 4, internal_max_size := 4, next_page_id := 2,
    pages := fun pid =>
      if pid = 1 then ⟨true, 2, 4, -1, -1, fun i => [(1, (10 : Int)), (2, 20)].getD i (0, 0)⟩
      else ⟨true, 0, 4, -1, -1, fun _ => (0, 0)⟩ }

theorem C6_duplicate_insert_noop_witness :
    (btGetValue C6tree 2 1).isSome = true ∧
    btInsert C6tree 2 1 99 = some (false, C6tree) :=
  ⟨by decide, C6_duplicate_insert_noop C6tree 2 1 99 (by decide)⟩

end Bustub
